import Mathlib

/-!
ChemSolve backend: formula parser, equation balancer and molecule geometry.

A shallow embedding of `src/utils/balanceEquation.js` (`parseFormula`, `findGCD`,
`findLCM`, `solveLinearSystem`, `balanceEquation`) and of `src/utils/generateMolecule.js`
(`getBondLength`, `calculateDistance`, `generateSimpleMoleculeStructure`), and the
properties of them that the specification states.

Conventions of the embedding.

* A JavaScript string is a `List Char`; string literals are written `"H2O".toList`.
* A JavaScript object used as a map from element symbols to counts is an association list
  in insertion order (the order in which `Object.keys` and `for … in` enumerate, since an
  element symbol is never an integer-like key).
* Arithmetic is exact: counts are natural numbers, matrix entries are rationals,
  coefficients are integers, and an integer is printed with all its decimal digits. The
  comparisons of the solver with the tolerance `1e-10` are kept as they are written, with
  the rational `1 / 10 ^ 10`.
* The library call `math.fraction(val)` is the routine of the library Fraction.js for a
  number: a search by mediants among the fractions whose denominator is at most `10 ^ 7`,
  which gives the fraction of `val` in lowest terms only when the search meets it.
* A `while` or `for` loop is a fold over its index range or a structural recursion on the
  characters left; a loop whose recursion is not structural takes a fuel argument that is
  proved to be enough.
* `try … catch` is an `Except`: the body returns the cause of its failure, the wrapper
  replaces every cause by the one message the source throws.
-/

namespace ChemSolve

/-! ## Formula parser (`parseFormula`) -/

/-- The map from element symbol to count, in insertion order. -/
abbrev ElementCount := List (List Char × Nat)

/-- The test `char >= 'A' && char <= 'Z'`. -/
def isUpper (c : Char) : Bool := decide ('A' ≤ c) && decide (c ≤ 'Z')

/-- The test `formula[i] >= 'a' && formula[i] <= 'z'`. -/
def isLower (c : Char) : Bool := decide ('a' ≤ c) && decide (c ≤ 'z')

/-- The tests `/[0-9]/.test(formula[i])` and `char >= '0' && char <= '9'`. -/
def isDigit (c : Char) : Bool := decide ('0' ≤ c) && decide (c ≤ '9')

/-- Value of one decimal digit character. -/
def digitValue (c : Char) : Nat := c.toNat - '0'.toNat

/-- The call `parseInt(s)` on a string of decimal digits. -/
def parseInt (s : List Char) : Nat := s.foldl (fun acc c => 10 * acc + digitValue c) 0

/-- The expression `s ? parseInt(s) : 1`, used for `currentCount` and for `multiplier`:
the empty string is falsy, every other string is parsed (so `"0"` gives `0`). -/
def countOf (s : List Char) : Nat := if s.isEmpty then 1 else parseInt s

/-- The expression `elements[el] || 0`. -/
def getCount : ElementCount → List Char → Nat
  | [], _ => 0
  | (e, c) :: rest, el => if e = el then c else getCount rest el

/-- The assignment `elements[el] = (elements[el] || 0) + k`: an existing key keeps its
place, a new key is appended. -/
def addCount : ElementCount → List Char → Nat → ElementCount
  | [], el, k => [(el, k)]
  | (e, c) :: rest, el, k => if e = el then (e, c + k) :: rest else (e, c) :: addCount rest el k

/-- The loop `for (const element in subElements) elements[element] = (elements[element] || 0)
+ subElements[element] * multiplier`. -/
def mergeScaled (elements sub : ElementCount) (multiplier : Nat) : ElementCount :=
  sub.foldl (fun acc p => addCount acc p.1 (p.2 * multiplier)) elements

/-- The inner loop of the `(` branch: from the character after the `(`, with `depth`
open groups, collect `subgroup` until `depth` reaches `0` or the string ends. Returns
`subgroup` and the characters left after the loop. -/
def scanGroup : Nat → List Char → List Char × List Char
  | _, [] => ([], [])
  | 0, c :: rest => ([], c :: rest)
  | d + 1, c :: rest =>
    let opened := if c = '(' then d + 2 else d + 1
    let depth := if c = ')' then opened - 1 else opened
    let r := scanGroup depth rest
    (if depth > 0 then c :: r.1 else r.1, r.2)

/-- The final `if (currentElement) { … }` and the same block at the start of the element
branch: record the pending element with its count. -/
def flush (elements : ElementCount) (currentElement currentCount : List Char) : ElementCount :=
  if currentElement.isEmpty then elements
  else addCount elements currentElement (countOf currentCount)

/-- The main `while (i < formula.length)` loop of `parseFormula`, on the characters from
index `i` on. Every iteration consumes at least one character and the recursive call on
`subgroup` receives a shorter string, so `fuel` equal to the length of the string is
enough (`parseLoop_isSome`); `none` only means that the fuel ran out. -/
def parseLoop : Nat → List Char → ElementCount → List Char → List Char → Option ElementCount
  | _, [], elements, currentElement, currentCount =>
    some (flush elements currentElement currentCount)
  | 0, _ :: _, _, _, _ => none
  | fuel + 1, c :: rest, elements, currentElement, currentCount =>
    if c = '(' then
      let g := scanGroup 1 rest
      let multiplier := countOf (g.2.takeWhile isDigit)
      match parseLoop fuel g.1 [] [] [] with
      | none => none
      | some subElements =>
        parseLoop fuel (g.2.dropWhile isDigit) (mergeScaled elements subElements multiplier)
          currentElement currentCount
    else if isUpper c then
      parseLoop fuel (rest.dropWhile isLower) (flush elements currentElement currentCount)
        (c :: rest.takeWhile isLower) (if currentElement.isEmpty then currentCount else [])
    else if isDigit c then
      parseLoop fuel rest elements currentElement (currentCount ++ [c])
    else
      parseLoop fuel rest elements currentElement currentCount

/-- The function `parseFormula(formula)`. The source has no `throw`: it returns a map for
every string. -/
def parseFormula (formula : List Char) : ElementCount :=
  (parseLoop formula.length formula [] [] []).getD []

/-! ## Greatest common divisor and least common multiple (`findGCD`, `findLCM`) -/

/-- The inner function `gcd(a, b)` of `findGCD`, after `a = Math.abs(a)` and
`b = Math.abs(b)`: `if (b === 0) return a; return gcd(b, a % b)`. The second argument
strictly decreases, so `fuel` above it is enough (`gcdLoop_eq`). -/
def gcdLoop : Nat → Nat → Nat → Nat
  | 0, a, _ => a
  | fuel + 1, a, b => if b = 0 then a else gcdLoop fuel b (a % b)

/-- The inner function `gcd(a, b)` of `findGCD`, absolute values included. -/
def gcd (a b : ℤ) : ℤ := gcdLoop (b.natAbs + 1) a.natAbs b.natAbs

/-- The function `findGCD(numbers)`. On the empty array the source returns `NaN`
(`numbers[0]` is `undefined`); the embedding returns `0` there. -/
def findGCD : List ℤ → ℤ
  | [] => 0
  | first :: others => |others.foldl gcd first|

/-- The inner function `lcm(a, b)` of `findLCM`: `Math.abs(a * b) / findGCD([a, b])`. The
quotient is exact, `findGCD([a, b])` divides `a * b`. -/
def lcm (a b : ℤ) : ℤ := |a * b| / findGCD [a, b]

/-- The function `findLCM(numbers)`, called on a non-empty array only. -/
def findLCM : List ℤ → ℤ
  | [] => 0
  | first :: others => |others.foldl lcm first|

/-! ## Linear solver (`solveLinearSystem`) -/

/-- A matrix is an array of rows. -/
abbrev Matrix := List (List ℚ)

/-- The tolerance `1e-10`. -/
def threshold : ℚ := 1 / 10 ^ 10

/-- The read `augmentedMatrix[row][col]`. -/
def entry (aug : Matrix) (row col : Nat) : ℚ := (aug.getD row []).getD col 0

/-- The loop that selects `pivotRow`: the first row of largest absolute value in column
`col` among the rows `rank`, …, `m - 1`. -/
def findPivotRow (aug : Matrix) (col rank m : Nat) : Nat :=
  (List.range' (rank + 1) (m - (rank + 1))).foldl
    (fun pivotRow row => if |entry aug row col| > |entry aug pivotRow col| then row else pivotRow)
    rank

/-- The swap `[aug[rank], aug[pivotRow]] = [aug[pivotRow], aug[rank]]`. -/
def swapRows (aug : Matrix) (rank pivotRow : Nat) : Matrix :=
  (aug.set rank (aug.getD pivotRow [])).set pivotRow (aug.getD rank [])

/-- The loop `for (j = col; j <= n; j++) aug[rank][j] /= pivot`. -/
def scaleRow (aug : Matrix) (n col rank : Nat) (pivot : ℚ) : Matrix :=
  aug.mapIdx fun r line =>
    if r = rank then line.mapIdx fun j x => if col ≤ j ∧ j ≤ n then x / pivot else x
    else line

/-- The loop over all rows that clears column `col` outside the pivot row:
`if (row !== rank && Math.abs(aug[row][col]) > 1e-10) { factor = aug[row][col];
for (j = col; j <= n; j++) aug[row][j] -= factor * aug[rank][j] }`. -/
def eliminateColumn (aug : Matrix) (n col rank : Nat) : Matrix :=
  aug.mapIdx fun r line =>
    if r ≠ rank ∧ |line.getD col 0| > threshold then
      line.mapIdx fun j x => if col ≤ j ∧ j ≤ n then x - line.getD col 0 * entry aug rank j else x
    else line

/-- One iteration of the forward-elimination loop, for column `col`, on the state
`(augmentedMatrix, rank)`. The loop condition `rank < m` is the guard: once it fails the
state no longer changes. -/
def forwardStep (n m : Nat) (st : Matrix × Nat) (col : Nat) : Matrix × Nat :=
  if st.2 < m then
    let pivotRow := findPivotRow st.1 col st.2 m
    if |entry st.1 pivotRow col| < threshold then st
    else
      let swapped := if pivotRow ≠ st.2 then swapRows st.1 st.2 pivotRow else st.1
      let scaled := scaleRow swapped n col st.2 (entry swapped st.2 col)
      (eliminateColumn scaled n col st.2, st.2 + 1)
  else st

/-- The forward-elimination loop `for (col = 0; col < n && rank < m; col++)`. Returns the
reduced matrix and `rank`. -/
def forwardElimination (aug : Matrix) (n m : Nat) : Matrix × Nat :=
  (List.range n).foldl (forwardStep n m) (aug, 0)

/-- The consistency check: no row from `rank` on has `Math.abs(aug[row][n]) > 1e-10`. -/
def consistent (aug : Matrix) (n m rank : Nat) : Bool :=
  (List.range' rank (m - rank)).all fun row => !decide (|entry aug row n| > threshold)

/-- One iteration of the loop that identifies free variables, on the state
`(row, solution)`. -/
def identifyStep (aug : Matrix) (n rank : Nat) (st : Nat × List ℚ) (col : Nat) :
    Nat × List ℚ :=
  if st.1 < rank ∧ |entry aug st.1 col - 1| < threshold then
    (st.1 + 1, st.2.set col (entry aug st.1 n))
  else (st.1, st.2.set col 1)

/-- The loop that identifies free variables, from `solution = new Array(n).fill(0)`; the
array `freeVars` is written but never read and is left out. -/
def identifyFree (aug : Matrix) (n rank : Nat) : List ℚ :=
  ((List.range n).foldl (identifyStep aug n rank) (0, List.replicate n 0)).2

/-- The search for `pivotCol` in row `r`: the first column whose entry is within the
tolerance of `1`; `none` stands for `-1`. -/
def findPivotCol (aug : Matrix) (n r : Nat) : Option Nat :=
  (List.range n).find? fun col => decide (|entry aug r col - 1| < threshold)

/-- One iteration of the back-substitution loop, for row `r`. -/
def backStep (aug : Matrix) (n : Nat) (solution : List ℚ) (r : Nat) : List ℚ :=
  match findPivotCol aug n r with
  | none => solution
  | some pivotCol =>
    solution.set pivotCol
      (-(List.range' (pivotCol + 1) (n - (pivotCol + 1))).foldl
        (fun sum col => sum + entry aug r col * solution.getD col 0) 0)

/-- The back-substitution loop `for (r = rank - 1; r >= 0; r--)`. -/
def backSubstitute (aug : Matrix) (n rank : Nat) (solution : List ℚ) : List ℚ :=
  (List.range rank).reverse.foldl (backStep aug n) solution

/-- The raw solution vector: elimination, free variables, back-substitution. -/
def rawSolution (aug : Matrix) (n m : Nat) : List ℚ :=
  let st := forwardElimination aug n m
  backSubstitute st.1 n st.2 (identifyFree st.1 n st.2)

/-- The call `Math.round(x)`: the integer nearest to `x`, halves rounded up. -/
def jsRound (x : ℚ) : ℤ := ⌊x + 1 / 2⌋

/-- The step "ensure positive coefficients": when the minimum is `<= 0`, add
`Math.abs(minCoeff) + 1` to every entry. `Math.min()` of no argument is `Infinity`. -/
def ensurePositive (intSolution : List ℤ) : List ℤ :=
  match intSolution.min? with
  | none => intSolution
  | some minCoeff =>
    if minCoeff ≤ 0 then intSolution.map fun x => x + (|minCoeff| + 1) else intSolution

/-- The step "simplify using GCD": divide every entry by the `findGCD` of the non-zero
entries and round. -/
def simplify (intSolution : List ℤ) : List ℤ :=
  let g := findGCD (intSolution.filter fun val => val ≠ 0)
  intSolution.map fun (x : ℤ) => jsRound ((x : ℚ) / (g : ℚ))

/-- The bound `N = 10000000` on the denominators in the search of `math.fraction`. -/
def fractionBound : Nat := 10000000

/-- The object returned by `math.fraction`: the sign `s`, the numerator `n` and the
denominator `d`. -/
structure Fraction where
  s : ℤ
  n : Nat
  d : Nat
  deriving DecidableEq, Repr

/-- The loop `while (B <= N && D <= N)` of the library routine behind `math.fraction` on a
number: a search for `p1` by mediants between `A / B` and `C / D`, on the state
`(A, B, C, D)` and the pair `(n, d)` assigned so far. One iteration is
`M = (A + C) / (B + D)`; when `p1 === M` the loop ends with `(A + C, B + D)` if
`B + D <= N`, else with `(C, D)` if `D > B`, else with `(A, B)`; otherwise `A += C; B += D`
when `p1 > M` and `C += A; D += B` when not, followed by `(n, d) = (C, D)` if `B > N` and
`(n, d) = (A, B)` if not. Every iteration raises `B + D`, so `fuel` of `2 * N` is enough
(`fareyLoop_fuel`). -/
def fareyLoop : Nat → ℚ → Nat → Nat → Nat → Nat → Nat × Nat → Nat × Nat
  | 0, _, _, _, _, _, nd => nd
  | fuel + 1, p1, A, B, C, D, nd =>
    if B ≤ fractionBound ∧ D ≤ fractionBound then
      if p1 = ((A + C : Nat) : ℚ) / ((B + D : Nat) : ℚ) then
        if B + D ≤ fractionBound then (A + C, B + D) else if D > B then (C, D) else (A, B)
      else if p1 > ((A + C : Nat) : ℚ) / ((B + D : Nat) : ℚ) then
        fareyLoop fuel p1 (A + C) (B + D) C D
          (if B + D > fractionBound then (C, D) else (A + C, B + D))
      else
        fareyLoop fuel p1 A B (C + A) (D + B)
          (if B > fractionBound then (C + A, D + B) else (A, B))
    else nd

/-- The exponent `Math.floor(1 + Math.log10(p1))` for `p1 ≥ 1`: the number of decimal
digits of the integer part of `p1`. -/
def scaleExponent (p1 : ℚ) : Nat := (Nat.toDigits 10 ⌊p1⌋.toNat).length

/-- The pair `(n, d)` that the library routine computes for a number `p1 ≥ 0`, before the
common factor is removed: `(p1, 1)` when `p1 % 1 === 0`; otherwise `p1` is divided by
`z = 10 ** Math.floor(1 + Math.log10(p1))` when `p1 >= 1`, the search runs from `0 / 1` and
`1 / 1` with `(n, d) = (0, 1)`, and `n` is multiplied by `z`. -/
def parseNumber (p1 : ℚ) : Nat × Nat :=
  if p1 = (⌊p1⌋ : ℚ) then (⌊p1⌋.toNat, 1)
  else
    let z : Nat := if p1 ≥ 1 then 10 ^ scaleExponent p1 else 1
    let found := fareyLoop (2 * fractionBound) (p1 / (z : ℚ)) 0 1 1 1 (0, 1)
    (found.1 * z, found.2)

/-- The library call `math.fraction(val)` on a number: the sign is taken off, the pair
`(n, d)` is computed from the absolute value and divided by its greatest common divisor. -/
def fraction (val : ℚ) : Fraction :=
  let parsed := parseNumber (if val < 0 then -val else val)
  let a := Nat.gcd parsed.2 parsed.1
  { s := if val < 0 then -1 else 1, n := parsed.1 / a, d := parsed.2 / a }

/-- The conversion of the raw solution to positive integers: the denominators `d` of
`math.fraction(val)`, their least common multiple, the rounded products, the offset and
the division by the greatest common divisor. -/
def normalize (solution : List ℚ) : List ℤ :=
  let denominators := (solution.map fun val => ((fraction val).d : ℤ)).filter fun d => d ≠ 0
  let lcm : ℤ := if denominators.length > 0 then findLCM denominators else 1
  simplify (ensurePositive (solution.map fun val => jsRound (val * lcm)))

/-- The causes of failure inside the `try` block of `balanceEquation`. -/
inductive Failure where
  /-- A `TypeError`: a property of `undefined` is read. -/
  | typeError
  /-- The error `"System has no solution"` thrown by the consistency check. -/
  | noSolution
  deriving DecidableEq, Repr

deriving instance DecidableEq for Except

/-- The function `solveLinearSystem(matrix, elementsCount)`; the second argument is not
used by the source. The rows of `matrix` have one common length, as the rows built by
`balanceEquation` have. On the empty matrix `augmentedMatrix[0].length` is a `TypeError`. -/
def solveLinearSystem (matrix : Matrix) : Except Failure (List ℤ) :=
  match matrix with
  | [] => .error .typeError
  | first :: _ =>
    let aug := matrix.map fun line => line ++ [0]
    let n := first.length
    let m := aug.length
    let st := forwardElimination aug n m
    if consistent st.1 n m st.2 then
      .ok (normalize (backSubstitute st.1 n st.2 (identifyFree st.1 n st.2)))
    else .error .noSolution

/-! ## Equation balancer (`balanceEquation`) -/

/-- The characters removed by `String.prototype.trim`: white space and line
terminators. -/
def isWhitespace (c : Char) : Bool :=
  c.toNat ∈ [0x09, 0x0A, 0x0B, 0x0C, 0x0D, 0x20, 0xA0, 0x1680, 0x2028, 0x2029, 0x202F, 0x205F,
    0x3000, 0xFEFF] || (decide (0x2000 ≤ c.toNat) && decide (c.toNat ≤ 0x200A))

/-- The method `trim()`. -/
def trim (s : List Char) : List Char :=
  ((s.dropWhile isWhitespace).reverse.dropWhile isWhitespace).reverse

/-- The call `equation.split('->')`: the pieces between successive occurrences of the
arrow, found from left to right. -/
def splitArrow : List Char → List (List Char)
  | [] => [[]]
  | '-' :: '>' :: rest => [] :: splitArrow rest
  | c :: rest =>
    match splitArrow rest with
    | [] => [[c]]
    | piece :: pieces => (c :: piece) :: pieces

/-- The call `side.split('+')`. -/
def splitPlus : List Char → List (List Char)
  | [] => [[]]
  | c :: rest =>
    if c = '+' then [] :: splitPlus rest
    else
      match splitPlus rest with
      | [] => [[c]]
      | piece :: pieces => (c :: piece) :: pieces

/-- The set `allElements` as an array: the keys of the parsed molecules, each once, in
the order of first insertion. -/
def allElements (molecules : List (List Char)) : List (List Char) :=
  molecules.foldl
    (fun set molecule =>
      (parseFormula molecule).foldl (fun acc p => if p.1 ∈ acc then acc else acc ++ [p.1]) set)
    []

/-- One row of the matrix, for `element`: `row = Array(n).fill(0)`, then for each reactant
`if (count) row[i] = count` and for each product `if (count) row[i + reactants.length] =
-count`, where `count` is `moleculesElements[molecule][element]`. -/
def matrixRow (reactants products : List (List Char)) (element : List Char) : List ℚ :=
  (reactants.map fun r =>
      if getCount (parseFormula r) element ≠ 0 then (getCount (parseFormula r) element : ℚ) else 0) ++
    products.map fun p =>
      if getCount (parseFormula p) element ≠ 0 then -(getCount (parseFormula p) element : ℚ) else 0

/-- The matrix built by `balanceEquation`: one row per element of `allElements`. -/
def buildMatrix (reactants products : List (List Char)) : Matrix :=
  (allElements (reactants ++ products)).map (matrixRow reactants products)

/-- The string of an integer in a template literal. -/
def numberToString : ℤ → List Char
  | .ofNat k => Nat.toDigits 10 k
  | .negSucc k => '-' :: Nat.toDigits 10 (k + 1)

/-- The callback `(r, i) => coefficients[i] === 1 ? r : `${coefficients[i]}${r}``; a
missing coefficient is `undefined`. -/
def renderMolecule (coefficient : Option ℤ) (r : List Char) : List Char :=
  match coefficient with
  | none => "undefined".toList ++ r
  | some c => if c = 1 then r else numberToString c ++ r

/-- The call `molecules.map((r, i) => …)`, from index `i` on. -/
def renderFrom (coefficients : List ℤ) : Nat → List (List Char) → List (List Char)
  | _, [] => []
  | i, r :: rest => renderMolecule coefficients[i]? r :: renderFrom coefficients (i + 1) rest

/-- The object returned by `balanceEquation`. -/
structure BalancedEquation where
  balancedEquation : List Char
  reactants : List (List Char)
  products : List (List Char)
  reactantCoefficients : List ℤ
  productCoefficients : List ℤ
  deriving DecidableEq, Repr

/-- The body of the `try` block of `balanceEquation`. Destructuring takes the first two
pieces of the split and ignores the others; with one piece `productsStr` is `undefined`
and `productsStr.split` is a `TypeError`. -/
def balanceEquationBody (equation : List Char) : Except Failure BalancedEquation :=
  match (splitArrow equation).map trim with
  | reactantsStr :: productsStr :: _ =>
    let reactants := (splitPlus reactantsStr).map trim
    let products := (splitPlus productsStr).map trim
    match solveLinearSystem (buildMatrix reactants products) with
    | .error cause => .error cause
    | .ok coefficients =>
      let reactantCoefficients := coefficients.take reactants.length
      let productCoefficients := coefficients.drop reactants.length
      .ok {
        balancedEquation :=
          List.intercalate " + ".toList (renderFrom reactantCoefficients 0 reactants) ++
            " -> ".toList ++
            List.intercalate " + ".toList (renderFrom productCoefficients 0 products)
        reactants := reactants
        products := products
        reactantCoefficients := reactantCoefficients
        productCoefficients := productCoefficients }
  | _ => .error .typeError

/-- The message of the one error `balanceEquation` throws. -/
def failureMessage : List Char := "Could not balance the equation. Please check your input.".toList

/-- The function `balanceEquation(equation)`: the `catch` block replaces every cause by
one error with the fixed message. -/
def balanceEquation (equation : List Char) : Except (List Char) BalancedEquation :=
  match balanceEquationBody equation with
  | .ok result => .ok result
  | .error _ => .error failureMessage


/-! ## Molecule geometry (`generateMolecule.js`)

The numbers of the element table and of the bond table are decimal literals and are kept
as rationals. A position is computed with `Math.sin`, `Math.cos` and `Math.PI`; these are
parameters of the embedding, together with the field `R` of the coordinates, and the
statements about positions take them over the real numbers. -/

/-- The part of the JavaScript object `Math` that the geometry uses, on numbers in `R`. -/
structure JsMath (R : Type) where
  sin : R → R
  cos : R → R
  sqrt : R → R
  PI : R

/-- An entry of `ELEMENT_PROPERTIES`. -/
structure ElementProperty where
  color : List Char
  radius : ℚ
  mass : ℚ

/-- The table `ELEMENT_PROPERTIES`. -/
def ELEMENT_PROPERTIES : List (List Char × ElementProperty) :=
  [("H".toList, ⟨"#FFFFFF".toList, 31 / 100, 1008 / 1000⟩),
   ("He".toList, ⟨"#D9FFFF".toList, 28 / 100, 40026 / 10000⟩),
   ("Li".toList, ⟨"#CC80FF".toList, 128 / 100, 694 / 100⟩),
   ("Be".toList, ⟨"#C2FF00".toList, 96 / 100, 90122 / 10000⟩),
   ("B".toList, ⟨"#FFB5B5".toList, 84 / 100, 1081 / 100⟩),
   ("C".toList, ⟨"#909090".toList, 76 / 100, 12011 / 1000⟩),
   ("N".toList, ⟨"#3050F8".toList, 71 / 100, 14007 / 1000⟩),
   ("O".toList, ⟨"#FF0D0D".toList, 66 / 100, 15999 / 1000⟩),
   ("F".toList, ⟨"#90E050".toList, 57 / 100, 18998 / 1000⟩),
   ("Ne".toList, ⟨"#B3E3F5".toList, 58 / 100, 20180 / 1000⟩),
   ("Na".toList, ⟨"#AB5CF2".toList, 166 / 100, 22990 / 1000⟩),
   ("Mg".toList, ⟨"#8AFF00".toList, 141 / 100, 24305 / 1000⟩),
   ("Al".toList, ⟨"#BFA6A6".toList, 121 / 100, 26982 / 1000⟩),
   ("Si".toList, ⟨"#F0C8A0".toList, 111 / 100, 28085 / 1000⟩),
   ("P".toList, ⟨"#FF8000".toList, 107 / 100, 30974 / 1000⟩),
   ("S".toList, ⟨"#FFFF30".toList, 105 / 100, 3206 / 100⟩),
   ("Cl".toList, ⟨"#1FF01F".toList, 102 / 100, 3545 / 100⟩),
   ("Ar".toList, ⟨"#80D1E3".toList, 106 / 100, 39948 / 1000⟩),
   ("K".toList, ⟨"#8F40D4".toList, 203 / 100, 39098 / 1000⟩),
   ("Ca".toList, ⟨"#3DFF00".toList, 176 / 100, 40078 / 1000⟩)]

/-- The table `BOND_LENGTHS`, in Angstroms. -/
def BOND_LENGTHS : List (List Char × ℚ) :=
  [("C-C".toList, 154 / 100), ("C-H".toList, 109 / 100), ("C-O".toList, 143 / 100),
   ("C-N".toList, 147 / 100), ("C-S".toList, 182 / 100), ("C-Cl".toList, 177 / 100),
   ("H-H".toList, 74 / 100), ("H-O".toList, 96 / 100), ("H-N".toList, 101 / 100),
   ("O-O".toList, 148 / 100), ("O-H".toList, 96 / 100), ("N-H".toList, 101 / 100),
   ("N-N".toList, 145 / 100)]

/-- The expression `ELEMENT_PROPERTIES[element]?.radius || fallback`; no radius of the table
is `0`. -/
def radiusOr (element : List Char) (fallback : ℚ) : ℚ :=
  match ELEMENT_PROPERTIES.lookup element with
  | some property => property.radius
  | none => fallback

/-- The expression `ELEMENT_PROPERTIES[element]?.color || '#909090'`; no color of the table
is the empty string. -/
def colorOf (element : List Char) : List Char :=
  match ELEMENT_PROPERTIES.lookup element with
  | some property => property.color
  | none => "#909090".toList

/-- The function `getBondLength(element1, element2)`: the entry of `BOND_LENGTHS` for
`element1-element2`, else the entry for `element2-element1`, else the sum of the two radii
with `1.0` for an element that is not in the table. No entry of `BOND_LENGTHS` is `0`, so
the tests `if (BOND_LENGTHS[bond])` are tests of presence. -/
def getBondLength (element1 element2 : List Char) : ℚ :=
  match BOND_LENGTHS.lookup (element1 ++ '-' :: element2) with
  | some length => length
  | none =>
    match BOND_LENGTHS.lookup (element2 ++ '-' :: element1) with
    | some length => length
    | none => radiusOr element1 1 + radiusOr element2 1

/-- A point `{ x, y, z }`. -/
structure Position (R : Type) where
  x : R
  y : R
  z : R

/-- An atom of the geometry. -/
structure Atom (R : Type) where
  element : List Char
  position : Position R
  color : List Char
  radius : ℚ

/-- A bond of the geometry; `fromAtom` and `toAtom` are the fields `from` and `to` of the source. -/
structure Bond where
  fromAtom : Nat
  toAtom : Nat
  bondType : List Char
  distance : ℚ

/-- The object `{ atoms, bonds }`. -/
structure Geometry (R : Type) where
  atoms : List (Atom R)
  bonds : List Bond

/-- The function `calculateDistance(point1, point2)`. -/
def calculateDistance {R : Type} [Field R] (M : JsMath R) (point1 point2 : Position R) : R :=
  M.sqrt ((point2.x - point1.x) ^ 2 + (point2.y - point1.y) ^ 2 + (point2.z - point1.z) ^ 2)

/-- The expression `atomTypes.find(el => el !== 'H') || atomTypes[0]`. A key of the map is
never the empty string, so the result of `find` is taken whenever there is one. -/
def centralElementOf (atomTypes : List (List Char)) : List Char :=
  match atomTypes.find? (fun el => el ≠ "H".toList) with
  | some el => el
  | none => atomTypes.headD []

/-- The assignment `elements[centralElement] = elements[centralElement] - 1`, on the map
with its counts taken as integers: a count `0` becomes `-1`. -/
def decrement : ElementCount → List Char → List (List Char × ℤ)
  | [], _ => []
  | (e, c) :: rest, el =>
    if e = el then (e, (c : ℤ) - 1) :: rest.map (fun p => (p.1, (p.2 : ℤ)))
    else (e, (c : ℤ)) :: decrement rest el

/-- The variables that the loops of the general case update. -/
structure Placement (R : Type) where
  atoms : List (Atom R)
  bonds : List Bond
  angle : Nat
  level : Nat

/-- The body of the inner loop of the general case: one atom of `element` is placed at
distance `radius` of the origin in the direction given by `angle` and `level`, and bonded
to atom `0`. -/
def placeAtom {R : Type} [Field R] (M : JsMath R) (centralElement element : List Char)
    (state : Placement R) : Placement R :=
  let radius := getBondLength centralElement element
  let phi := (state.angle : R) * M.PI / 4
  let theta := (state.level : R) * M.PI / 6 + M.PI / 12
  let x := (radius : R) * M.sin theta * M.cos phi
  let y := (radius : R) * M.sin theta * M.sin phi
  let z := (radius : R) * M.cos theta
  let atoms := state.atoms ++
    [{ element := element, position := ⟨x, y, z⟩, color := colorOf element,
       radius := radiusOr element (8 / 10) }]
  let angle := (state.angle + 1) % 8
  { atoms := atoms
    bonds := state.bonds ++
      [{ fromAtom := 0, toAtom := atoms.length - 1, bondType := "single".toList, distance := radius }]
    angle := angle
    level := if angle = 0 then state.level + 1 else state.level }

/-- The inner loop `for (let i = 0; i < elements[element]; i++)` for one key of the map: it
runs `elements[element]` times, and not at all when the count is `0` or `-1`. -/
def placeElement {R : Type} [Field R] (M : JsMath R) (centralElement : List Char)
    (state : Placement R) (p : List Char × ℤ) : Placement R :=
  (List.range p.2.toNat).foldl (fun st _ => placeAtom M centralElement p.1 st) state

/-- The function `generateSimpleMoleculeStructure(formula)`. -/
def generateSimpleMoleculeStructure {R : Type} [Field R] (M : JsMath R) (formula : List Char) :
    Geometry R :=
  let elements := parseFormula formula
  let atomTypes := elements.map Prod.fst
  if atomTypes.length = 0 then { atoms := [], bonds := [] }
  else if formula = "H2".toList then
    { atoms :=
        [{ element := "H".toList, position := ⟨0, 0, 0⟩, color := colorOf "H".toList,
           radius := radiusOr "H".toList 0 },
         { element := "H".toList, position := ⟨0, 0, ((74 / 100 : ℚ) : R)⟩,
           color := colorOf "H".toList, radius := radiusOr "H".toList 0 }]
      bonds := [{ fromAtom := 0, toAtom := 1, bondType := "single".toList, distance := 74 / 100 }] }
  else if formula = "O2".toList then
    { atoms :=
        [{ element := "O".toList, position := ⟨0, 0, 0⟩, color := colorOf "O".toList,
           radius := radiusOr "O".toList 0 },
         { element := "O".toList, position := ⟨0, 0, ((148 / 100 : ℚ) : R)⟩,
           color := colorOf "O".toList, radius := radiusOr "O".toList 0 }]
      bonds := [{ fromAtom := 0, toAtom := 1, bondType := "double".toList, distance := 148 / 100 }] }
  else if formula = "H2O".toList then
    let bondLength : ℚ := 96 / 100
    let angle : R := ((1045 / 10 : ℚ) : R) * M.PI / 180
    { atoms :=
        [{ element := "O".toList, position := ⟨0, 0, 0⟩, color := colorOf "O".toList,
           radius := radiusOr "O".toList 0 },
         { element := "H".toList,
           position := ⟨(bondLength : R) * M.cos (angle / 2), 0, (bondLength : R) * M.sin (angle / 2)⟩,
           color := colorOf "H".toList, radius := radiusOr "H".toList 0 },
         { element := "H".toList,
           position :=
            ⟨-(bondLength : R) * M.cos (angle / 2), 0, (bondLength : R) * M.sin (angle / 2)⟩,
           color := colorOf "H".toList, radius := radiusOr "H".toList 0 }]
      bonds :=
        [{ fromAtom := 0, toAtom := 1, bondType := "single".toList, distance := bondLength },
         { fromAtom := 0, toAtom := 2, bondType := "single".toList, distance := bondLength }] }
  else
    let centralElement := centralElementOf atomTypes
    let first : Atom R :=
      { element := centralElement, position := ⟨0, 0, 0⟩, color := colorOf centralElement,
        radius := radiusOr centralElement (8 / 10) }
    let final := (decrement elements centralElement).foldl (placeElement M centralElement)
      { atoms := [first], bonds := [], angle := 0, level := 0 }
    { atoms := final.atoms, bonds := final.bonds }
/-! ## Definitions used by the statements and their proofs -/

/-- Every row has `0` in column `n`, the right-hand side of the augmented matrix. -/
def LastZero (n : Nat) (aug : Matrix) : Prop := ∀ line ∈ aug, line.getD n 0 = 0

/-- The total `Σ coefficient × count` of `element` over one side of a reaction. -/
def sideTotal (coefficients : List ℤ) (molecules : List (List Char)) (element : List Char) : ℤ :=
  (List.zipWith (fun c molecule => c * (getCount (parseFormula molecule) element : ℤ))
    coefficients molecules).sum

/-- The rendering of one molecule as the specification words it: the formula alone for the
coefficient `1`, otherwise the decimal digits of the coefficient followed by the formula. -/
def specRenderMolecule (c : ℤ) (formula : List Char) : List Char :=
  if c = 1 then formula else Nat.toDigits 10 c.toNat ++ formula

/-- The rendering of one side as the specification words it: the rendered molecules
joined by `" + "`. -/
def specRenderSide (coefficients : List ℤ) (molecules : List (List Char)) : List Char :=
  List.intercalate " + ".toList (List.zipWith specRenderMolecule coefficients molecules)

/-- The arrow token. -/
def arrow : List Char := "->".toList

/-- The coefficient vector computed for a pair of sides, when the matrix is not empty. -/
def coefficientsOf (reactants products : List (List Char)) : List ℤ :=
  normalize (rawSolution ((buildMatrix reactants products).map fun line => line ++ [0])
    (reactants.length + products.length)
    ((buildMatrix reactants products).map fun line => line ++ [0]).length)

/-- The result object built from the two trimmed sides. -/
def resultOf (reactants products : List (List Char)) : BalancedEquation :=
  { balancedEquation :=
      List.intercalate " + ".toList
          (renderFrom ((coefficientsOf reactants products).take reactants.length) 0 reactants) ++
        " -> ".toList ++
        List.intercalate " + ".toList
          (renderFrom ((coefficientsOf reactants products).drop reactants.length) 0 products)
    reactants := reactants
    products := products
    reactantCoefficients := (coefficientsOf reactants products).take reactants.length
    productCoefficients := (coefficientsOf reactants products).drop reactants.length }

/-- The main loop of `parseFormula` on the characters from index `i` on, with the fuel
that is always enough. -/
def parseFrom (rest : List Char) (elements : ElementCount) (currentElement currentCount : List Char) :
    ElementCount :=
  (parseLoop rest.length rest elements currentElement currentCount).getD []

/-- A token of a flat formula: an element symbol, made of one uppercase letter and a run of
lowercase letters, followed by a run of decimal digits. -/
structure Token where
  upper : Char
  lowers : List Char
  digits : List Char

/-- The characters of a token are of the stated classes. -/
def Token.WellFormed (t : Token) : Prop :=
  isUpper t.upper = true ∧ (∀ c ∈ t.lowers, isLower c = true) ∧ ∀ c ∈ t.digits, isDigit c = true

/-- The element symbol of a token. -/
def Token.symbol (t : Token) : List Char := t.upper :: t.lowers

/-- The text of a token. -/
def Token.text (t : Token) : List Char := t.upper :: (t.lowers ++ t.digits)

/-- The number of a token: the value of its digits, and `1` when it has no digit. -/
def Token.number (t : Token) : Nat := if t.digits = [] then 1 else parseInt t.digits

/-- The formula that is the concatenation of the tokens. -/
def flatText : List Token → List Char
  | [] => []
  | t :: ts => t.text ++ flatText ts

/-- The sum of the numbers of the tokens whose symbol is `element`. -/
def tokenTotal (tokens : List Token) (element : List Char) : Nat :=
  ((tokens.filter fun t => t.symbol = element).map Token.number).sum

/-- The value of `depth` when the inner loop of the `(` branch ends. -/
def scanDepth : Nat → List Char → Nat
  | d, [] => d
  | 0, _ :: _ => 0
  | d + 1, c :: rest =>
    let opened := if c = '(' then d + 2 else d + 1
    scanDepth (if c = ')' then opened - 1 else opened) rest

/-- The dot product of a row of the matrix and a vector. -/
def dot (row x : List ℚ) : ℚ := (List.zipWith (fun a b => a * b) row x).sum

/-- The vector `x` satisfies every conservation row of the matrix. -/
def IsNull (matrix : Matrix) (x : List ℚ) : Prop := ∀ row ∈ matrix, dot row x = 0

/-- The state of the forward elimination before column `col` is processed. -/
def stateBefore (aug : Matrix) (n m col : Nat) : Matrix × Nat :=
  (List.range col).foldl (forwardStep n m) (aug, 0)

/-- The tolerance acts as an exact test for zero during the elimination: whenever a column
is processed, no entry of that column is non-zero with absolute value at most `1e-10`. -/
def ExactRun (aug : Matrix) (n m : Nat) : Prop :=
  ∀ col < n, (stateBefore aug n m col).2 < m →
    ∀ row < m, |entry (stateBefore aug n m col).1 row col| ≤ threshold →
      entry (stateBefore aug n m col).1 row col = 0

/-- The matrix has `m` rows of `n + 1` entries. -/
def Shaped (m n : Nat) (aug : Matrix) : Prop := aug.length = m ∧ ∀ line ∈ aug, line.length = n + 1

/-- The left-hand side of equation `r` of the augmented matrix at the vector `x`. -/
def rowDot (aug : Matrix) (n r : Nat) (x : Nat → ℚ) : ℚ :=
  Finset.sum (Finset.range n) fun c => entry aug r c * x c

/-- The row exchanged with row `r` by the swap of the rows `i` and `j`. -/
def swapIndex (i j r : Nat) : Nat := if r = j then i else if r = i then j else r

/-- The invariant of the forward elimination once the columns below `k` are processed:
`aug` has the shape and the solutions of `aug0`, the rows below `rank` are pivot rows with
pivot columns `p 0 < p 1 < …`, each pivot column is a unit column, and the rows from `rank`
on are zero in the processed columns. -/
structure Echelon (aug0 : Matrix) (m n k : Nat) (aug : Matrix) (rank : Nat) (p : Nat → Nat) :
    Prop where
  shaped : Shaped m n aug
  rank_le : rank ≤ m
  pivot_lt : ∀ i < rank, p i < k
  pivot_mono : ∀ i j, i < j → j < rank → p i < p j
  pivot_one : ∀ i < rank, entry aug i (p i) = 1
  pivot_left : ∀ i < rank, ∀ c < p i, entry aug i c = 0
  pivot_col : ∀ i < rank, ∀ r < m, r ≠ i → entry aug r (p i) = 0
  below : ∀ r, rank ≤ r → r < m → ∀ c < k, entry aug r c = 0
  null : ∀ x : Nat → ℚ, (∀ r < m, rowDot aug n r x = 0) ↔ ∀ r < m, rowDot aug0 n r x = 0

/-- The invariant of the back-substitution loop when the rows from `j` on are done. -/
structure BackInv (aug : Matrix) (n rank : Nat) (p : Nat → Nat) (j : Nat) (solution : List ℚ) :
    Prop where
  length : solution.length = n
  free : ∀ c < n, (∀ i < rank, p i ≠ c) → solution.getD c 0 = 1
  solved : ∀ r, j ≤ r → r < rank →
    solution.getD (p r) 0 =
      -Finset.sum (Finset.range (n - (p r + 1)))
        fun i => entry aug r (p r + 1 + i) * solution.getD (p r + 1 + i) 0

instance (aug : Matrix) (n m : Nat) : Decidable (ExactRun aug n m) := by
  unfold ExactRun
  infer_instance


/-- Column `col` became a pivot column: the forward elimination raised `rank` when it
processed the column. -/
def becamePivot (aug : Matrix) (n m col : Nat) : Prop :=
  (stateBefore aug n m (col + 1)).2 = (stateBefore aug n m col).2 + 1

instance (aug : Matrix) (n m col : Nat) : Decidable (becamePivot aug n m col) := by
  unfold becamePivot
  infer_instance

/-! ## Definitions used by the statements about groups, counts and digit runs -/

/-- The parentheses of the string are balanced when `depth` groups are open before it: no
`)` comes without an open group and every group is closed at the end. -/
def balancedFrom : Nat → List Char → Bool
  | depth, [] => depth == 0
  | depth, c :: rest =>
    if c = '(' then balancedFrom (depth + 1) rest
    else if c = ')' then
      match depth with
      | 0 => false
      | d + 1 => balancedFrom d rest
    else balancedFrom depth rest

/-- The parentheses of the string are balanced. -/
def Balanced (g : List Char) : Prop := balancedFrom 0 g = true

/-- The state of the main loop of `parseFormula` (map, pending element, pending count)
after the tokens of a flat formula, from a given state. -/
def pendingAfter :
    List Token → ElementCount × List Char × List Char → ElementCount × List Char × List Char
  | [], state => state
  | t :: ts, state => pendingAfter ts (flush state.1 state.2.1 state.2.2, t.symbol, t.digits)

/-- No run of digits of the string starts with the digit `0`: every `0` comes right after
a digit. The flag tells whether the character before the string is a digit. -/
def noLeadingZero : Bool → List Char → Bool
  | _, [] => true
  | previous, c :: rest => (decide (c ≠ '0') || previous) && noLeadingZero (isDigit c) rest

/-- An element symbol together with the characters that follow it up to the next element
symbol of a formula without groups. -/
structure Segment where
  upper : Char
  lowers : List Char
  tail : List Char

/-- The characters of a segment are of the stated classes: the symbol is one uppercase
letter and a run of lowercase letters, what follows has no uppercase letter and no `(`
and does not start with a lowercase letter. -/
def Segment.WellFormed (s : Segment) : Prop :=
  isUpper s.upper = true ∧ (∀ c ∈ s.lowers, isLower c = true) ∧
    (∀ c ∈ s.tail, isUpper c = false ∧ c ≠ '(') ∧ ∀ c ∈ s.tail.head?, isLower c = false

/-- The element symbol of a segment. -/
def Segment.symbol (s : Segment) : List Char := s.upper :: s.lowers

/-- The text of a segment. -/
def Segment.text (s : Segment) : List Char := s.upper :: (s.lowers ++ s.tail)

/-- The digits that follow the symbol of a segment, the other characters left out. -/
def Segment.digits (s : Segment) : List Char := s.tail.filter isDigit

/-- The number of a segment: the value of its digits, and `1` when it has no digit. -/
def Segment.number (s : Segment) : Nat := if s.digits = [] then 1 else parseInt s.digits

/-- The concatenation of the segments. -/
def segmentsText : List Segment → List Char
  | [] => []
  | s :: ss => s.text ++ segmentsText ss

/-- The count that the specification gives to the element symbol that starts at the head
of `rest`: the value of the run of digits right after the symbol, `1` without one. -/
def specOccurrenceCount (afterSymbol : List Char) : Nat :=
  if afterSymbol.takeWhile isDigit = [] then 1 else parseInt (afterSymbol.takeWhile isDigit)

instance (g : List Char) : Decidable (Balanced g) := by
  unfold Balanced
  infer_instance

/-! ## Definitions used by the statements about the geometry -/

/-- The functions of `Math` are the real sine, cosine and square root and its constant is
the real number `π`. -/
def RealMath (M : JsMath ℝ) : Prop :=
  M.sin = Real.sin ∧ M.cos = Real.cos ∧ M.sqrt = Real.sqrt ∧ M.PI = Real.pi

/-- The formula is handled by the general case of `generateSimpleMoleculeStructure`: its
parse is not empty and it is none of the strings `"H2"`, `"O2"`, `"H2O"`. -/
def GeneralCase (formula : List Char) : Prop :=
  parseFormula formula ≠ [] ∧ formula ≠ "H2".toList ∧ formula ≠ "O2".toList ∧
    formula ≠ "H2O".toList

instance (formula : List Char) : Decidable (GeneralCase formula) := by
  unfold GeneralCase
  infer_instance

/-- The elements of the atoms that the loops of the general case place, in order: each key
of the map as many times as its count. -/
def expand : List (List Char × ℤ) → List (List Char)
  | [] => []
  | p :: rest => List.replicate p.2.toNat p.1 ++ expand rest

/-- The atom that the loops of the general case place as number `k`, counted from `0`: its
direction has the azimuth index `k % 8` and the level `k / 8`. -/
def placedAtom {R : Type} [Field R] (M : JsMath R) (centralElement element : List Char) (k : Nat) :
    Atom R :=
  { element := element
    position :=
      ⟨(getBondLength centralElement element : R) *
            M.sin (((k / 8 : Nat) : R) * M.PI / 6 + M.PI / 12) *
          M.cos (((k % 8 : Nat) : R) * M.PI / 4),
        (getBondLength centralElement element : R) *
            M.sin (((k / 8 : Nat) : R) * M.PI / 6 + M.PI / 12) *
          M.sin (((k % 8 : Nat) : R) * M.PI / 4),
        (getBondLength centralElement element : R) *
          M.cos (((k / 8 : Nat) : R) * M.PI / 6 + M.PI / 12)⟩
    color := colorOf element
    radius := radiusOr element (8 / 10) }

/-- The atoms placed for a list of elements, the first one as number `k`. -/
def placedAtoms {R : Type} [Field R] (M : JsMath R) (centralElement : List Char) :
    Nat → List (List Char) → List (Atom R)
  | _, [] => []
  | k, element :: rest =>
    placedAtom M centralElement element k :: placedAtoms M centralElement (k + 1) rest

/-- The bonds pushed for a list of elements, the first one for the atom placed as
number `k`, which has the index `k + 1`. -/
def placedBonds (centralElement : List Char) : Nat → List (List Char) → List Bond
  | _, [] => []
  | k, element :: rest =>
    { fromAtom := 0, toAtom := k + 1, bondType := "single".toList,
      distance := getBondLength centralElement element } ::
      placedBonds centralElement (k + 1) rest

/-- The dot product of two position vectors. -/
def dotPosition {R : Type} [Field R] (p q : Position R) : R := p.x * q.x + p.y * q.y + p.z * q.z

/-- The number of atoms of a geometry with a given element. -/
def atomCount {R : Type} (geometry : Geometry R) (element : List Char) : Nat :=
  (geometry.atoms.filter fun a => a.element = element).length
/-! ## Arithmetic of the normaliser -/

theorem gcdLoop_eq (fuel a b : Nat) (h : b < fuel) : gcdLoop fuel a b = Nat.gcd a b := by
  induction fuel generalizing a b with
  | zero => omega
  | succ fuel ih =>
    unfold gcdLoop
    split_ifs with hb
    · subst hb; simp
    · have hlt : a % b < b := Nat.mod_lt _ (Nat.pos_of_ne_zero hb)
      rw [ih b (a % b) (by omega), Nat.gcd_comm b (a % b), ← Nat.gcd_rec, Nat.gcd_comm]

theorem gcd_eq (a b : ℤ) : gcd a b = (Int.gcd a b : ℤ) := by
  unfold gcd
  rw [gcdLoop_eq _ _ _ (Nat.lt_succ_self _)]
  rfl

theorem gcd_nonneg (a b : ℤ) : 0 ≤ gcd a b := by
  rw [gcd_eq]; exact Int.natCast_nonneg _

theorem foldl_gcd_dvd (others : List ℤ) (first : ℤ) :
    others.foldl gcd first ∣ first ∧ ∀ x ∈ others, others.foldl gcd first ∣ x := by
  induction others generalizing first with
  | nil => simp
  | cons y ys ih =>
    obtain ⟨h1, h2⟩ := ih (gcd first y)
    simp only [List.foldl_cons]
    refine ⟨?_, ?_⟩
    · exact dvd_trans h1 (by rw [gcd_eq]; exact Int.gcd_dvd_left)
    · intro x hx
      rcases List.mem_cons.1 hx with rfl | hx
      · exact dvd_trans h1 (by rw [gcd_eq]; exact Int.gcd_dvd_right)
      · exact h2 x hx

theorem dvd_foldl_gcd (d : ℤ) (others : List ℤ) (first : ℤ) (hf : d ∣ first)
    (ho : ∀ x ∈ others, d ∣ x) : d ∣ others.foldl gcd first := by
  induction others generalizing first with
  | nil => simpa using hf
  | cons y ys ih =>
    refine ih (gcd first y) ?_ (fun x hx => ho x (List.mem_cons_of_mem _ hx))
    rw [gcd_eq]
    exact Int.dvd_gcd hf (ho y (List.mem_cons_self _ _))

theorem findGCD_dvd (numbers : List ℤ) : ∀ x ∈ numbers, findGCD numbers ∣ x := by
  cases numbers with
  | nil => simp
  | cons first others =>
    intro x hx
    obtain ⟨h1, h2⟩ := foldl_gcd_dvd others first
    rw [findGCD, abs_dvd]
    rcases List.mem_cons.1 hx with rfl | hx
    · exact h1
    · exact h2 x hx

theorem dvd_findGCD (d : ℤ) (numbers : List ℤ) (hne : numbers ≠ [])
    (h : ∀ x ∈ numbers, d ∣ x) : d ∣ findGCD numbers := by
  cases numbers with
  | nil => exact absurd rfl hne
  | cons first others =>
    rw [findGCD, dvd_abs]
    exact dvd_foldl_gcd d others first (h first (List.mem_cons_self _ _))
      (fun x hx => h x (List.mem_cons_of_mem _ hx))

theorem findGCD_nonneg (numbers : List ℤ) : 0 ≤ findGCD numbers := by
  cases numbers with
  | nil => simp [findGCD]
  | cons first others => exact abs_nonneg _

theorem findGCD_pos (numbers : List ℤ) (hne : numbers ≠ []) (h : ∀ x ∈ numbers, 1 ≤ x) :
    1 ≤ findGCD numbers := by
  cases numbers with
  | nil => exact absurd rfl hne
  | cons first others =>
    have h0 := findGCD_nonneg (first :: others)
    have hd := findGCD_dvd (first :: others) first (List.mem_cons_self _ _)
    have hf := h first (List.mem_cons_self _ _)
    rcases eq_or_lt_of_le h0 with h' | h'
    · rw [← h'] at hd
      have := zero_dvd_iff.1 hd
      omega
    · omega

theorem jsRound_intCast (z : ℤ) : jsRound (z : ℚ) = z := by
  unfold jsRound
  rw [Int.floor_eq_iff]
  constructor <;> norm_num

theorem jsRound_div (x g : ℤ) (hg : g ≠ 0) (h : g ∣ x) :
    jsRound ((x : ℚ) / (g : ℚ)) = x / g := by
  obtain ⟨k, rfl⟩ := h
  have hq : (g : ℚ) ≠ 0 := by exact_mod_cast hg
  rw [Int.mul_ediv_cancel_left _ hg]
  push_cast
  rw [mul_div_cancel_left₀ _ hq]
  exact jsRound_intCast k

theorem ensurePositive_pos (intSolution : List ℤ) : ∀ x ∈ ensurePositive intSolution, 1 ≤ x := by
  intro x hx
  unfold ensurePositive at hx
  cases hmin : intSolution.min? with
  | none =>
    rw [List.min?_eq_none_iff] at hmin
    subst hmin
    simp [List.min?] at hx
  | some minCoeff =>
    rw [hmin] at hx
    have hle : ∀ b ∈ intSolution, minCoeff ≤ b :=
      (List.le_min?_iff (fun a b c => le_min_iff) hmin).1 (le_refl minCoeff)
    simp only at hx
    split_ifs at hx with hneg
    · obtain ⟨y, hy, rfl⟩ := List.mem_map.1 hx
      have := hle y hy
      have := abs_nonneg minCoeff
      have := neg_abs_le minCoeff
      omega
    · have := hle x hx
      omega

theorem ensurePositive_length (intSolution : List ℤ) :
    (ensurePositive intSolution).length = intSolution.length := by
  unfold ensurePositive
  cases intSolution.min? with
  | none => rfl
  | some minCoeff =>
    simp only
    split_ifs <;> simp

theorem simplify_eq (intSolution : List ℤ) (h : ∀ x ∈ intSolution, 1 ≤ x) :
    simplify intSolution = intSolution.map fun x => x / findGCD intSolution := by
  cases hl : intSolution with
  | nil => simp [simplify]
  | cons a as =>
    rw [← hl]
    have hne : intSolution ≠ [] := by rw [hl]; simp
    have hfilter : (intSolution.filter fun val => val ≠ 0) = intSolution := by
      rw [List.filter_eq_self]
      intro x hx
      have := h x hx
      simp only [ne_eq, decide_not, Bool.not_eq_eq_eq_not, Bool.not_true, decide_eq_false_iff_not]
      omega
    unfold simplify
    rw [hfilter]
    simp only
    apply List.map_congr_left
    intro x hx
    have hg := findGCD_pos intSolution hne h
    exact jsRound_div x _ (by omega) (findGCD_dvd intSolution x hx)

theorem simplify_pos (intSolution : List ℤ) (h : ∀ x ∈ intSolution, 1 ≤ x) :
    ∀ y ∈ simplify intSolution, 1 ≤ y := by
  intro y hy
  rw [simplify_eq _ h] at hy
  obtain ⟨x, hx, rfl⟩ := List.mem_map.1 hy
  have hne : intSolution ≠ [] := List.ne_nil_of_mem hx
  have hg := findGCD_pos intSolution hne h
  obtain ⟨k, hk⟩ := findGCD_dvd intSolution x hx
  have hx1 := h x hx
  rw [hk, Int.mul_ediv_cancel_left _ (by omega)]
  by_contra hcon
  have hk0 : k ≤ 0 := by omega
  have : findGCD intSolution * k ≤ 0 := Int.mul_nonpos_of_nonneg_of_nonpos (by omega) hk0
  omega

theorem simplify_coprime (intSolution : List ℤ) (hne : intSolution ≠ [])
    (h : ∀ x ∈ intSolution, 1 ≤ x) (d : ℕ) (hd : ∀ y ∈ simplify intSolution, (d : ℤ) ∣ y) :
    d = 1 := by
  have hg := findGCD_pos intSolution hne h
  have hdvd : findGCD intSolution * (d : ℤ) ∣ findGCD intSolution := by
    apply dvd_findGCD _ _ hne
    intro x hx
    obtain ⟨k, hk⟩ := findGCD_dvd intSolution x hx
    have hy : x / findGCD intSolution ∈ simplify intSolution := by
      rw [simplify_eq _ h]
      exact List.mem_map.2 ⟨x, hx, rfl⟩
    have := hd _ hy
    rw [hk, Int.mul_ediv_cancel_left _ (by omega)] at this
    rw [hk]
    exact mul_dvd_mul_left _ this
  have h1 : (d : ℤ) ∣ 1 := by
    have h' : findGCD intSolution * (d : ℤ) ∣ findGCD intSolution * 1 := by simpa using hdvd
    exact (mul_dvd_mul_iff_left (by omega)).1 h'
  have := Int.natAbs_dvd_natAbs.2 h1
  simpa using this

theorem simplify_length (intSolution : List ℤ) :
    (simplify intSolution).length = intSolution.length := by
  simp [simplify]

theorem normalize_length (solution : List ℚ) : (normalize solution).length = solution.length := by
  simp [normalize, simplify_length, ensurePositive_length]

theorem normalize_pos (solution : List ℚ) : ∀ y ∈ normalize solution, 1 ≤ y :=
  simplify_pos _ (ensurePositive_pos _)

theorem normalize_coprime (solution : List ℚ) (hne : solution ≠ []) (d : ℕ)
    (hd : ∀ y ∈ normalize solution, (d : ℤ) ∣ y) : d = 1 := by
  refine simplify_coprime _ ?_ (ensurePositive_pos _) d hd
  intro hnil
  have := congrArg List.length hnil
  rw [ensurePositive_length] at this
  simp at this
  exact hne this

/-! ## The search of `math.fraction` -/

theorem fareyLoop_step (fuel : Nat) (p1 : ℚ) (A B C D : Nat) (nd : Nat × Nat) :
    fareyLoop (fuel + 1) p1 A B C D nd =
      if B ≤ fractionBound ∧ D ≤ fractionBound then
        if p1 = ((A + C : Nat) : ℚ) / ((B + D : Nat) : ℚ) then
          if B + D ≤ fractionBound then (A + C, B + D) else if D > B then (C, D) else (A, B)
        else if p1 > ((A + C : Nat) : ℚ) / ((B + D : Nat) : ℚ) then
          fareyLoop fuel p1 (A + C) (B + D) C D
            (if B + D > fractionBound then (C, D) else (A + C, B + D))
        else
          fareyLoop fuel p1 A B (C + A) (D + B)
            (if B > fractionBound then (C + A, D + B) else (A, B))
      else nd := rfl

/-- Once the fuel and `B + D` together exceed `2 * N`, one more unit of fuel changes
nothing: the loop ends before the fuel does. -/
theorem fareyLoop_succ (fuel : Nat) (p1 : ℚ) (A B C D : Nat) (nd : Nat × Nat) (hB : 1 ≤ B)
    (hD : 1 ≤ D) (h : 2 * fractionBound + 1 ≤ fuel + (B + D)) :
    fareyLoop (fuel + 1) p1 A B C D nd = fareyLoop fuel p1 A B C D nd := by
  induction fuel generalizing A B C D nd with
  | zero =>
    have hcond : ¬ (B ≤ fractionBound ∧ D ≤ fractionBound) := by omega
    rw [fareyLoop_step, if_neg hcond]
    rfl
  | succ fuel ih =>
    rw [fareyLoop_step (fuel + 1), ih (A + C) (B + D) C D _ (by omega) hD (by omega),
      ih A B (C + A) (D + B) _ hB (by omega) (by omega), fareyLoop_step fuel]

/-- The fuel `2 * N` given to the search is enough: with any larger fuel the search from
`0 / 1` and `1 / 1` returns the same pair. -/
theorem fareyLoop_fuel (extra : Nat) (p1 : ℚ) (nd : Nat × Nat) :
    fareyLoop (2 * fractionBound + extra) p1 0 1 1 1 nd =
      fareyLoop (2 * fractionBound) p1 0 1 1 1 nd := by
  induction extra with
  | zero => rfl
  | succ extra ih =>
    rw [← ih, ← Nat.add_assoc]
    exact fareyLoop_succ _ p1 0 1 1 1 nd (le_refl _) (le_refl _) (by omega)

/-- The search for `1 / 10000001`: the upper fraction goes through `1 / k` until the mediant
of `0 / 1` and `1 / 10000000` is met, whose denominator is above the bound. -/
theorem fareyLoop_unit (j : Nat) : ∀ (k fuel : Nat) (nd : Nat × Nat), 1 ≤ k → k + j = 10000000 →
    j < fuel → fareyLoop fuel (1 / 10000001) 0 1 1 k nd = (1, 10000000) := by
  induction j with
  | zero =>
    intro k fuel nd _ hk hfuel
    obtain ⟨f, rfl⟩ : ∃ f, fuel = f + 1 := ⟨fuel - 1, by omega⟩
    have hk' : k = 10000000 := by omega
    subst hk'
    rw [fareyLoop_step]
    norm_num [fractionBound]
  | succ j ih =>
    intro k fuel nd hk1 hk hfuel
    obtain ⟨f, rfl⟩ : ∃ f, fuel = f + 1 := ⟨fuel - 1, by omega⟩
    rw [fareyLoop_step]
    have hc : (1 ≤ fractionBound ∧ k ≤ fractionBound) := by
      constructor <;> simp only [fractionBound] <;> omega
    have hkq : ((k : ℕ) : ℚ) + 1 < 10000001 := by
      have : k + 1 < 10000001 := by omega
      exact_mod_cast this
    have hpos : (0 : ℚ) < (k : ℚ) + 1 := by positivity
    have hM : ((0 + 1 : Nat) : ℚ) / ((1 + k : Nat) : ℚ) = 1 / ((k : ℚ) + 1) := by
      push_cast
      ring
    have hlt : (1 : ℚ) / 10000001 < 1 / ((k : ℚ) + 1) :=
      one_div_lt_one_div_of_lt hpos hkq
    rw [if_pos hc, hM, if_neg (ne_of_lt hlt), if_neg (not_lt.2 (le_of_lt hlt))]
    exact ih (k + 1) f _ (by omega) (by omega) (by omega)

theorem parseNumber_unit : parseNumber (1 / 10000001) = (1, 10000000) := by
  have hrun := fareyLoop_unit 9999999 1 (2 * fractionBound) (0, 1) (le_refl _) (by norm_num)
    (by norm_num [fractionBound])
  have hfloor : ⌊(1 / 10000001 : ℚ)⌋ = 0 := by
    rw [Int.floor_eq_iff]
    norm_num
  have h1 : ¬ (1 / 10000001 : ℚ) = ((0 : ℤ) : ℚ) := by norm_num
  have h2 : ¬ (1 / 10000001 : ℚ) ≥ 1 := by norm_num
  unfold parseNumber
  rw [hfloor, if_neg h1]
  simp only [if_neg h2, Nat.cast_one, div_one, hrun, mul_one]

/-- The call `math.fraction(1 / 10000001)` gives `1 / 10000000`. -/
theorem fraction_unit : fraction (1 / 10000001) = ⟨1, 1, 10000000⟩ := by
  have hneg : ¬ (1 / 10000001 : ℚ) < 0 := by norm_num
  simp only [fraction, if_neg hneg, parseNumber_unit]
  decide

theorem normalize_unit : normalize [1 / 10000001, 1] = [1, 10000000] := by
  have hone : fraction 1 = ⟨1, 1, 1⟩ := by decide!
  unfold normalize
  simp only [List.map_cons, List.map_nil, fraction_unit, hone]
  decide!


theorem fareyLoop_tenth_upper (fuel : Nat) : ∀ c : Nat,
    fareyLoop fuel (30000000001 / 300000000000) 1 10 (c + 1) (10 * c + 9) (1, 10) = (1, 10) := by
  induction fuel with
  | zero =>
    intro c
    rfl
  | succ fuel ih =>
    intro c
    rw [fareyLoop_step]
    by_cases hc : 10 ≤ fractionBound ∧ 10 * c + 9 ≤ fractionBound
    · have hcn : c < 1000000 := by
        have := hc.2
        simp only [fractionBound] at this
        omega
      have hcq : (c : ℚ) < 1000000 := by exact_mod_cast hcn
      have hc0 : (0 : ℚ) ≤ (c : ℚ) := Nat.cast_nonneg c
      have hM : ((1 + (c + 1) : Nat) : ℚ) / ((10 + (10 * c + 9) : Nat) : ℚ) =
          ((c : ℚ) + 2) / (10 * (c : ℚ) + 19) := by
        push_cast
        ring
      have hlt : (30000000001 / 300000000000 : ℚ) < ((c : ℚ) + 2) / (10 * (c : ℚ) + 19) := by
        rw [div_lt_div_iff₀ (by norm_num) (by linarith)]
        linarith
      have hB : ¬ 10 > fractionBound := by
        simp only [fractionBound]
        omega
      rw [if_pos hc, hM, if_neg (ne_of_lt hlt), if_neg (not_lt.2 (le_of_lt hlt)), if_neg hB]
      have hD : 10 * c + 9 + 10 = 10 * (c + 1) + 9 := by omega
      rw [hD]
      exact ih (c + 1)
    · rw [if_neg hc]

theorem fareyLoop_tenth (j : Nat) : ∀ (k fuel : Nat) (nd : Nat × Nat), 1 ≤ k → k + j = 9 →
    j < fuel → fareyLoop fuel (30000000001 / 300000000000) 0 1 1 k nd = (1, 10) := by
  induction j with
  | zero =>
    intro k fuel nd _ hk hfuel
    obtain ⟨f, rfl⟩ : ∃ f, fuel = f + 1 := ⟨fuel - 1, by omega⟩
    have hk' : k = 9 := by omega
    subst hk'
    rw [fareyLoop_step]
    have hc : (1 ≤ fractionBound ∧ 9 ≤ fractionBound) := by
      constructor <;> simp only [fractionBound] <;> omega
    have hM : ((0 + 1 : Nat) : ℚ) / ((1 + 9 : Nat) : ℚ) = 1 / 10 := by norm_num
    have hgt : (30000000001 / 300000000000 : ℚ) > 1 / 10 := by norm_num
    have hB : ¬ 1 + 9 > fractionBound := by
      simp only [fractionBound]
      omega
    rw [if_pos hc, hM, if_neg (ne_of_gt hgt), if_pos hgt, if_neg hB]
    exact fareyLoop_tenth_upper f 0
  | succ j ih =>
    intro k fuel nd hk1 hk hfuel
    obtain ⟨f, rfl⟩ : ∃ f, fuel = f + 1 := ⟨fuel - 1, by omega⟩
    rw [fareyLoop_step]
    have hc : (1 ≤ fractionBound ∧ k ≤ fractionBound) := by
      constructor <;> simp only [fractionBound] <;> omega
    have hkq : ((k : ℕ) : ℚ) + 1 ≤ 9 := by
      have : k + 1 ≤ 9 := by omega
      exact_mod_cast this
    have hpos : (0 : ℚ) < (k : ℚ) + 1 := by positivity
    have hM : ((0 + 1 : Nat) : ℚ) / ((1 + k : Nat) : ℚ) = 1 / ((k : ℚ) + 1) := by
      push_cast
      ring
    have hlt : (30000000001 / 300000000000 : ℚ) < 1 / ((k : ℚ) + 1) := by
      rw [div_lt_div_iff₀ (by norm_num) hpos]
      linarith
    rw [if_pos hc, hM, if_neg (ne_of_lt hlt), if_neg (not_lt.2 (le_of_lt hlt))]
    exact ih (k + 1) f _ (by omega) (by omega) (by omega)

theorem parseNumber_tenth : parseNumber (30000000001 / 30000000000) = (10, 10) := by
  have hrun := fareyLoop_tenth 8 1 (2 * fractionBound) (0, 1) (le_refl _) (by norm_num)
    (by norm_num [fractionBound])
  have hfloor : ⌊(30000000001 / 30000000000 : ℚ)⌋ = 1 := by
    rw [Int.floor_eq_iff]
    norm_num
  have h1 : ¬ (30000000001 / 30000000000 : ℚ) = ((1 : ℤ) : ℚ) := by norm_num
  have h2 : (30000000001 / 30000000000 : ℚ) ≥ 1 := by norm_num
  have hz : scaleExponent (30000000001 / 30000000000) = 1 := by
    rw [scaleExponent, hfloor]
    decide
  have hp : (30000000001 / 30000000000 : ℚ) / ((10 ^ 1 : Nat) : ℚ) =
      30000000001 / 300000000000 := by norm_num
  unfold parseNumber
  rw [hfloor, if_neg h1]
  simp only [if_pos h2, hz, hp, hrun]
  decide

/-- The call `math.fraction(30000000001 / 30000000000)` gives `1 / 1`. -/
theorem fraction_tenth : fraction (30000000001 / 30000000000) = ⟨1, 1, 1⟩ := by
  have hneg : ¬ (30000000001 / 30000000000 : ℚ) < 0 := by norm_num
  simp only [fraction, if_neg hneg, parseNumber_tenth]
  decide

theorem normalize_tenth : normalize [30000000001 / 30000000000, 1, 1] = [1, 1, 1] := by
  have hone : fraction 1 = ⟨1, 1, 1⟩ := by decide!
  unfold normalize
  simp only [List.map_cons, List.map_nil, fraction_tenth, hone]
  decide!

/-! ## When `math.fraction` gives the denominator in lowest terms -/

/-- Between two neighbours `A / B < p / q < C / D` of the search, with `B * C - A * D = 1`,
the denominator `q` is at least `B + D`. -/
theorem farey_bound (p q A B C D : Nat) (hdet : B * C = A * D + 1) (hlo : A * q < p * B)
    (hhi : p * D < C * q) : B + D ≤ q := by
  have hdet' : (B : ℤ) * C = A * D + 1 := by exact_mod_cast hdet
  have hlo' : (A : ℤ) * q + 1 ≤ p * B := by exact_mod_cast hlo
  have hhi' : (p : ℤ) * D + 1 ≤ C * q := by exact_mod_cast hhi
  have hB : (0 : ℤ) ≤ B := Int.natCast_nonneg B
  have hD : (0 : ℤ) ≤ D := Int.natCast_nonneg D
  have hq : (q : ℤ) = B * (C * q - p * D) + D * (p * B - A * q) := by
    linear_combination (-(q : ℤ)) * hdet'
  have h1 : (B : ℤ) * 1 ≤ B * (C * q - p * D) := mul_le_mul_of_nonneg_left (by linarith) hB
  have h2 : (D : ℤ) * 1 ≤ D * (p * B - A * q) := mul_le_mul_of_nonneg_left (by linarith) hD
  have : (B : ℤ) + D ≤ q := by linarith
  exact_mod_cast this

/-- The search meets every fraction `p / q` in lowest terms between its bounds whose
denominator is at most `N`, and returns it. -/
theorem fareyLoop_exact (p q : Nat) (hq : 0 < q) (hqN : q ≤ fractionBound)
    (hcop : Nat.Coprime p q) (fuel : Nat) :
    ∀ (A B C D : Nat) (nd : Nat × Nat), 1 ≤ B → 1 ≤ D → B * C = A * D + 1 → A * q < p * B →
      p * D < C * q → q < fuel + (B + D) →
      fareyLoop fuel ((p : ℚ) / (q : ℚ)) A B C D nd = (p, q) := by
  induction fuel with
  | zero =>
    intro A B C D nd _ _ hdet hlo hhi hfuel
    have := farey_bound p q A B C D hdet hlo hhi
    omega
  | succ fuel ih =>
    intro A B C D nd hB hD hdet hlo hhi hfuel
    have hbound := farey_bound p q A B C D hdet hlo hhi
    have hcond : B ≤ fractionBound ∧ D ≤ fractionBound := ⟨by omega, by omega⟩
    have hqq : (0 : ℚ) < (q : ℚ) := by exact_mod_cast hq
    have hBD : (0 : ℚ) < ((B + D : Nat) : ℚ) := by
      have : 0 < B + D := by omega
      exact_mod_cast this
    rw [fareyLoop_step, if_pos hcond]
    by_cases heq : (p : ℚ) / (q : ℚ) = ((A + C : Nat) : ℚ) / ((B + D : Nat) : ℚ)
    · rw [if_pos heq, if_pos (by omega)]
      have hmul : p * (B + D) = (A + C) * q := by
        have := (div_eq_div_iff (ne_of_gt hqq) (ne_of_gt hBD)).1 heq
        exact_mod_cast this
      have hdvd : q ∣ B + D := by
        have h1 : q ∣ p * (B + D) := ⟨A + C, by rw [hmul, Nat.mul_comm]⟩
        exact (Nat.Coprime.dvd_mul_left hcop.symm).1 h1
      have hqeq : B + D = q := Nat.le_antisymm hbound (Nat.le_of_dvd (by omega) hdvd)
      have hpeq : A + C = p := by
        rw [hqeq] at hmul
        exact (Nat.eq_of_mul_eq_mul_right hq hmul).symm
      rw [hqeq, hpeq]
    · rw [if_neg heq]
      by_cases hgt : (p : ℚ) / (q : ℚ) > ((A + C : Nat) : ℚ) / ((B + D : Nat) : ℚ)
      · rw [if_pos hgt]
        have hlt : (A + C) * q < p * (B + D) := by
          have := (div_lt_div_iff₀ hBD hqq).1 hgt
          exact_mod_cast this
        exact ih (A + C) (B + D) C D _ (by omega) hD
          (by rw [Nat.add_mul, Nat.add_mul, hdet]; ring) hlt hhi (by omega)
      · rw [if_neg hgt]
        have hlt : p * (B + D) < (A + C) * q := by
          have hne : p * (B + D) ≠ (A + C) * q := by
            intro hcon
            apply heq
            rw [div_eq_div_iff (ne_of_gt hqq) (ne_of_gt hBD)]
            exact_mod_cast hcon
          have hle : p * (B + D) ≤ (A + C) * q := by
            have := not_lt.1 hgt
            have := (div_le_div_iff₀ hqq hBD).1 this
            exact_mod_cast this
          omega
        exact ih A B (C + A) (D + B) _ hB (by omega)
          (by rw [Nat.mul_add, Nat.mul_add, hdet]; ring)
          hlo (by rw [Nat.add_comm D B, Nat.add_comm C A]; exact hlt) (by omega)

/-- On a number strictly between `0` and `1` whose denominator in lowest terms is at most
`N`, the pair computed by the library routine is that of its fraction in lowest terms. -/
theorem parseNumber_exact (x : ℚ) (h0 : 0 < x) (h1 : x < 1) (hden : x.den ≤ fractionBound) :
    parseNumber x = (x.num.toNat, x.den) := by
  have hnum : 0 < x.num := Rat.num_pos.2 h0
  have hcast : ((x.num.toNat : Nat) : ℤ) = x.num := Int.toNat_of_nonneg (le_of_lt hnum)
  have hx : ((x.num.toNat : Nat) : ℚ) / ((x.den : Nat) : ℚ) = x := by
    have h2 : ((x.num.toNat : Nat) : ℚ) = ((x.num : ℤ) : ℚ) := by
      rw [← hcast]
      push_cast
      rfl
    rw [h2]
    exact Rat.num_div_den x
  have hfloor : ⌊x⌋ = 0 := by
    rw [Int.floor_eq_iff]
    constructor
    · exact_mod_cast le_of_lt h0
    · simpa using h1
  have hnat : x.num.natAbs = x.num.toNat := by omega
  have hcop : Nat.Coprime x.num.toNat x.den := by
    have := x.reduced
    rwa [hnat] at this
  have hdq : (0 : ℚ) < (x.den : ℚ) := by exact_mod_cast x.den_pos
  have hlt : x.num.toNat < x.den := by
    have h3 : ((x.num.toNat : Nat) : ℚ) < ((x.den : Nat) : ℚ) := by
      have := h1
      rw [← hx, div_lt_one hdq] at this
      exact this
    exact_mod_cast h3
  have hrun := fareyLoop_exact x.num.toNat x.den x.den_pos hden hcop (2 * fractionBound)
    0 1 1 1 (0, 1) (le_refl _) (le_refl _) (by norm_num)
    (by
      have : 0 < x.num.toNat := by omega
      omega)
    (by omega) (by omega)
  rw [hx] at hrun
  have hne : ¬ x = ((0 : ℤ) : ℚ) := by
    intro hcon
    rw [hcon] at h0
    simp at h0
  have hge : ¬ x ≥ 1 := not_le.2 h1
  unfold parseNumber
  rw [hfloor, if_neg hne]
  simp only [if_neg hge, Nat.cast_one, div_one, hrun, mul_one]

/-- The call `math.fraction` gives a number its denominator in lowest terms when the number
is an integer, and when it lies strictly between `0` and `1` with a denominator of at most
`N = 10000000`. -/
theorem fraction_d_eq (x : ℚ)
    (h : x.den = 1 ∨ (0 < x ∧ x < 1 ∧ x.den ≤ fractionBound)) : (fraction x).d = x.den := by
  rcases h with h | ⟨h0, h1, hden⟩
  · have hint : ∀ y : ℚ, y.den = 1 → parseNumber y = (⌊y⌋.toNat, 1) := by
      intro y hy
      have hy' : ((y.num : ℤ) : ℚ) = y := (Rat.den_eq_one_iff y).1 hy
      have hfl : ⌊y⌋ = y.num := by
        rw [← hy']
        simp
      unfold parseNumber
      rw [hfl, if_pos hy'.symm]
    have hneg : (-x).den = 1 := by rw [Rat.neg_den, h]
    unfold fraction
    by_cases hx : x < 0
    · simp only [if_pos hx, hint _ hneg, Nat.gcd_one_left, Nat.div_one, h]
    · simp only [if_neg hx, hint _ h, Nat.gcd_one_left, Nat.div_one, h]
  · have hx : ¬ x < 0 := not_lt.2 (le_of_lt h0)
    have hnum : 0 < x.num := Rat.num_pos.2 h0
    have hnat : x.num.natAbs = x.num.toNat := by omega
    have hcop : Nat.gcd x.den x.num.toNat = 1 := by
      have := x.reduced
      rw [hnat] at this
      exact Nat.Coprime.symm this
    unfold fraction
    simp only [if_neg hx, parseNumber_exact x h0 h1 hden, hcop, Nat.div_one]

/-! ## The right-hand side column stays zero -/

theorem getD_mem_or_nil (aug : Matrix) (r : Nat) : aug.getD r [] ∈ aug ∨ aug.getD r [] = [] := by
  by_cases h : r < aug.length
  · left
    rw [List.getD_eq_getElem _ _ h]
    exact List.getElem_mem h
  · right
    exact List.getD_eq_default _ _ (by omega)

theorem LastZero.getD {n : Nat} {aug : Matrix} (h : LastZero n aug) (r : Nat) :
    (aug.getD r []).getD n 0 = 0 := by
  rcases getD_mem_or_nil aug r with hm | hm
  · exact h _ hm
  · rw [hm]; rfl

theorem LastZero.entry {n : Nat} {aug : Matrix} (h : LastZero n aug) (r : Nat) :
    entry aug r n = 0 := h.getD r

theorem getD_mapIdx_line (f : Nat → ℚ → ℚ) (line : List ℚ) (j : Nat) :
    (line.mapIdx f).getD j 0 = if j < line.length then f j (line.getD j 0) else 0 := by
  rw [List.getD_eq_getElem?_getD, List.getElem?_mapIdx]
  by_cases h : j < line.length
  · rw [List.getElem?_eq_getElem h, if_pos h, List.getD_eq_getElem _ _ h]
    rfl
  · rw [List.getElem?_eq_none (by omega), if_neg h]
    rfl

theorem swapRows_lastZero {n : Nat} {aug : Matrix} (h : LastZero n aug) (i j : Nat) :
    LastZero n (swapRows aug i j) := by
  intro line hl
  unfold swapRows at hl
  rcases List.mem_or_eq_of_mem_set hl with hl | rfl
  · rcases List.mem_or_eq_of_mem_set hl with hl | rfl
    · exact h _ hl
    · exact h.getD j
  · exact h.getD i

theorem scaleRow_lastZero {n : Nat} {aug : Matrix} (h : LastZero n aug) (col rank : Nat)
    (pivot : ℚ) : LastZero n (scaleRow aug n col rank pivot) := by
  intro line hl
  unfold scaleRow at hl
  obtain ⟨r, hr, rfl⟩ := List.mem_mapIdx.1 hl
  have h0 : (aug[r]).getD n 0 = 0 := h _ (List.getElem_mem hr)
  split_ifs
  · rw [getD_mapIdx_line, h0]
    split_ifs <;> simp
  · exact h0

theorem eliminateColumn_lastZero {n : Nat} {aug : Matrix} (h : LastZero n aug)
    (col rank : Nat) : LastZero n (eliminateColumn aug n col rank) := by
  intro line hl
  unfold eliminateColumn at hl
  obtain ⟨r, hr, rfl⟩ := List.mem_mapIdx.1 hl
  have h0 : (aug[r]).getD n 0 = 0 := h _ (List.getElem_mem hr)
  split_ifs
  · rw [getD_mapIdx_line, h0, h.entry rank]
    split_ifs <;> simp
  · exact h0

theorem forwardStep_lastZero {n : Nat} (m : Nat) (st : Matrix × Nat) (col : Nat)
    (h : LastZero n st.1) : LastZero n (forwardStep n m st col).1 := by
  unfold forwardStep
  dsimp only
  split_ifs
  · exact h
  · exact eliminateColumn_lastZero (scaleRow_lastZero (swapRows_lastZero h _ _) _ _ _) _ _
  · exact eliminateColumn_lastZero (scaleRow_lastZero h _ _ _) _ _
  · exact h

theorem foldl_forwardStep_lastZero {n : Nat} (m : Nat) (cols : List Nat) (st : Matrix × Nat)
    (h : LastZero n st.1) : LastZero n (cols.foldl (forwardStep n m) st).1 := by
  induction cols generalizing st with
  | nil => exact h
  | cons c cs ih => exact ih _ (forwardStep_lastZero m st c h)

theorem forwardElimination_lastZero {n : Nat} (m : Nat) (aug : Matrix) (h : LastZero n aug) :
    LastZero n (forwardElimination aug n m).1 :=
  foldl_forwardStep_lastZero m _ _ h

theorem augmented_lastZero (matrix : Matrix) (n : Nat) (h : ∀ line ∈ matrix, line.length = n) :
    LastZero n (matrix.map fun line => line ++ [0]) := by
  intro line hl
  obtain ⟨l, hmem, rfl⟩ := List.mem_map.1 hl
  have := h l hmem
  subst this
  simp [List.getD_eq_getElem?_getD]

theorem consistent_of_lastZero {n : Nat} {aug : Matrix} (h : LastZero n aug) (m rank : Nat) :
    consistent aug n m rank = true := by
  unfold consistent
  rw [List.all_eq_true]
  intro row _
  rw [h.entry row]
  simp [threshold]

/-- On a non-empty matrix whose rows have one common length the consistency check passes:
the solver returns the normalised raw solution. -/
theorem solveLinearSystem_eq (first : List ℚ) (others : Matrix)
    (h : ∀ line ∈ first :: others, line.length = first.length) :
    solveLinearSystem (first :: others) =
      .ok (normalize (rawSolution ((first :: others).map fun line => line ++ [0]) first.length
        ((first :: others).map fun line => line ++ [0]).length)) := by
  have hz := forwardElimination_lastZero
    ((first :: others).map fun line => line ++ [0]).length _
    (augmented_lastZero (first :: others) first.length h)
  have hc := consistent_of_lastZero hz
    ((first :: others).map fun line => line ++ [0]).length
    (forwardElimination ((first :: others).map fun line => line ++ [0]) first.length
      ((first :: others).map fun line => line ++ [0]).length).2
  unfold solveLinearSystem
  simp only [hc, if_true, rawSolution]

/-! ## Length of the solution vector -/

theorem identifyStep_length (aug : Matrix) (n rank : Nat) (st : Nat × List ℚ) (col : Nat) :
    (identifyStep aug n rank st col).2.length = st.2.length := by
  unfold identifyStep
  split_ifs <;> simp

theorem identifyFree_length (aug : Matrix) (n rank : Nat) :
    (identifyFree aug n rank).length = n := by
  unfold identifyFree
  have key : ∀ (cols : List Nat) (st : Nat × List ℚ),
      (cols.foldl (identifyStep aug n rank) st).2.length = st.2.length := by
    intro cols
    induction cols with
    | nil => intro st; rfl
    | cons c cs ih => intro st; rw [List.foldl_cons, ih, identifyStep_length]
  rw [key]
  simp

theorem backStep_length (aug : Matrix) (n : Nat) (solution : List ℚ) (r : Nat) :
    (backStep aug n solution r).length = solution.length := by
  unfold backStep
  split <;> simp

theorem backSubstitute_length (aug : Matrix) (n rank : Nat) (solution : List ℚ) :
    (backSubstitute aug n rank solution).length = solution.length := by
  unfold backSubstitute
  generalize (List.range rank).reverse = rows
  induction rows generalizing solution with
  | nil => rfl
  | cons r rs ih => rw [List.foldl_cons, ih, backStep_length]

theorem rawSolution_length (aug : Matrix) (n m : Nat) : (rawSolution aug n m).length = n := by
  unfold rawSolution
  simp only [backSubstitute_length, identifyFree_length]

/-! ## Shape of the matrix and of the result -/

theorem splitPlus_ne_nil (s : List Char) : splitPlus s ≠ [] := by
  cases s with
  | nil => simp [splitPlus]
  | cons c rest =>
    unfold splitPlus
    split_ifs
    · simp
    · split <;> simp

theorem matrixRow_length (reactants products : List (List Char)) (element : List Char) :
    (matrixRow reactants products element).length = reactants.length + products.length := by
  simp [matrixRow]

/-- A count of `0` leaves the initial `0` of the row: the row holds the counts of the
reactants and the negated counts of the products. -/
theorem matrixRow_eq (reactants products : List (List Char)) (element : List Char) :
    matrixRow reactants products element =
      (reactants.map fun r => (getCount (parseFormula r) element : ℚ)) ++
        products.map fun p => -(getCount (parseFormula p) element : ℚ) := by
  unfold matrixRow
  congr 1
  · apply List.map_congr_left
    intro r _
    split_ifs with h
    · rfl
    · rw [not_not.1 h]; simp
  · apply List.map_congr_left
    intro p _
    split_ifs with h
    · rfl
    · rw [not_not.1 h]; simp

theorem buildMatrix_row_length (reactants products : List (List Char)) :
    ∀ line ∈ buildMatrix reactants products, line.length = reactants.length + products.length := by
  intro line hl
  obtain ⟨e, _, rfl⟩ := List.mem_map.1 hl
  exact matrixRow_length _ _ _

theorem solveLinearSystem_buildMatrix (reactants products : List (List Char))
    (h : buildMatrix reactants products ≠ []) :
    solveLinearSystem (buildMatrix reactants products) = .ok (coefficientsOf reactants products) := by
  have hrow := buildMatrix_row_length reactants products
  cases hm : buildMatrix reactants products with
  | nil => exact absurd hm h
  | cons first others =>
    rw [hm] at hrow
    have hfirst : first.length = reactants.length + products.length :=
      hrow first (List.mem_cons_self _ _)
    have hrect : ∀ line ∈ first :: others, line.length = first.length := by
      intro line hl
      rw [hrow line hl, hfirst]
    rw [solveLinearSystem_eq first others hrect, coefficientsOf, hm, hfirst]

theorem coefficientsOf_length (reactants products : List (List Char)) :
    (coefficientsOf reactants products).length = reactants.length + products.length := by
  rw [coefficientsOf, normalize_length, rawSolution_length]

theorem coefficientsOf_pos (reactants products : List (List Char)) :
    ∀ c ∈ coefficientsOf reactants products, 1 ≤ c :=
  normalize_pos _

/-- The body of `balanceEquation` in closed form, for an equation with at least two
arrow-separated pieces. -/
theorem balanceEquationBody_eq (equation reactantsStr productsStr : List Char)
    (more : List (List Char))
    (h : (splitArrow equation).map trim = reactantsStr :: productsStr :: more) :
    balanceEquationBody equation =
      if buildMatrix ((splitPlus reactantsStr).map trim) ((splitPlus productsStr).map trim) = []
      then .error .typeError
      else .ok (resultOf ((splitPlus reactantsStr).map trim) ((splitPlus productsStr).map trim)) := by
  unfold balanceEquationBody
  rw [h]
  split_ifs with hm
  · simp only [hm, solveLinearSystem]
  · simp only [solveLinearSystem_buildMatrix _ _ hm, resultOf]

theorem balanceEquationBody_short (equation : List Char)
    (h : ∀ a b more, (splitArrow equation).map trim ≠ a :: b :: more) :
    balanceEquationBody equation = .error .typeError := by
  unfold balanceEquationBody
  split
  · next a b more heq => exact absurd heq (h a b more)
  · rfl

/-! ## Splitting at the arrow -/

theorem splitArrow_arrow (rest : List Char) :
    splitArrow ('-' :: '>' :: rest) = [] :: splitArrow rest := by
  rw [splitArrow]

theorem splitArrow_cons (c : Char) (rest : List Char)
    (h : ∀ r, c :: rest ≠ '-' :: '>' :: r) :
    splitArrow (c :: rest) =
      match splitArrow rest with
      | [] => [[c]]
      | piece :: pieces => (c :: piece) :: pieces := by
  rw [splitArrow]
  intro r hc hr
  exact h r (by rw [hc, hr])

theorem no_arrow_cons {c : Char} {rest : List Char} (h : ¬ arrow <:+: c :: rest) :
    ¬ arrow <:+: rest ∧ ∀ r, c :: rest ≠ '-' :: '>' :: r := by
  refine ⟨fun hi => h (List.infix_cons hi), ?_⟩
  intro r hr
  apply h
  rw [hr]
  exact ⟨[], r, rfl⟩

/-- A string without the arrow is one piece. -/
theorem splitArrow_of_no_arrow (s : List Char) (h : ¬ arrow <:+: s) : splitArrow s = [s] := by
  induction s with
  | nil => rfl
  | cons c rest ih =>
    obtain ⟨h1, h2⟩ := no_arrow_cons h
    rw [splitArrow_cons c rest h2, ih h1]

/-- The first piece ends at the first arrow. -/
theorem splitArrow_append_arrow (l x : List Char) (h : ¬ arrow <:+: l) :
    splitArrow (l ++ '-' :: '>' :: x) = l :: splitArrow x := by
  induction l with
  | nil => exact splitArrow_arrow x
  | cons c rest ih =>
    obtain ⟨h1, h2⟩ := no_arrow_cons h
    have h3 : ∀ r, c :: (rest ++ '-' :: '>' :: x) ≠ '-' :: '>' :: r := by
      intro r hr
      cases rest with
      | nil =>
        simp only [List.nil_append, List.cons.injEq] at hr
        exact absurd hr.2.1 (by decide)
      | cons d rest' =>
        simp only [List.cons_append, List.cons.injEq] at hr
        exact h2 rest' (by rw [hr.1, hr.2.1])
    rw [List.cons_append, splitArrow_cons c _ h3, ih h1]

/-! ## The set of elements -/

theorem foldl_insert_eq_nil (keys : ElementCount) (set : List (List Char)) :
    keys.foldl (fun acc p => if p.1 ∈ acc then acc else acc ++ [p.1]) set = [] ↔
      set = [] ∧ keys = [] := by
  induction keys generalizing set with
  | nil => simp
  | cons p ps ih =>
    rw [List.foldl_cons, ih]
    constructor
    · rintro ⟨h1, _⟩
      split_ifs at h1 with hmem
      · subst h1; simp at hmem
      · simp at h1
    · rintro ⟨_, h2⟩
      simp at h2

/-- No element at all exactly when no molecule has an element symbol. -/
theorem allElements_eq_nil (molecules : List (List Char)) :
    allElements molecules = [] ↔ ∀ molecule ∈ molecules, parseFormula molecule = [] := by
  unfold allElements
  have key : ∀ (set : List (List Char)),
      molecules.foldl
        (fun set molecule =>
          (parseFormula molecule).foldl (fun acc p => if p.1 ∈ acc then acc else acc ++ [p.1]) set)
        set = [] ↔ set = [] ∧ ∀ molecule ∈ molecules, parseFormula molecule = [] := by
    induction molecules with
    | nil => intro set; simp
    | cons mol rest ih =>
      intro set
      rw [List.foldl_cons, ih, foldl_insert_eq_nil]
      simp only [List.mem_cons, forall_eq_or_imp]
      tauto
  rw [key]
  simp

theorem buildMatrix_eq_nil (reactants products : List (List Char)) :
    buildMatrix reactants products = [] ↔
      ∀ molecule ∈ reactants ++ products, parseFormula molecule = [] := by
  rw [buildMatrix, List.map_eq_nil_iff, allElements_eq_nil]

/-! ## When `balanceEquation` returns, and what -/

theorem balanceEquation_ok_iff (equation : List Char) (r : BalancedEquation) :
    balanceEquation equation = .ok r ↔
      ∃ reactantsStr productsStr more,
        (splitArrow equation).map trim = reactantsStr :: productsStr :: more ∧
        buildMatrix ((splitPlus reactantsStr).map trim) ((splitPlus productsStr).map trim) ≠ [] ∧
        r = resultOf ((splitPlus reactantsStr).map trim) ((splitPlus productsStr).map trim) := by
  unfold balanceEquation
  constructor
  · intro h
    match hs : (splitArrow equation).map trim with
    | [] =>
      rw [balanceEquationBody_short equation (by simp [hs])] at h
      simp at h
    | [a] =>
      rw [balanceEquationBody_short equation (by simp [hs])] at h
      simp at h
    | a :: b :: more =>
      rw [balanceEquationBody_eq equation a b more hs] at h
      by_cases hm : buildMatrix ((splitPlus a).map trim) ((splitPlus b).map trim) = []
      · rw [if_pos hm] at h
        simp at h
      · rw [if_neg hm] at h
        exact ⟨a, b, more, rfl, hm, (Except.ok.inj h).symm⟩
  · rintro ⟨a, b, more, hs, hm, rfl⟩
    rw [balanceEquationBody_eq equation a b more hs, if_neg hm]

theorem balanceEquation_error_iff (equation : List Char) :
    balanceEquation equation = .error failureMessage ↔
      ∀ reactantsStr productsStr more,
        (splitArrow equation).map trim = reactantsStr :: productsStr :: more →
        buildMatrix ((splitPlus reactantsStr).map trim) ((splitPlus productsStr).map trim) = [] := by
  constructor
  · intro h a b more hs
    by_contra hm
    have := (balanceEquation_ok_iff equation _).2 ⟨a, b, more, hs, hm, rfl⟩
    rw [h] at this
    simp at this
  · intro h
    unfold balanceEquation
    match hs : (splitArrow equation).map trim with
    | [] => rw [balanceEquationBody_short equation (by simp [hs])]
    | [a] => rw [balanceEquationBody_short equation (by simp [hs])]
    | a :: b :: more =>
      rw [balanceEquationBody_eq equation a b more hs, if_pos (h a b more hs)]

theorem numberToString_of_nonneg (c : ℤ) (h : 0 ≤ c) : numberToString c = Nat.toDigits 10 c.toNat := by
  cases c with
  | ofNat k => rfl
  | negSucc k => exact absurd h (by simp)

theorem renderMolecule_eq (c : ℤ) (h : 0 ≤ c) (r : List Char) :
    renderMolecule (some c) r = specRenderMolecule c r := by
  simp only [renderMolecule, specRenderMolecule, numberToString_of_nonneg c h]

theorem renderFrom_eq (coefficients : List ℤ) (hpos : ∀ c ∈ coefficients, 0 ≤ c) (i : Nat)
    (molecules : List (List Char)) (h : i + molecules.length ≤ coefficients.length) :
    renderFrom coefficients i molecules =
      List.zipWith specRenderMolecule (coefficients.drop i) molecules := by
  induction molecules generalizing i with
  | nil => simp [renderFrom]
  | cons r rest ih =>
    have hi : i < coefficients.length := by simp at h; omega
    rw [renderFrom, List.drop_eq_getElem_cons hi, List.zipWith_cons_cons,
      List.getElem?_eq_getElem hi, renderMolecule_eq _ (hpos _ (List.getElem_mem hi)),
      ih (i + 1) (by simp at h ⊢; omega)]

theorem resultOf_balancedEquation (reactants products : List (List Char)) :
    (resultOf reactants products).balancedEquation =
      specRenderSide (resultOf reactants products).reactantCoefficients reactants ++
        " -> ".toList ++
        specRenderSide (resultOf reactants products).productCoefficients products := by
  have hlen := coefficientsOf_length reactants products
  have hpos : ∀ c ∈ coefficientsOf reactants products, 0 ≤ c := fun c hc =>
    le_trans (by decide) (coefficientsOf_pos reactants products c hc)
  have h1 : renderFrom ((coefficientsOf reactants products).take reactants.length) 0 reactants =
      List.zipWith specRenderMolecule ((coefficientsOf reactants products).take reactants.length)
        reactants := by
    rw [renderFrom_eq _ (fun c hc => hpos c (List.mem_of_mem_take hc)) 0 reactants
      (by simp [hlen]), List.drop_zero]
  have h2 : renderFrom ((coefficientsOf reactants products).drop reactants.length) 0 products =
      List.zipWith specRenderMolecule ((coefficientsOf reactants products).drop reactants.length)
        products := by
    rw [renderFrom_eq _ (fun c hc => hpos c (List.mem_of_mem_drop hc)) 0 products
      (by simp [hlen]), List.drop_zero]
  simp only [resultOf, specRenderSide, h1, h2]

/-! ## The parser loop terminates -/

theorem scanGroup_length (depth : Nat) (rest : List Char) :
    (scanGroup depth rest).1.length ≤ rest.length ∧ (scanGroup depth rest).2.length ≤ rest.length := by
  induction rest generalizing depth with
  | nil => cases depth <;> simp [scanGroup]
  | cons c rest ih =>
    cases depth with
    | zero => simp [scanGroup]
    | succ d =>
      simp only [scanGroup, List.length_cons]
      generalize (if c = ')' then (if c = '(' then d + 2 else d + 1) - 1
        else if c = '(' then d + 2 else d + 1) = depth
      have h := ih depth
      constructor
      · by_cases hd : depth > 0
        · simp only [hd, if_true, List.length_cons]; omega
        · simp only [hd, if_false]; omega
      · omega

theorem dropWhile_length_le (p : Char → Bool) (l : List Char) : (l.dropWhile p).length ≤ l.length := by
  induction l with
  | nil => simp
  | cons a l ih =>
    rw [List.dropWhile_cons]
    split_ifs
    · simp only [List.length_cons]; omega
    · exact le_refl _

/-- With fuel at least the length of the string the loop returns, and more fuel does not
change what it returns. -/
theorem parseLoop_fuel (fuel : Nat) :
    ∀ (rest : List Char) (elements : ElementCount) (currentElement currentCount : List Char),
      rest.length ≤ fuel →
      (parseLoop fuel rest elements currentElement currentCount).isSome ∧
        parseLoop (fuel + 1) rest elements currentElement currentCount =
          parseLoop fuel rest elements currentElement currentCount := by
  induction fuel with
  | zero =>
    intro rest elements currentElement currentCount h
    have : rest = [] := List.length_eq_zero.1 (by omega)
    subst this
    simp [parseLoop]
  | succ f ih =>
    intro rest elements currentElement currentCount h
    cases rest with
    | nil => simp [parseLoop]
    | cons c r =>
      have hr : r.length ≤ f := by simpa using h
      have hg := scanGroup_length 1 r
      have hd1 := dropWhile_length_le isDigit (scanGroup 1 r).2
      have hd2 := dropWhile_length_le isLower r
      rw [parseLoop, parseLoop]
      by_cases h1 : c = '('
      · simp only [h1, if_true]
        obtain ⟨hs, he⟩ := ih (scanGroup 1 r).1 [] [] [] (by omega)
        rw [he]
        obtain ⟨sub, hsub⟩ := Option.isSome_iff_exists.1 hs
        rw [hsub]
        exact ih _ _ _ _ (by omega)
      · simp only [h1, if_false]
        by_cases h2 : isUpper c = true
        · simp only [h2, if_true]
          exact ih _ _ _ _ (by omega)
        · simp only [h2]
          by_cases h3 : isDigit c = true
          · simp only [h3, if_true]
            exact ih _ _ _ _ hr
          · simp only [h3]
            exact ih _ _ _ _ hr

theorem parseLoop_isSome (rest : List Char) (elements : ElementCount)
    (currentElement currentCount : List Char) :
    (parseLoop rest.length rest elements currentElement currentCount).isSome :=
  (parseLoop_fuel rest.length rest elements currentElement currentCount (le_refl _)).1

theorem parseLoop_eq_parseFrom (fuel : Nat) (rest : List Char) (elements : ElementCount)
    (currentElement currentCount : List Char) (h : rest.length ≤ fuel) :
    parseLoop fuel rest elements currentElement currentCount =
      some (parseFrom rest elements currentElement currentCount) := by
  induction fuel with
  | zero =>
    have : rest = [] := List.length_eq_zero.1 (by omega)
    subst this
    simp [parseFrom, parseLoop]
  | succ f ih =>
    by_cases hf : rest.length ≤ f
    · rw [(parseLoop_fuel f rest elements currentElement currentCount hf).2]
      exact ih hf
    · have : rest.length = f + 1 := by omega
      rw [← this]
      obtain ⟨m, hm⟩ := Option.isSome_iff_exists.1
        (parseLoop_isSome rest elements currentElement currentCount)
      rw [parseFrom, hm]
      rfl

theorem parseFormula_eq_parseFrom (formula : List Char) :
    parseFormula formula = parseFrom formula [] [] [] := rfl

theorem parseFrom_nil (elements : ElementCount) (currentElement currentCount : List Char) :
    parseFrom [] elements currentElement currentCount =
      flush elements currentElement currentCount := by
  simp [parseFrom, parseLoop]

/-- One iteration of the main loop, on its first character. -/
theorem parseFrom_cons (c : Char) (rest : List Char) (elements : ElementCount)
    (currentElement currentCount : List Char) :
    parseFrom (c :: rest) elements currentElement currentCount =
      if c = '(' then
        parseFrom ((scanGroup 1 rest).2.dropWhile isDigit)
          (mergeScaled elements (parseFrom (scanGroup 1 rest).1 [] [] [])
            (countOf ((scanGroup 1 rest).2.takeWhile isDigit)))
          currentElement currentCount
      else if isUpper c then
        parseFrom (rest.dropWhile isLower) (flush elements currentElement currentCount)
          (c :: rest.takeWhile isLower) (if currentElement.isEmpty then currentCount else [])
      else if isDigit c then parseFrom rest elements currentElement (currentCount ++ [c])
      else parseFrom rest elements currentElement currentCount := by
  have hg := scanGroup_length 1 rest
  have hd1 := dropWhile_length_le isDigit (scanGroup 1 rest).2
  have hd2 := dropWhile_length_le isLower rest
  have hopt : ∀ x : ElementCount, (some x).getD [] = x := fun _ => rfl
  rw [parseFrom, List.length_cons, parseLoop]
  by_cases h1 : c = '('
  · simp only [h1, if_true]
    rw [parseLoop_eq_parseFrom _ (scanGroup 1 rest).1 _ _ _ (by omega)]
    simp only
    rw [parseLoop_eq_parseFrom _ _ _ _ _ (by omega), hopt]
  · simp only [h1, if_false]
    cases h2 : isUpper c
    · simp only [Bool.false_eq_true, if_false]
      cases h3 : isDigit c
      · simp only [Bool.false_eq_true, if_false]
        rw [parseLoop_eq_parseFrom _ _ _ _ _ (le_refl _), hopt]
      · simp only [if_true]
        rw [parseLoop_eq_parseFrom _ _ _ _ _ (le_refl _), hopt]
    · simp only [if_true]
      rw [parseLoop_eq_parseFrom _ _ _ _ _ (by omega), hopt]

/-! ## Flat formulas -/

theorem char_le_iff (a b : Char) : a ≤ b ↔ a.toNat ≤ b.toNat := by
  rfl

theorem isUpper_iff (c : Char) : isUpper c = true ↔ 65 ≤ c.toNat ∧ c.toNat ≤ 90 := by
  simp [isUpper, char_le_iff]

theorem isLower_iff (c : Char) : isLower c = true ↔ 97 ≤ c.toNat ∧ c.toNat ≤ 122 := by
  simp [isLower, char_le_iff]

theorem isDigit_iff (c : Char) : isDigit c = true ↔ 48 ≤ c.toNat ∧ c.toNat ≤ 57 := by
  simp [isDigit, char_le_iff]

theorem ne_open_of_toNat (c : Char) (h : c.toNat ≠ 40) : c ≠ '(' := by
  rintro rfl
  exact h rfl

theorem isUpper_facts {c : Char} (h : isUpper c = true) :
    c ≠ '(' ∧ isLower c = false ∧ isDigit c = false := by
  rw [isUpper_iff] at h
  refine ⟨ne_open_of_toNat c (by omega), ?_, ?_⟩
  · rw [Bool.eq_false_iff, ne_eq, isLower_iff]; omega
  · rw [Bool.eq_false_iff, ne_eq, isDigit_iff]; omega

theorem isDigit_facts {c : Char} (h : isDigit c = true) :
    c ≠ '(' ∧ isLower c = false ∧ isUpper c = false := by
  rw [isDigit_iff] at h
  refine ⟨ne_open_of_toNat c (by omega), ?_, ?_⟩
  · rw [Bool.eq_false_iff, ne_eq, isLower_iff]; omega
  · rw [Bool.eq_false_iff, ne_eq, isUpper_iff]; omega

/-- A run of digits is appended to `currentCount`. -/
theorem parseFrom_digits (digits rest : List Char) (hd : ∀ c ∈ digits, isDigit c = true)
    (elements : ElementCount) (currentElement currentCount : List Char) :
    parseFrom (digits ++ rest) elements currentElement currentCount =
      parseFrom rest elements currentElement (currentCount ++ digits) := by
  induction digits generalizing currentCount with
  | nil => simp
  | cons d ds ih =>
    have hdig := hd d (List.mem_cons_self _ _)
    obtain ⟨h1, _, h3⟩ := isDigit_facts hdig
    rw [List.cons_append, parseFrom_cons, if_neg h1, h3, hdig]
    simp only [Bool.false_eq_true, if_false, if_true]
    rw [ih (fun c hc => hd c (List.mem_cons_of_mem _ hc)), List.append_assoc]
    rfl

theorem takeWhile_append_of_all {p : Char → Bool} (l rest : List Char) (hl : ∀ c ∈ l, p c = true)
    (hrest : ∀ c r, rest = c :: r → p c = false) :
    (l ++ rest).takeWhile p = l ∧ (l ++ rest).dropWhile p = rest := by
  induction l with
  | nil =>
    cases rest with
    | nil => simp
    | cons c r => simp [List.takeWhile_cons, List.dropWhile_cons, hrest c r rfl]
  | cons a l ih =>
    have ha := hl a (List.mem_cons_self _ _)
    obtain ⟨h1, h2⟩ := ih (fun c hc => hl c (List.mem_cons_of_mem _ hc))
    simp [List.takeWhile_cons, List.dropWhile_cons, ha, h1, h2]

/-- The first character of the text after a token is not a lowercase letter. -/
theorem flatText_head_not_lower (tokens : List Token) (h : ∀ t ∈ tokens, t.WellFormed) :
    ∀ c r, flatText tokens = c :: r → isLower c = false := by
  intro c r hc
  cases tokens with
  | nil => simp [flatText] at hc
  | cons t ts =>
    simp only [flatText, Token.text, List.cons_append, List.cons.injEq] at hc
    rw [← hc.1]
    exact (isUpper_facts (h t (List.mem_cons_self _ _)).1).2.1

/-- The loop over one token: the pending element is recorded and the token becomes the
pending element, its digits the pending count. -/
theorem parseFrom_token (t : Token) (ht : t.WellFormed) (tokens : List Token)
    (h : ∀ t ∈ tokens, t.WellFormed) (elements : ElementCount)
    (currentElement currentCount : List Char) (hc : currentElement = [] → currentCount = []) :
    parseFrom (t.text ++ flatText tokens) elements currentElement currentCount =
      parseFrom (flatText tokens) (flush elements currentElement currentCount) t.symbol t.digits := by
  obtain ⟨hu, hl, hd⟩ := ht
  obtain ⟨h1, _, _⟩ := isUpper_facts hu
  have hrest : ∀ c r, t.digits ++ flatText tokens = c :: r → isLower c = false := by
    intro c r hcr
    cases hdig : t.digits with
    | nil =>
      rw [hdig, List.nil_append] at hcr
      exact flatText_head_not_lower tokens h c r hcr
    | cons d ds =>
      rw [hdig, List.cons_append, List.cons.injEq] at hcr
      rw [← hcr.1]
      exact (isDigit_facts (hd d (by rw [hdig]; exact List.mem_cons_self _ _))).2.1
  obtain ⟨htake, hdrop⟩ := takeWhile_append_of_all t.lowers (t.digits ++ flatText tokens) hl hrest
  have hcount : (if currentElement.isEmpty then currentCount else []) = [] := by
    cases currentElement with
    | nil => simpa using hc rfl
    | cons a l => rfl
  rw [Token.text, List.cons_append, parseFrom_cons, if_neg h1, hu, if_pos rfl, List.append_assoc,
    htake, hdrop, hcount, parseFrom_digits _ _ hd, List.nil_append]
  rfl

theorem flush_symbol (elements : ElementCount) (t : Token) :
    flush elements t.symbol t.digits = addCount elements t.symbol t.number := by
  simp only [flush, Token.symbol, List.isEmpty_cons, Bool.false_eq_true, if_false, countOf,
    Token.number, List.isEmpty_iff]

/-- The parse of a flat formula: the tokens are added in order. -/
theorem parseFrom_flatText (tokens : List Token) (h : ∀ t ∈ tokens, t.WellFormed)
    (elements : ElementCount) (currentElement currentCount : List Char)
    (hc : currentElement = [] → currentCount = []) :
    parseFrom (flatText tokens) elements currentElement currentCount =
      tokens.foldl (fun acc t => addCount acc t.symbol t.number)
        (flush elements currentElement currentCount) := by
  induction tokens generalizing elements currentElement currentCount with
  | nil => simp [flatText, parseFrom_nil]
  | cons t ts ih =>
    have ht := h t (List.mem_cons_self _ _)
    have hts : ∀ t ∈ ts, t.WellFormed := fun t' ht' => h t' (List.mem_cons_of_mem _ ht')
    rw [flatText, parseFrom_token t ht ts hts _ _ _ hc, ih hts, flush_symbol, List.foldl_cons]
    intro hsym
    simp [Token.symbol] at hsym

theorem parseFormula_flatText (tokens : List Token) (h : ∀ t ∈ tokens, t.WellFormed) :
    parseFormula (flatText tokens) =
      tokens.foldl (fun acc t => addCount acc t.symbol t.number) [] := by
  rw [parseFormula_eq_parseFrom, parseFrom_flatText tokens h [] [] [] (fun _ => rfl)]
  rfl

/-! ## Counts and keys of a map -/

theorem getCount_addCount (elements : ElementCount) (el : List Char) (k : Nat) (e : List Char) :
    getCount (addCount elements el k) e = getCount elements e + if el = e then k else 0 := by
  induction elements with
  | nil => simp [addCount, getCount]
  | cons p ps ih =>
    obtain ⟨key, c⟩ := p
    simp only [addCount, getCount]
    by_cases h1 : key = el
    · subst h1
      by_cases h2 : key = e
      · simp [getCount, h2]
      · simp [getCount, h2]
    · by_cases h2 : key = e
      · subst h2
        simp [getCount, h1, Ne.symm h1]
      · simp [getCount, h1, h2, ih]

theorem keys_addCount (elements : ElementCount) (el : List Char) (k : Nat) :
    (addCount elements el k).map Prod.fst =
      if el ∈ elements.map Prod.fst then elements.map Prod.fst else elements.map Prod.fst ++ [el] := by
  induction elements with
  | nil => simp [addCount]
  | cons p ps ih =>
    obtain ⟨key, c⟩ := p
    simp only [addCount]
    by_cases h1 : key = el
    · subst h1
      simp
    · simp only [h1, if_false, List.map_cons, ih, List.mem_cons, Ne.symm h1, false_or]
      split_ifs <;> simp

theorem getCount_foldl_tokens (tokens : List Token) (elements : ElementCount) (e : List Char) :
    getCount (tokens.foldl (fun acc t => addCount acc t.symbol t.number) elements) e =
      getCount elements e + tokenTotal tokens e := by
  induction tokens generalizing elements with
  | nil => simp [tokenTotal]
  | cons t ts ih =>
    rw [List.foldl_cons, ih, getCount_addCount]
    simp only [tokenTotal, List.filter_cons]
    by_cases h : t.symbol = e
    · simp [h]; omega
    · simp [h]

theorem keys_foldl_tokens (tokens : List Token) (elements : ElementCount) :
    (∀ key, key ∈ (tokens.foldl (fun acc t => addCount acc t.symbol t.number) elements).map Prod.fst ↔
        key ∈ elements.map Prod.fst ∨ ∃ t ∈ tokens, t.symbol = key) ∧
      ((elements.map Prod.fst).Nodup →
        ((tokens.foldl (fun acc t => addCount acc t.symbol t.number) elements).map Prod.fst).Nodup) := by
  induction tokens generalizing elements with
  | nil => simp
  | cons t ts ih =>
    obtain ⟨h1, h2⟩ := ih (addCount elements t.symbol t.number)
    rw [List.foldl_cons]
    constructor
    · intro key
      rw [h1, keys_addCount]
      by_cases hm : t.symbol ∈ elements.map Prod.fst
      · rw [if_pos hm]
        constructor
        · rintro (h | ⟨t', ht', rfl⟩)
          · exact Or.inl h
          · exact Or.inr ⟨t', List.mem_cons_of_mem _ ht', rfl⟩
        · rintro (h | ⟨t', ht', rfl⟩)
          · exact Or.inl h
          · rcases List.mem_cons.1 ht' with rfl | ht'
            · exact Or.inl hm
            · exact Or.inr ⟨t', ht', rfl⟩
      · rw [if_neg hm]
        constructor
        · rintro (h | ⟨t', ht', rfl⟩)
          · rcases List.mem_append.1 h with h | h
            · exact Or.inl h
            · exact Or.inr ⟨t, List.mem_cons_self _ _, (List.mem_singleton.1 h).symm⟩
          · exact Or.inr ⟨t', List.mem_cons_of_mem _ ht', rfl⟩
        · rintro (h | ⟨t', ht', rfl⟩)
          · exact Or.inl (List.mem_append_left _ h)
          · rcases List.mem_cons.1 ht' with rfl | ht'
            · exact Or.inl (List.mem_append_right _ (List.mem_singleton.2 rfl))
            · exact Or.inr ⟨t', ht', rfl⟩
    · intro hnd
      apply h2
      rw [keys_addCount]
      split_ifs with hm
      · exact hnd
      · rw [List.nodup_append]
        refine ⟨hnd, List.nodup_singleton _, ?_⟩
        intro a ha hb
        rw [List.mem_singleton] at hb
        subst hb
        exact hm ha

/-! ## Groups that are not closed -/

theorem takeWhile_append_singleton {p : Char → Bool} (l : List Char) (a : Char) (ha : p a = false) :
    (l ++ [a]).takeWhile p = l.takeWhile p ∧ (l ++ [a]).dropWhile p = l.dropWhile p ++ [a] := by
  induction l with
  | nil => simp [List.takeWhile_cons, List.dropWhile_cons, ha]
  | cons b l ih =>
    obtain ⟨h1, h2⟩ := ih
    cases hb : p b <;> simp [List.takeWhile_cons, List.dropWhile_cons, hb, h1, h2]

/-- A group closed inside `rest` is scanned the same way whatever follows `rest`. -/
theorem scanGroup_append_closed (depth : Nat) (rest tail : List Char)
    (h : scanDepth depth rest = 0) :
    scanGroup depth (rest ++ tail) = ((scanGroup depth rest).1, (scanGroup depth rest).2 ++ tail) := by
  induction rest generalizing depth with
  | nil =>
    simp only [scanDepth] at h
    subst h
    cases tail <;> simp [scanGroup]
  | cons c rest ih =>
    cases depth with
    | zero => simp [scanGroup]
    | succ d =>
      simp only [scanDepth] at h
      rw [List.cons_append, scanGroup, scanGroup]
      simp only
      rw [ih _ h]

/-- A group still open at the end of `rest`: a `)` appended closes one level, and nothing
is left after the loop. -/
theorem scanGroup_append_open (depth : Nat) (rest : List Char) (k : Nat)
    (h : scanDepth depth rest = k + 1) :
    scanGroup depth (rest ++ [')']) =
        ((scanGroup depth rest).1 ++ (if k = 0 then [] else [')']), []) ∧
      (scanGroup depth rest).2 = [] := by
  induction rest generalizing depth with
  | nil =>
    simp only [scanDepth] at h
    subst h
    cases k <;> simp [scanGroup]
  | cons c rest ih =>
    cases depth with
    | zero => simp [scanDepth] at h
    | succ d =>
      simp only [scanDepth] at h
      obtain ⟨h1, h2⟩ := ih _ h
      rw [List.cons_append, scanGroup, scanGroup]
      simp only
      rw [h1, h2]
      constructor
      · split_ifs <;> simp
      · trivial

/-- A `)` appended to a formula does not change its parse. -/
theorem parseFrom_append_close (n : Nat) :
    ∀ (rest : List Char), rest.length ≤ n →
      ∀ (elements : ElementCount) (currentElement currentCount : List Char),
        parseFrom (rest ++ [')']) elements currentElement currentCount =
          parseFrom rest elements currentElement currentCount := by
  induction n with
  | zero =>
    intro rest h elements currentElement currentCount
    have : rest = [] := List.length_eq_zero.1 (by omega)
    subst this
    rw [List.nil_append, parseFrom_cons, parseFrom_nil]
    simp [isUpper, isDigit, parseFrom_nil]
  | succ n ih =>
    intro rest h elements currentElement currentCount
    cases rest with
    | nil =>
      rw [List.nil_append, parseFrom_cons, parseFrom_nil]
      simp [isUpper, isDigit, parseFrom_nil]
    | cons c r =>
      have hr : r.length ≤ n := by simpa using h
      have hg := scanGroup_length 1 r
      rw [List.cons_append, parseFrom_cons, parseFrom_cons]
      by_cases h1 : c = '('
      · rw [if_pos h1, if_pos h1]
        cases hdepth : scanDepth 1 r with
        | zero =>
          rw [scanGroup_append_closed 1 r [')'] hdepth]
          obtain ⟨ht, hd⟩ := takeWhile_append_singleton (p := isDigit) (scanGroup 1 r).2 ')' (by decide)
          simp only
          rw [ht, hd]
          exact ih _ (le_trans (dropWhile_length_le _ _) (by omega)) _ _ _
        | succ k =>
          obtain ⟨h2, h3⟩ := scanGroup_append_open 1 r k hdepth
          rw [h2, h3]
          simp only
          by_cases hk : k = 0
          · simp [hk]
          · rw [if_neg hk, ih _ (by omega)]
      · rw [if_neg h1, if_neg h1]
        obtain ⟨ht, hd⟩ := takeWhile_append_singleton (p := isLower) r ')' (by decide)
        rw [ht, hd]
        cases h2 : isUpper c
        · simp only [Bool.false_eq_true, if_false]
          cases h3 : isDigit c
          · simp only [Bool.false_eq_true, if_false]
            exact ih _ hr _ _ _
          · simp only [if_true]
            exact ih _ hr _ _ _
        · simp only [if_true]
          exact ih _ (le_trans (dropWhile_length_le _ _) hr) _ _ _

theorem parseFormula_append_closes (formula : List Char) (k : Nat) :
    parseFormula (formula ++ List.replicate k ')') = parseFormula formula := by
  induction k with
  | zero => simp
  | succ k ih =>
    rw [List.replicate_succ', ← List.append_assoc, parseFormula_eq_parseFrom,
      parseFrom_append_close _ _ (le_refl _), ← parseFormula_eq_parseFrom, ih]

/-! ## Entries of the matrix after a row operation -/

theorem getD_set_line (aug : Matrix) (i r : Nat) (line : List ℚ) :
    (aug.set i line).getD r [] = if r = i ∧ i < aug.length then line else aug.getD r [] := by
  rw [List.getD_eq_getElem?_getD, List.getElem?_set, List.getD_eq_getElem?_getD]
  by_cases h : i = r
  · subst h
    by_cases h2 : i < aug.length
    · simp [h2]
    · simp [h2, List.getElem?_eq_none (not_lt.1 h2)]
  · have h' : ¬ r = i := fun e => h e.symm
    simp [h, h']

theorem getD_mapIdx_matrix (f : Nat → List ℚ → List ℚ) (aug : Matrix) (r : Nat) :
    (aug.mapIdx f).getD r [] = if r < aug.length then f r (aug.getD r []) else [] := by
  rw [List.getD_eq_getElem?_getD, List.getElem?_mapIdx]
  by_cases h : r < aug.length
  · rw [List.getElem?_eq_getElem h, if_pos h, List.getD_eq_getElem _ _ h]
    rfl
  · rw [List.getElem?_eq_none (by omega), if_neg h]
    rfl

theorem entry_of_length_le (aug : Matrix) (r c : Nat) (h : aug.length ≤ r) : entry aug r c = 0 := by
  rw [entry, List.getD_eq_default _ _ h]
  rfl

theorem Shaped.getD_length {m n : Nat} {aug : Matrix} (h : Shaped m n aug) {r : Nat} (hr : r < m) :
    (aug.getD r []).length = n + 1 := by
  have hr' : r < aug.length := by rw [h.1]; exact hr
  rw [List.getD_eq_getElem _ _ hr']
  exact h.2 _ (List.getElem_mem hr')

theorem entry_swapRows {m n : Nat} {aug : Matrix} (h : Shaped m n aug) {i j : Nat} (hi : i < m)
    (hj : j < m) (r c : Nat) :
    entry (swapRows aug i j) r c = entry aug (swapIndex i j r) c := by
  have hi' : i < aug.length := by rw [h.1]; exact hi
  have hj' : j < aug.length := by rw [h.1]; exact hj
  unfold entry swapRows swapIndex
  rw [getD_set_line, getD_set_line, List.length_set]
  by_cases h1 : r = j
  · rw [if_pos ⟨h1, hj'⟩, if_pos h1]
  · rw [if_neg (fun hcon => h1 hcon.1), if_neg h1]
    by_cases h2 : r = i
    · rw [if_pos ⟨h2, hi'⟩, if_pos h2]
    · rw [if_neg (fun hcon => h2 hcon.1), if_neg h2]

theorem swapRows_shaped {m n : Nat} {aug : Matrix} (h : Shaped m n aug) {i j : Nat} (hi : i < m)
    (hj : j < m) : Shaped m n (swapRows aug i j) := by
  have hi' : i < aug.length := by rw [h.1]; exact hi
  have hj' : j < aug.length := by rw [h.1]; exact hj
  refine ⟨by simp [swapRows, h.1], ?_⟩
  intro line hl
  unfold swapRows at hl
  rcases List.mem_or_eq_of_mem_set hl with hl | rfl
  · rcases List.mem_or_eq_of_mem_set hl with hl | rfl
    · exact h.2 _ hl
    · exact h.getD_length hj
  · exact h.getD_length hi

theorem entry_scaleRow (aug : Matrix) (n col rank : Nat) (pivot : ℚ) (r c : Nat) :
    entry (scaleRow aug n col rank pivot) r c =
      if r = rank ∧ col ≤ c ∧ c ≤ n then entry aug r c / pivot else entry aug r c := by
  unfold entry scaleRow
  rw [getD_mapIdx_matrix]
  by_cases hr : r < aug.length
  · rw [if_pos hr]
    by_cases h1 : r = rank
    · rw [if_pos h1, getD_mapIdx_line]
      by_cases hc : c < (aug.getD r []).length
      · rw [if_pos hc]
        by_cases h2 : col ≤ c ∧ c ≤ n
        · rw [if_pos h2, if_pos ⟨h1, h2⟩]
        · rw [if_neg h2, if_neg (fun hcon => h2 hcon.2)]
      · rw [if_neg hc]
        have h0 : (aug.getD r []).getD c 0 = 0 := List.getD_eq_default _ _ (by omega)
        rw [h0]
        split_ifs <;> simp
    · rw [if_neg h1, if_neg (fun hcon => h1 hcon.1)]
  · rw [if_neg hr]
    have h0 : (aug.getD r []).getD c 0 = 0 := by
      rw [List.getD_eq_default aug [] (by omega)]
      rfl
    rw [h0]
    have h1 : ([] : List ℚ).getD c 0 = 0 := rfl
    rw [h1]
    split_ifs <;> simp

theorem scaleRow_shaped {m n : Nat} {aug : Matrix} (h : Shaped m n aug) (col rank : Nat)
    (pivot : ℚ) : Shaped m n (scaleRow aug n col rank pivot) := by
  refine ⟨by simp [scaleRow, h.1], ?_⟩
  intro line hl
  unfold scaleRow at hl
  obtain ⟨r, hr, rfl⟩ := List.mem_mapIdx.1 hl
  have := h.2 _ (List.getElem_mem hr)
  split_ifs <;> simp [this]

theorem entry_eliminateColumn {m n : Nat} {aug : Matrix} (h : Shaped m n aug) (col rank : Nat)
    (r c : Nat) :
    entry (eliminateColumn aug n col rank) r c =
      if r ≠ rank ∧ |entry aug r col| > threshold ∧ col ≤ c ∧ c ≤ n then
        entry aug r c - entry aug r col * entry aug rank c
      else entry aug r c := by
  unfold eliminateColumn
  rw [entry, getD_mapIdx_matrix]
  by_cases hr : r < aug.length
  · rw [if_pos hr]
    have hlen : (aug.getD r []).length = n + 1 := h.getD_length (by rw [← h.1]; exact hr)
    by_cases h1 : r ≠ rank ∧ |(aug.getD r []).getD col 0| > threshold
    · rw [if_pos h1, getD_mapIdx_line, hlen]
      by_cases hc : c < n + 1
      · rw [if_pos hc]
        by_cases h2 : col ≤ c ∧ c ≤ n
        · rw [if_pos h2, if_pos ⟨h1.1, h1.2, h2⟩]
          rfl
        · rw [if_neg h2, if_neg (fun hcon => h2 hcon.2.2)]
          rfl
      · rw [if_neg hc, if_neg (fun hcon => hc (by omega))]
        exact (List.getD_eq_default _ _ (by omega)).symm
    · rw [if_neg h1]
      have : ¬ (r ≠ rank ∧ |entry aug r col| > threshold ∧ col ≤ c ∧ c ≤ n) := by
        intro hcon
        exact h1 ⟨hcon.1, hcon.2.1⟩
      rw [if_neg this]
      rfl
  · rw [if_neg hr]
    have h0 : ∀ c, entry aug r c = 0 := fun c => entry_of_length_le aug r c (by omega)
    simp [h0, threshold]

theorem eliminateColumn_shaped {m n : Nat} {aug : Matrix} (h : Shaped m n aug) (col rank : Nat) :
    Shaped m n (eliminateColumn aug n col rank) := by
  refine ⟨by simp [eliminateColumn, h.1], ?_⟩
  intro line hl
  unfold eliminateColumn at hl
  obtain ⟨r, hr, rfl⟩ := List.mem_mapIdx.1 hl
  have := h.2 _ (List.getElem_mem hr)
  split_ifs <;> simp [this]

/-! ## The pivot row -/

theorem foldl_pivot_spec (aug : Matrix) (col rank : Nat) (len start pivotRow : Nat)
    (h1 : rank ≤ pivotRow) (h2 : pivotRow < start)
    (h3 : ∀ r, rank ≤ r → r < start → |entry aug r col| ≤ |entry aug pivotRow col|) :
    rank ≤ (List.range' start len).foldl
        (fun pivotRow row =>
          if |entry aug row col| > |entry aug pivotRow col| then row else pivotRow) pivotRow ∧
      (List.range' start len).foldl
        (fun pivotRow row =>
          if |entry aug row col| > |entry aug pivotRow col| then row else pivotRow) pivotRow
        < start + len ∧
      ∀ r, rank ≤ r → r < start + len →
        |entry aug r col| ≤ |entry aug ((List.range' start len).foldl
          (fun pivotRow row =>
            if |entry aug row col| > |entry aug pivotRow col| then row else pivotRow) pivotRow) col| := by
  induction len generalizing start pivotRow with
  | zero => exact ⟨h1, by simpa using h2, by simpa using h3⟩
  | succ len ih =>
    rw [List.range'_succ, List.foldl_cons]
    have harith : start + (len + 1) = start + 1 + len := by omega
    rw [harith]
    by_cases hgt : |entry aug start col| > |entry aug pivotRow col|
    · rw [if_pos hgt]
      refine ih (start + 1) start (by omega) (by omega) ?_
      intro r hr1 hr2
      rcases Nat.lt_or_ge r start with hlt | hge
      · exact le_trans (h3 r hr1 hlt) (le_of_lt hgt)
      · have : r = start := by omega
        rw [this]
    · rw [if_neg hgt]
      refine ih (start + 1) pivotRow h1 (by omega) ?_
      intro r hr1 hr2
      rcases Nat.lt_or_ge r start with hlt | hge
      · exact h3 r hr1 hlt
      · have : r = start := by omega
        rw [this]
        exact not_lt.1 hgt

theorem findPivotRow_spec (aug : Matrix) (col rank m : Nat) (h : rank < m) :
    rank ≤ findPivotRow aug col rank m ∧ findPivotRow aug col rank m < m ∧
      ∀ r, rank ≤ r → r < m → |entry aug r col| ≤ |entry aug (findPivotRow aug col rank m) col| := by
  have := foldl_pivot_spec aug col rank (m - (rank + 1)) (rank + 1) rank (le_refl _) (by omega)
    (fun r hr1 hr2 => by
      have : r = rank := by omega
      rw [this])
  have harith : rank + 1 + (m - (rank + 1)) = m := by omega
  rw [harith] at this
  exact this

/-! ## One step of the forward elimination -/

theorem forwardStep_done (n m : Nat) (aug : Matrix) (rank col : Nat) (h : ¬ rank < m) :
    forwardStep n m (aug, rank) col = (aug, rank) := by
  simp only [forwardStep, if_neg h]

theorem forwardStep_skip (n m : Nat) (aug : Matrix) (rank col : Nat) (h : rank < m)
    (hs : |entry aug (findPivotRow aug col rank m) col| < threshold) :
    forwardStep n m (aug, rank) col = (aug, rank) := by
  simp only [forwardStep, if_pos h, if_pos hs]

theorem forwardStep_pivot (n m : Nat) (aug : Matrix) (rank col : Nat) (h : rank < m)
    (hs : ¬ |entry aug (findPivotRow aug col rank m) col| < threshold) :
    forwardStep n m (aug, rank) col =
      (eliminateColumn
        (scaleRow
          (if findPivotRow aug col rank m ≠ rank then swapRows aug rank (findPivotRow aug col rank m)
            else aug)
          n col rank
          (entry
            (if findPivotRow aug col rank m ≠ rank then
              swapRows aug rank (findPivotRow aug col rank m)
            else aug) rank col))
        n col rank, rank + 1) := by
  simp only [forwardStep, if_pos h, if_neg hs]

theorem swapIndex_lt {i j r m : Nat} (hi : i < m) (hj : j < m) (hr : r < m) : swapIndex i j r < m := by
  unfold swapIndex
  split_ifs <;> assumption

theorem swapIndex_involutive (i j r : Nat) : swapIndex i j (swapIndex i j r) = r := by
  unfold swapIndex
  split_ifs <;> omega

theorem swapIndex_of_lt {i j r : Nat} (hij : i ≤ j) (hr : r < i) : swapIndex i j r = r := by
  unfold swapIndex
  split_ifs <;> omega

theorem swapIndex_ge {i j r : Nat} (hij : i ≤ j) (hr : i ≤ r) : i ≤ swapIndex i j r := by
  unfold swapIndex
  split_ifs <;> omega

theorem swapIndex_self_left (i j : Nat) : swapIndex i j i = j := by
  unfold swapIndex
  split_ifs <;> omega

theorem threshold_pos : 0 < threshold := by
  unfold threshold
  positivity

/-- The entries of the swapped matrix, whether the swap is performed or not. -/
theorem entry_swapped {m n : Nat} {aug : Matrix} (h : Shaped m n aug) {rank pr : Nat}
    (hrank : rank < m) (hpr : pr < m) (r c : Nat) :
    entry (if pr ≠ rank then swapRows aug rank pr else aug) r c =
      entry aug (swapIndex rank pr r) c := by
  by_cases he : pr = rank
  · rw [if_neg (not_not.2 he), he]
    unfold swapIndex
    split_ifs with h1 <;> simp [*]
  · rw [if_pos he]
    exact entry_swapRows h hrank hpr r c

theorem swapped_shaped {m n : Nat} {aug : Matrix} (h : Shaped m n aug) {rank pr : Nat}
    (hrank : rank < m) (hpr : pr < m) :
    Shaped m n (if pr ≠ rank then swapRows aug rank pr else aug) := by
  split_ifs
  · exact swapRows_shaped h hrank hpr
  · exact h

/-- The matrix after the swap, the scaling and the clearing of column `k`, entry by entry:
the pivot row is the chosen row divided by the pivot, every other row is the row it was
swapped with minus its entry in column `k` times the pivot row. -/
theorem pivot_step_entries {m n : Nat} {aug : Matrix} (h : Shaped m n aug) {rank pr k : Nat}
    (hrank : rank < m) (hpr1 : rank ≤ pr) (hpr : pr < m)
    (hbelow : ∀ r, rank ≤ r → r < m → ∀ c < k, entry aug r c = 0)
    (hexact : ∀ row < m, |entry aug row k| ≤ threshold → entry aug row k = 0) :
    Shaped m n (eliminateColumn
        (scaleRow (if pr ≠ rank then swapRows aug rank pr else aug) n k rank
          (entry (if pr ≠ rank then swapRows aug rank pr else aug) rank k)) n k rank) ∧
      (∀ c ≤ n, entry (eliminateColumn
        (scaleRow (if pr ≠ rank then swapRows aug rank pr else aug) n k rank
          (entry (if pr ≠ rank then swapRows aug rank pr else aug) rank k)) n k rank) rank c =
          entry aug pr c / entry aug pr k) ∧
      ∀ r < m, r ≠ rank → ∀ c ≤ n, entry (eliminateColumn
        (scaleRow (if pr ≠ rank then swapRows aug rank pr else aug) n k rank
          (entry (if pr ≠ rank then swapRows aug rank pr else aug) rank k)) n k rank) r c =
          entry aug (swapIndex rank pr r) c -
            entry aug (swapIndex rank pr r) k * (entry aug pr c / entry aug pr k) := by
  have hE1 := entry_swapped h hrank hpr
  have hS1 := swapped_shaped h hrank hpr
  generalize (if pr ≠ rank then swapRows aug rank pr else aug) = aug1 at hE1 hS1 ⊢
  have hS2 := scaleRow_shaped hS1 k rank (entry aug1 rank k)
  have hpiv : entry aug1 rank k = entry aug pr k := by rw [hE1, swapIndex_self_left]
  have hrow : ∀ c ≤ n, entry (scaleRow aug1 n k rank (entry aug1 rank k)) rank c =
      entry aug pr c / entry aug pr k := by
    intro c hc
    rw [entry_scaleRow, hE1, swapIndex_self_left, hpiv]
    by_cases hk : k ≤ c
    · rw [if_pos ⟨rfl, hk, hc⟩]
    · rw [if_neg (fun hcon => hk hcon.2.1), hbelow pr hpr1 hpr c (by omega)]
      simp
  have hother : ∀ r, r ≠ rank → ∀ c, entry (scaleRow aug1 n k rank (entry aug1 rank k)) r c =
      entry aug (swapIndex rank pr r) c := by
    intro r hr c
    rw [entry_scaleRow, if_neg (fun hcon => hr hcon.1), hE1]
  refine ⟨eliminateColumn_shaped hS2 k rank, ?_, ?_⟩
  · intro c hc
    rw [entry_eliminateColumn hS2, if_neg (fun hcon => hcon.1 rfl)]
    exact hrow c hc
  · intro r hr hne c hc
    rw [entry_eliminateColumn hS2, hother r hne, hother r hne, hrow c hc]
    by_cases hcond : r ≠ rank ∧ |entry aug (swapIndex rank pr r) k| > threshold ∧ k ≤ c ∧ c ≤ n
    · rw [if_pos hcond]
    · rw [if_neg hcond]
      by_cases hk : k ≤ c
      · have hsmall : |entry aug (swapIndex rank pr r) k| ≤ threshold := by
          by_contra hcon
          exact hcond ⟨hne, not_le.1 hcon, hk, hc⟩
        rw [hexact _ (swapIndex_lt hrank hpr hr) hsmall]
        simp
      · rw [hbelow pr hpr1 hpr c (by omega)]
        simp

theorem rowDot_sub {aug aug' : Matrix} {n r r1 r2 : Nat} {x : Nat → ℚ} (f a : ℚ)
    (h : ∀ c < n, entry aug' r c = entry aug r1 c - f * (entry aug r2 c / a)) :
    rowDot aug' n r x = rowDot aug n r1 x - f * (rowDot aug n r2 x / a) := by
  unfold rowDot
  rw [Finset.sum_div, Finset.mul_sum, ← Finset.sum_sub_distrib]
  apply Finset.sum_congr rfl
  intro c hc
  rw [h c (Finset.mem_range.1 hc)]
  ring

theorem rowDot_div {aug aug' : Matrix} {n r r2 : Nat} {x : Nat → ℚ} (a : ℚ)
    (h : ∀ c < n, entry aug' r c = entry aug r2 c / a) :
    rowDot aug' n r x = rowDot aug n r2 x / a := by
  unfold rowDot
  rw [Finset.sum_div]
  apply Finset.sum_congr rfl
  intro c hc
  rw [h c (Finset.mem_range.1 hc)]
  ring

/-- One step of the forward elimination keeps the invariant, when the tolerance acts as an
exact test for zero on the processed column: the pivot columns of the rows below `rank` stay
and, when the step raises `rank`, the processed column is the pivot column of the new row. -/
theorem echelon_step_pivots {aug0 : Matrix} {m n k : Nat} {aug : Matrix} {rank : Nat}
    {p : Nat → Nat} (hk : k < n) (inv : Echelon aug0 m n k aug rank p)
    (hexact : rank < m → ∀ row < m, |entry aug row k| ≤ threshold → entry aug row k = 0) :
    ∃ p', Echelon aug0 m n (k + 1) (forwardStep n m (aug, rank) k).1
        (forwardStep n m (aug, rank) k).2 p' ∧
      (∀ i < rank, p' i = p i) ∧
      ((forwardStep n m (aug, rank) k).2 = rank ∨
        ((forwardStep n m (aug, rank) k).2 = rank + 1 ∧ p' rank = k)) := by
  by_cases hrank : rank < m
  swap
  · rw [forwardStep_done n m aug rank k hrank]
    refine ⟨p, ⟨inv.shaped, inv.rank_le, ?_, inv.pivot_mono, inv.pivot_one, inv.pivot_left,
      inv.pivot_col, ?_, inv.null⟩, fun _ _ => rfl, Or.inl rfl⟩
    · intro i hi
      exact Nat.lt_succ_of_lt (inv.pivot_lt i hi)
    · intro r hr1 hr2
      omega
  obtain ⟨hpr1, hpr, hmax⟩ := findPivotRow_spec aug k rank m hrank
  by_cases hs : |entry aug (findPivotRow aug k rank m) k| < threshold
  · rw [forwardStep_skip n m aug rank k hrank hs]
    refine ⟨p, ⟨inv.shaped, inv.rank_le, ?_, inv.pivot_mono, inv.pivot_one, inv.pivot_left,
      inv.pivot_col, ?_, inv.null⟩, fun _ _ => rfl, Or.inl rfl⟩
    · intro i hi
      exact Nat.lt_succ_of_lt (inv.pivot_lt i hi)
    · intro r hr1 hr2 c hc
      rcases Nat.lt_or_ge c k with hlt | hge
      · exact inv.below r hr1 hr2 c hlt
      · have hck : c = k := by omega
        rw [hck]
        exact hexact hrank r hr2 (le_trans (hmax r hr1 hr2) (le_of_lt hs))
  · rw [forwardStep_pivot n m aug rank k hrank hs]
    obtain ⟨hS, hrow, hother⟩ := pivot_step_entries inv.shaped hrank hpr1 hpr inv.below
      (hexact hrank)
    generalize findPivotRow aug k rank m = pr at hpr1 hpr hmax hs hS hrow hother
    generalize (eliminateColumn
        (scaleRow (if pr ≠ rank then swapRows aug rank pr else aug) n k rank
          (entry (if pr ≠ rank then swapRows aug rank pr else aug) rank k)) n k rank) = aug3
      at hS hrow hother
    have hpiv : entry aug pr k ≠ 0 := by
      intro h0
      rw [h0, abs_zero] at hs
      exact hs threshold_pos
    have hkn : k ≤ n := le_of_lt hk
    have hprcol : ∀ i < rank, entry aug pr (p i) = 0 := fun i hi =>
      inv.pivot_col i hi pr hpr (by omega)
    have hfix : ∀ i < rank, swapIndex rank pr i = i := fun i hi => swapIndex_of_lt hpr1 hi
    refine ⟨Function.update p rank k, ⟨hS, hrank, ?_, ?_, ?_, ?_, ?_, ?_, ?_⟩,
      fun i hi => Function.update_noteq (by omega) _ _, Or.inr ⟨rfl, Function.update_same _ _ _⟩⟩
    · intro i hi
      by_cases he : i = rank
      · rw [he, Function.update_same]
        exact Nat.lt_succ_self k
      · rw [Function.update_noteq he]
        exact Nat.lt_succ_of_lt (inv.pivot_lt i (by omega))
    · intro i j hij hj
      have hi : i ≠ rank := by omega
      rw [Function.update_noteq hi]
      by_cases he : j = rank
      · rw [he, Function.update_same]
        exact inv.pivot_lt i (by omega)
      · rw [Function.update_noteq he]
        exact inv.pivot_mono i j hij (by omega)
    · intro i hi
      by_cases he : i = rank
      · rw [he, Function.update_same, hrow k hkn]
        exact div_self hpiv
      · have hi' : i < rank := by omega
        rw [Function.update_noteq he,
          hother i (by omega) he (p i) (le_of_lt (lt_trans (inv.pivot_lt i hi') hk)),
          hfix i hi', inv.pivot_one i hi', hprcol i hi']
        simp
    · intro i hi c hc
      by_cases he : i = rank
      · rw [he, Function.update_same] at hc
        rw [he, hrow c (by omega), inv.below pr hpr1 hpr c hc]
        simp
      · have hi' : i < rank := by omega
        rw [Function.update_noteq he] at hc
        have hck : c < k := lt_trans hc (inv.pivot_lt i hi')
        rw [hother i (by omega) he c (by omega), hfix i hi', inv.pivot_left i hi' c hc,
          inv.below pr hpr1 hpr c hck]
        simp
    · intro i hi r hr hne
      by_cases he : i = rank
      · rw [he, Function.update_same]
        rw [he] at hne
        rw [hother r hr hne k hkn, div_self hpiv]
        ring
      · have hi' : i < rank := by omega
        rw [Function.update_noteq he]
        have hpn : p i ≤ n := le_of_lt (lt_trans (inv.pivot_lt i hi') hk)
        by_cases hr2 : r = rank
        · rw [hr2, hrow (p i) hpn, hprcol i hi']
          simp
        · have hsw : swapIndex rank pr r ≠ i := by
            intro hcon
            have := swapIndex_involutive rank pr r
            rw [hcon, hfix i hi'] at this
            exact hne this.symm
          rw [hother r hr hr2 (p i) hpn, hprcol i hi',
            inv.pivot_col i hi' _ (swapIndex_lt hrank hpr hr) hsw]
          simp
    · intro r hr1 hr2 c hc
      have hne : r ≠ rank := by omega
      have hge : rank ≤ swapIndex rank pr r := swapIndex_ge hpr1 (by omega)
      have hlt := swapIndex_lt hrank hpr hr2
      rcases Nat.lt_or_ge c k with hck | hck
      · rw [hother r hr2 hne c (by omega), inv.below _ hge hlt c hck,
          inv.below pr hpr1 hpr c hck]
        simp
      · have hck' : c = k := by omega
        rw [hck', hother r hr2 hne k hkn, div_self hpiv]
        ring
    · intro x
      rw [← inv.null x]
      have hdr : rowDot aug3 n rank x = rowDot aug n pr x / entry aug pr k :=
        rowDot_div _ (fun c hc => hrow c (le_of_lt hc))
      have hdo : ∀ r < m, r ≠ rank → rowDot aug3 n r x =
          rowDot aug n (swapIndex rank pr r) x -
            entry aug (swapIndex rank pr r) k * (rowDot aug n pr x / entry aug pr k) :=
        fun r hr hne => rowDot_sub _ _ (fun c hc => hother r hr hne c (le_of_lt hc))
      constructor
      · intro h3 r hr
        have hpr0 : rowDot aug n pr x = 0 := by
          have := h3 rank hrank
          rw [hdr, div_eq_zero_iff] at this
          rcases this with h | h
          · exact h
          · exact absurd h hpiv
        by_cases he : r = pr
        · rw [he]; exact hpr0
        · have hne : swapIndex rank pr r ≠ rank := by
            intro hcon
            have := swapIndex_involutive rank pr r
            rw [hcon, swapIndex_self_left] at this
            exact he this.symm
          have := h3 _ (swapIndex_lt hrank hpr hr)
          rw [hdo _ (swapIndex_lt hrank hpr hr) hne, swapIndex_involutive, hpr0] at this
          simpa using this
      · intro h r hr
        by_cases he : r = rank
        · rw [he, hdr, h pr hpr]
          simp
        · rw [hdo r hr he, h _ (swapIndex_lt hrank hpr hr), h pr hpr]
          simp

/-- One step of the forward elimination keeps the invariant, when the tolerance acts as an
exact test for zero on the processed column. -/
theorem echelon_step {aug0 : Matrix} {m n k : Nat} {aug : Matrix} {rank : Nat} {p : Nat → Nat}
    (hk : k < n) (inv : Echelon aug0 m n k aug rank p)
    (hexact : rank < m → ∀ row < m, |entry aug row k| ≤ threshold → entry aug row k = 0) :
    ∃ p', Echelon aug0 m n (k + 1) (forwardStep n m (aug, rank) k).1
      (forwardStep n m (aug, rank) k).2 p' := by
  obtain ⟨p', h, _⟩ := echelon_step_pivots hk inv hexact
  exact ⟨p', h⟩

/-! ## The whole forward elimination -/

theorem stateBefore_succ (aug : Matrix) (n m k : Nat) :
    stateBefore aug n m (k + 1) = forwardStep n m (stateBefore aug n m k) k := by
  unfold stateBefore
  rw [List.range_succ, List.foldl_append]
  rfl

theorem forwardElimination_eq_stateBefore (aug : Matrix) (n m : Nat) :
    forwardElimination aug n m = stateBefore aug n m n := rfl

/-- The invariant holds before every column, hence at the end of the elimination. -/
theorem echelon_stateBefore {aug0 : Matrix} {m n : Nat} (h0 : Shaped m n aug0)
    (hexact : ExactRun aug0 n m) :
    ∀ k ≤ n, ∃ p, Echelon aug0 m n k (stateBefore aug0 n m k).1 (stateBefore aug0 n m k).2 p := by
  intro k
  induction k with
  | zero =>
    intro _
    refine ⟨fun _ => 0, h0, Nat.zero_le _, ?_, ?_, ?_, ?_, ?_, ?_, fun x => Iff.rfl⟩
    · intro i hi; exact absurd hi (Nat.not_lt_zero _)
    · intro i j _ hj; exact absurd hj (Nat.not_lt_zero _)
    · intro i hi; exact absurd hi (Nat.not_lt_zero _)
    · intro i hi; exact absurd hi (Nat.not_lt_zero _)
    · intro i hi; exact absurd hi (Nat.not_lt_zero _)
    · intro r _ _ c hc; exact absurd hc (Nat.not_lt_zero _)
  | succ k ih =>
    intro hk
    obtain ⟨p, inv⟩ := ih (by omega)
    rw [stateBefore_succ]
    exact echelon_step (by omega) inv (hexact k (by omega))

/-! ## Free variables -/

theorem getD_set_value (l : List ℚ) (i j : Nat) (a : ℚ) :
    (l.set i a).getD j 0 = if j = i ∧ i < l.length then a else l.getD j 0 := by
  rw [List.getD_eq_getElem?_getD, List.getElem?_set, List.getD_eq_getElem?_getD]
  by_cases h : i = j
  · subst h
    by_cases h2 : i < l.length
    · rw [if_pos rfl, if_pos h2, if_pos ⟨rfl, h2⟩]
      rfl
    · rw [if_pos rfl, if_neg h2, if_neg (fun hcon => h2 hcon.2),
        List.getElem?_eq_none (not_lt.1 h2)]
  · rw [if_neg h, if_neg (fun hcon => h hcon.1.symm)]

/-- The invariant of the loop that identifies free variables, before column `k`. -/
theorem identify_invariant {aug0 : Matrix} {m n : Nat} {aug : Matrix} {rank : Nat} {p : Nat → Nat}
    (inv : Echelon aug0 m n n aug rank p) :
    ∀ k ≤ n,
      ((List.range k).foldl (identifyStep aug n rank) (0, List.replicate n 0)).2.length = n ∧
      ((List.range k).foldl (identifyStep aug n rank) (0, List.replicate n 0)).1 ≤ rank ∧
      (∀ i < ((List.range k).foldl (identifyStep aug n rank) (0, List.replicate n 0)).1, p i < k) ∧
      (((List.range k).foldl (identifyStep aug n rank) (0, List.replicate n 0)).1 < rank →
        k ≤ p ((List.range k).foldl (identifyStep aug n rank) (0, List.replicate n 0)).1) ∧
      ∀ c < k, (∀ i < rank, p i ≠ c) →
        ((List.range k).foldl (identifyStep aug n rank) (0, List.replicate n 0)).2.getD c 0 = 1 := by
  intro k
  induction k with
  | zero =>
    intro _
    refine ⟨by simp, Nat.zero_le _, ?_, fun _ => Nat.zero_le _, ?_⟩
    · intro i hi; exact absurd hi (Nat.not_lt_zero _)
    · intro c hc; exact absurd hc (Nat.not_lt_zero _)
  | succ k ih =>
    intro hk
    obtain ⟨hlen, hle, hlt, hnext, hfree⟩ := ih (by omega)
    rw [List.range_succ, List.foldl_append]
    generalize (List.range k).foldl (identifyStep aug n rank) (0, List.replicate n 0) = st
      at hlen hle hlt hnext hfree
    obtain ⟨row, sol⟩ := st
    simp only at hlen hle hlt hnext hfree
    simp only [List.foldl_cons, List.foldl_nil, identifyStep]
    by_cases htest : row < rank ∧ |entry aug row k - 1| < threshold
    · rw [if_pos htest]
      have hrow := htest.1
      have hpk : p row = k := by
        by_contra hne
        have hlt' : k < p row := lt_of_le_of_ne (hnext hrow) (Ne.symm hne)
        have h1 := htest.2
        rw [inv.pivot_left row hrow k hlt'] at h1
        have : (1 : ℚ) < threshold := by simpa using h1
        unfold threshold at this
        norm_num at this
      refine ⟨by simp [hlen], hrow, ?_, ?_, ?_⟩
      · intro i hi
        rcases Nat.lt_or_ge i row with h | h
        · exact Nat.lt_succ_of_lt (hlt i h)
        · have : i = row := by omega
          rw [this, hpk]
          exact Nat.lt_succ_self k
      · intro hr
        have := inv.pivot_mono row (row + 1) (Nat.lt_succ_self _) hr
        simp only
        omega
      · intro c hc hfc
        have hck : c ≠ k := fun hcon => hfc row hrow (by rw [hpk, hcon])
        simp only
        rw [getD_set_value, if_neg (fun hcon => hck hcon.1)]
        exact hfree c (by omega) hfc
    · rw [if_neg htest]
      refine ⟨by simp [hlen], hle, fun i hi => Nat.lt_succ_of_lt (hlt i hi), ?_, ?_⟩
      · intro hr
        simp only at hr ⊢
        have h1 := hnext hr
        rcases Nat.lt_or_ge k (p row) with h | h
        · exact h
        · have hpk : p row = k := by omega
          exfalso
          apply htest
          refine ⟨hr, ?_⟩
          rw [← hpk, inv.pivot_one row hr]
          simpa using threshold_pos
      · intro c hc hfc
        simp only
        rw [getD_set_value]
        by_cases hck : c = k
        · rw [if_pos ⟨hck, by rw [hlen]; omega⟩]
        · rw [if_neg (fun hcon => hck hcon.1)]
          exact hfree c (by omega) hfc

theorem identifyFree_free {aug0 : Matrix} {m n : Nat} {aug : Matrix} {rank : Nat} {p : Nat → Nat}
    (inv : Echelon aug0 m n n aug rank p) (c : Nat) (hc : c < n) (hfree : ∀ i < rank, p i ≠ c) :
    (identifyFree aug n rank).getD c 0 = 1 :=
  (identify_invariant inv n (le_refl _)).2.2.2.2 c hc hfree

/-! ## Back-substitution -/

theorem find?_range_eq_some (P : Nat → Bool) (n q : Nat) (hq : q < n) (hP : P q = true)
    (hbefore : ∀ c < q, P c = false) : (List.range n).find? P = some q := by
  rw [List.find?_eq_some]
  refine ⟨hP, List.range q, List.range' (q + 1) (n - (q + 1)), ?_, ?_⟩
  · have h1 : List.range n = List.range' 0 n := List.range_eq_range' n
    have h2 : List.range q = List.range' 0 q := List.range_eq_range' q
    have h3 : q :: List.range' (q + 1) (n - (q + 1)) = List.range' q (n - q) := by
      have : n - q = (n - (q + 1)) + 1 := by omega
      rw [this, List.range'_succ]
    rw [h1, h2, h3]
    have h4 := @List.range'_append 0 q (n - q) 1
    simp only [one_mul, zero_add] at h4
    rw [h4]
    congr 1
    omega
  · intro a ha
    rw [hbefore a (List.mem_range.1 ha)]
    rfl

theorem findPivotCol_eq {aug0 : Matrix} {m n k : Nat} {aug : Matrix} {rank : Nat} {p : Nat → Nat}
    (inv : Echelon aug0 m n k aug rank p) (hk : k ≤ n) (r : Nat) (hr : r < rank) :
    findPivotCol aug n r = some (p r) := by
  unfold findPivotCol
  apply find?_range_eq_some _ n (p r) (lt_of_lt_of_le (inv.pivot_lt r hr) hk)
  · rw [inv.pivot_one r hr]
    simpa using threshold_pos
  · intro c hc
    rw [inv.pivot_left r hr c hc]
    simp only [zero_sub, abs_neg, abs_one, decide_eq_false_iff_not, not_lt]
    unfold threshold
    norm_num

theorem foldl_range'_sum (f : Nat → ℚ) (len start : Nat) (a : ℚ) :
    (List.range' start len).foldl (fun sum col => sum + f col) a =
      a + Finset.sum (Finset.range len) fun j => f (start + j) := by
  induction len generalizing start a with
  | zero => simp
  | succ len ih =>
    rw [List.range'_succ, List.foldl_cons, ih, Finset.sum_range_succ']
    have : ∀ j, f (start + 1 + j) = f (start + (j + 1)) := fun j => by
      congr 1
      omega
    simp only [this, Nat.add_zero]
    ring

/-- The sum of the terms of row `r` to the right of column `q`. -/
theorem backStep_eq {aug0 : Matrix} {m n k : Nat} {aug : Matrix} {rank : Nat} {p : Nat → Nat}
    (inv : Echelon aug0 m n k aug rank p) (hk : k ≤ n) (r : Nat) (hr : r < rank)
    (solution : List ℚ) :
    backStep aug n solution r =
      solution.set (p r)
        (-Finset.sum (Finset.range (n - (p r + 1)))
          fun j => entry aug r (p r + 1 + j) * solution.getD (p r + 1 + j) 0) := by
  unfold backStep
  rw [findPivotCol_eq inv hk r hr]
  simp only
  rw [foldl_range'_sum (fun col => entry aug r col * solution.getD col 0)]
  simp

theorem backStep_inv {aug0 : Matrix} {m n k : Nat} {aug : Matrix} {rank : Nat} {p : Nat → Nat}
    (inv : Echelon aug0 m n k aug rank p) (hk : k ≤ n) (j : Nat) (hj : j < rank)
    (solution : List ℚ) (h : BackInv aug n rank p (j + 1) solution) :
    BackInv aug n rank p j (backStep aug n solution j) := by
  rw [backStep_eq inv hk j hj]
  have hpn : p j < n := lt_of_lt_of_le (inv.pivot_lt j hj) hk
  have hright : ∀ c, p j < c →
      (solution.set (p j)
        (-Finset.sum (Finset.range (n - (p j + 1)))
          fun i => entry aug j (p j + 1 + i) * solution.getD (p j + 1 + i) 0)).getD c 0 =
        solution.getD c 0 := by
    intro c hc
    rw [getD_set_value, if_neg (fun hcon => by omega)]
  refine ⟨by rw [List.length_set]; exact h.length, ?_, ?_⟩
  · intro c hc hfree
    rw [getD_set_value, if_neg (fun hcon => hfree j hj hcon.1.symm)]
    exact h.free c hc hfree
  · intro r hr1 hr2
    rcases Nat.lt_or_ge j r with hlt | hge
    · have hp : p j < p r := inv.pivot_mono j r hlt hr2
      rw [hright (p r) hp, h.solved r (by omega) hr2]
      congr 1
      apply Finset.sum_congr rfl
      intro i _
      rw [hright (p r + 1 + i) (by omega)]
    · have hrj : r = j := by omega
      rw [hrj, getD_set_value, if_pos ⟨rfl, by rw [h.length]; exact hpn⟩]
      congr 1
      apply Finset.sum_congr rfl
      intro i _
      rw [hright (p j + 1 + i) (by omega)]

theorem backSubstitute_inv {aug0 : Matrix} {m n k : Nat} {aug : Matrix} {rank : Nat}
    {p : Nat → Nat} (inv : Echelon aug0 m n k aug rank p) (hk : k ≤ n) (j : Nat) (hj : j ≤ rank)
    (solution : List ℚ) (h : BackInv aug n rank p j solution) :
    BackInv aug n rank p 0 ((List.range j).reverse.foldl (backStep aug n) solution) := by
  induction j generalizing solution with
  | zero => exact h
  | succ j ih =>
    rw [List.range_succ, List.reverse_append, List.reverse_singleton, List.singleton_append,
      List.foldl_cons]
    exact ih (by omega) _ (backStep_inv inv hk j (by omega) solution h)

/-- The raw solution: `1` in the free columns, and every equation of the reduced matrix
holds. -/
theorem backSubstitute_spec {aug0 : Matrix} {m n : Nat} {aug : Matrix} {rank : Nat}
    {p : Nat → Nat} (inv : Echelon aug0 m n n aug rank p) :
    BackInv aug n rank p 0 (backSubstitute aug n rank (identifyFree aug n rank)) := by
  unfold backSubstitute
  refine backSubstitute_inv inv (le_refl _) rank (le_refl _) _ ⟨identifyFree_length _ _ _, ?_, ?_⟩
  · intro c hc hfree
    exact identifyFree_free inv c hc hfree
  · intro r hr1 hr2
    omega

/-! ## The raw solution satisfies every equation -/

theorem rowDot_raw {aug0 : Matrix} {m n : Nat} {aug : Matrix} {rank : Nat} {p : Nat → Nat}
    (inv : Echelon aug0 m n n aug rank p) (solution : List ℚ)
    (h : BackInv aug n rank p 0 solution) (r : Nat) (hr : r < m) :
    rowDot aug n r (fun c => solution.getD c 0) = 0 := by
  unfold rowDot
  beta_reduce
  rcases Nat.lt_or_ge r rank with hlt | hge
  · have hq : p r + 1 ≤ n := inv.pivot_lt r hlt
    rw [← Finset.sum_range_add_sum_Ico _ hq, Finset.sum_range_succ, Finset.sum_Ico_eq_sum_range,
      inv.pivot_one r hlt, h.solved r (Nat.zero_le _) hlt]
    have hzero : (Finset.sum (Finset.range (p r)) fun c => entry aug r c * solution.getD c 0) = 0 := by
      apply Finset.sum_eq_zero
      intro c hc
      rw [inv.pivot_left r hlt c (Finset.mem_range.1 hc)]
      ring
    rw [hzero]
    ring
  · apply Finset.sum_eq_zero
    intro c hc
    rw [inv.below r hge hr c (Finset.mem_range.1 hc)]
    ring

/-- When a vector with positive entries satisfies every equation, some column is not a
pivot column. -/
theorem exists_free_column {aug0 : Matrix} {m n : Nat} {aug : Matrix} {rank : Nat}
    {p : Nat → Nat} (inv : Echelon aug0 m n n aug rank p) (v : Nat → ℚ) (hn : 0 < n)
    (hv : ∀ c < n, 0 < v c) (hnull : ∀ r < m, rowDot aug0 n r v = 0) :
    ∃ f < n, ∀ i < rank, p i ≠ f := by
  by_contra hcon
  have hall : ∀ f < n, ∃ i < rank, p i = f := by
    intro f hf
    by_contra hne
    apply hcon
    refine ⟨f, hf, ?_⟩
    intro i hi he
    exact hne ⟨i, hi, he⟩
  obtain ⟨i, hi, _⟩ := hall 0 hn
  have him : i < m := lt_of_lt_of_le hi inv.rank_le
  have hpn : p i < n := inv.pivot_lt i hi
  have hrow := (inv.null v).2 hnull i him
  unfold rowDot at hrow
  rw [Finset.sum_eq_single (p i), inv.pivot_one i hi, one_mul] at hrow
  · exact absurd hrow (ne_of_gt (hv (p i) hpn))
  · intro c hc hne
    obtain ⟨j, hj, hpj⟩ := hall c (Finset.mem_range.1 hc)
    have hij : i ≠ j := by
      intro he
      rw [he] at hne
      exact hne hpj.symm
    rw [← hpj, inv.pivot_col j hj i him hij]
    ring
  · intro hnot
    exact absurd (Finset.mem_range.2 hpn) hnot

/-! ## Lists and sums -/

theorem dot_eq_sum (row x : List ℚ) (N : Nat) (h : row.length ≤ N) :
    dot row x = Finset.sum (Finset.range N) fun c => row.getD c 0 * x.getD c 0 := by
  induction row generalizing x N with
  | nil =>
    have : ∀ c, ([] : List ℚ).getD c 0 = 0 := fun _ => rfl
    simp [dot, this]
  | cons a row ih =>
    cases N with
    | zero => simp at h
    | succ N =>
      cases x with
      | nil =>
        have : ∀ c, ([] : List ℚ).getD c 0 = 0 := fun _ => rfl
        simp [dot, this]
      | cons b x =>
        rw [Finset.sum_range_succ']
        have hstep : dot (a :: row) (b :: x) = a * b + dot row x := by
          simp [dot]
        rw [hstep, ih x N (by simpa using h)]
        have h0 : (a :: row).getD 0 0 = a := rfl
        have h1 : (b :: x).getD 0 0 = b := rfl
        have h2 : ∀ c, (a :: row).getD (c + 1) 0 = row.getD c 0 := fun _ => rfl
        have h3 : ∀ c, (b :: x).getD (c + 1) 0 = x.getD c 0 := fun _ => rfl
        simp only [h0, h1, h2, h3]
        ring

theorem augmented_shaped (matrix : Matrix) (n : Nat) (h : ∀ line ∈ matrix, line.length = n) :
    Shaped matrix.length n (matrix.map fun line => line ++ [0]) := by
  refine ⟨by simp, ?_⟩
  intro line hl
  obtain ⟨l, hmem, rfl⟩ := List.mem_map.1 hl
  simp [h l hmem]

theorem entry_augmented (matrix : Matrix) (n : Nat) (h : ∀ line ∈ matrix, line.length = n)
    (r c : Nat) (hr : r < matrix.length) (hc : c < n) :
    entry (matrix.map fun line => line ++ [0]) r c = (matrix[r]).getD c 0 := by
  unfold entry
  have hr' : r < (matrix.map fun line => line ++ [0]).length := by simpa using hr
  rw [List.getD_eq_getElem _ _ hr', List.getElem_map]
  have hlen : (matrix[r]).length = n := h _ (List.getElem_mem hr)
  rw [List.getD_eq_getElem?_getD, List.getD_eq_getElem?_getD,
    List.getElem?_append_left (by omega)]

theorem isNull_iff_rowDot (matrix : Matrix) (n : Nat) (h : ∀ line ∈ matrix, line.length = n)
    (x : List ℚ) :
    IsNull matrix x ↔
      ∀ r < matrix.length,
        rowDot (matrix.map fun line => line ++ [0]) n r (fun c => x.getD c 0) = 0 := by
  have key : ∀ r (hr : r < matrix.length),
      rowDot (matrix.map fun line => line ++ [0]) n r (fun c => x.getD c 0) = dot matrix[r] x := by
    intro r hr
    rw [dot_eq_sum _ _ n (le_of_eq (h _ (List.getElem_mem hr)))]
    unfold rowDot
    apply Finset.sum_congr rfl
    intro c hc
    rw [entry_augmented matrix n h r c hr (Finset.mem_range.1 hc)]
  constructor
  · intro hnull r hr
    rw [key r hr]
    exact hnull _ (List.getElem_mem hr)
  · intro hrows row hrow
    obtain ⟨r, hr, rfl⟩ := List.getElem_of_mem hrow
    rw [← key r hr]
    exact hrows r hr

/-! ## Normalisation of a positive solution -/

theorem lcm_eq (a b : ℤ) : lcm a b = (Int.lcm a b : ℤ) := by
  unfold lcm findGCD
  simp only [List.foldl_cons, List.foldl_nil]
  rw [gcd_eq, abs_of_nonneg (Int.natCast_nonneg _), Int.abs_eq_natAbs, ← Int.gcd_mul_lcm]
  by_cases hg : Int.gcd a b = 0
  · rw [hg]
    have ha : a = 0 := (Int.gcd_eq_zero_iff.1 hg).1
    have hb : b = 0 := (Int.gcd_eq_zero_iff.1 hg).2
    simp [ha, hb]
  · push_cast
    exact Int.mul_ediv_cancel_left _ (by exact_mod_cast hg)

theorem lcm_pos (a b : ℤ) (ha : 0 < a) (hb : 0 < b) : 0 < lcm a b := by
  rw [lcm_eq]
  have : 0 < Int.lcm a b := by
    unfold Int.lcm
    exact Nat.lcm_pos (Int.natAbs_pos.2 (ne_of_gt ha)) (Int.natAbs_pos.2 (ne_of_gt hb))
  exact_mod_cast this

theorem foldl_lcm_spec (others : List ℤ) (first : ℤ) (hf : 0 < first) (ho : ∀ d ∈ others, 0 < d) :
    0 < others.foldl lcm first ∧ first ∣ others.foldl lcm first ∧
      ∀ d ∈ others, d ∣ others.foldl lcm first := by
  induction others generalizing first with
  | nil => simp [hf]
  | cons y ys ih =>
    have hy := ho y (List.mem_cons_self _ _)
    obtain ⟨h1, h2, h3⟩ := ih (lcm first y) (lcm_pos first y hf hy)
      (fun d hd => ho d (List.mem_cons_of_mem _ hd))
    simp only [List.foldl_cons]
    refine ⟨h1, ?_, ?_⟩
    · exact dvd_trans (by rw [lcm_eq]; exact Int.dvd_lcm_left) h2
    · intro d hd
      rcases List.mem_cons.1 hd with rfl | hd
      · exact dvd_trans (by rw [lcm_eq]; exact Int.dvd_lcm_right) h2
      · exact h3 d hd

theorem findLCM_spec (numbers : List ℤ) (hne : numbers ≠ []) (hpos : ∀ d ∈ numbers, 0 < d) :
    0 < findLCM numbers ∧ ∀ d ∈ numbers, d ∣ findLCM numbers := by
  cases numbers with
  | nil => exact absurd rfl hne
  | cons first others =>
    obtain ⟨h1, h2, h3⟩ := foldl_lcm_spec others first (hpos first (List.mem_cons_self _ _))
      (fun d hd => hpos d (List.mem_cons_of_mem _ hd))
    have hval : findLCM (first :: others) = others.foldl lcm first := by
      rw [findLCM, abs_of_pos h1]
    rw [hval]
    refine ⟨h1, ?_⟩
    intro d hd
    rcases List.mem_cons.1 hd with rfl | hd
    · exact h2
    · exact h3 d hd

/-- Scaling by a multiple of the denominator gives an integer, which rounding keeps. -/
theorem jsRound_mul (x : ℚ) (L : ℤ) (h : (x.den : ℤ) ∣ L) : ((jsRound (x * L) : ℤ) : ℚ) = x * L := by
  obtain ⟨k, rfl⟩ := h
  have hden : (x.den : ℚ) ≠ 0 := by exact_mod_cast x.den_nz
  have hx : x * ((x.den : ℤ) * k : ℤ) = ((x.num * k : ℤ) : ℚ) := by
    push_cast
    rw [← mul_assoc, Rat.mul_den_eq_num]
  rw [hx, jsRound_intCast]

theorem ensurePositive_of_pos (intSolution : List ℤ) (h : ∀ x ∈ intSolution, 1 ≤ x) :
    ensurePositive intSolution = intSolution := by
  unfold ensurePositive
  cases hmin : intSolution.min? with
  | none => rfl
  | some minCoeff =>
    have hmem : minCoeff ∈ intSolution := List.min?_mem (fun a b => min_choice a b) hmin
    have := h minCoeff hmem
    simp only
    rw [if_neg (by omega)]

/-- A vector of positive rationals to each of which `math.fraction` gives its denominator
in lowest terms is normalised to a positive multiple of itself. -/
theorem normalize_of_pos (solution : List ℚ) (hne : solution ≠ []) (hpos : ∀ x ∈ solution, 0 < x)
    (hfrac : ∀ x ∈ solution, (fraction x).d = x.den) :
    ∃ u : ℚ, 0 < u ∧ (normalize solution).map (fun c : ℤ => (c : ℚ)) = solution.map fun x => u * x := by
  have hden : (solution.map fun val => ((fraction val).d : ℤ)) =
      solution.map fun val => (val.den : ℤ) := by
    apply List.map_congr_left
    intro x hx
    rw [hfrac x hx]
  have hfilter : ((solution.map fun val => (val.den : ℤ)).filter fun d => d ≠ 0) =
      solution.map fun val => (val.den : ℤ) := by
    rw [List.filter_eq_self]
    intro d hd
    obtain ⟨x, _, rfl⟩ := List.mem_map.1 hd
    have : (x.den : ℤ) ≠ 0 := by exact_mod_cast x.den_nz
    simp
  have hdne : (solution.map fun val => (val.den : ℤ)) ≠ [] := by
    intro hcon
    exact hne (List.map_eq_nil_iff.1 hcon)
  have hdpos : ∀ d ∈ solution.map fun val => (val.den : ℤ), 0 < d := by
    intro d hd
    obtain ⟨x, _, rfl⟩ := List.mem_map.1 hd
    exact_mod_cast x.den_pos
  obtain ⟨hL, hLdvd⟩ := findLCM_spec _ hdne hdpos
  have hlen : (solution.map fun val => (val.den : ℤ)).length > 0 := by
    rw [List.length_map]
    exact List.length_pos.2 hne
  unfold normalize
  simp only [hden, hfilter, if_pos hlen]
  generalize findLCM (solution.map fun val => (val.den : ℤ)) = L at hL hLdvd
  have hexactL : ∀ x ∈ solution, ((jsRound (x * L) : ℤ) : ℚ) = x * L := fun x hx =>
    jsRound_mul x L (hLdvd _ (List.mem_map.2 ⟨x, hx, rfl⟩))
  have hints : ∀ y ∈ solution.map fun val => jsRound (val * L), 1 ≤ y := by
    intro y hy
    obtain ⟨x, hx, rfl⟩ := List.mem_map.1 hy
    have h1 : (0 : ℚ) < ((jsRound (x * L) : ℤ) : ℚ) := by
      rw [hexactL x hx]
      exact mul_pos (hpos x hx) (by exact_mod_cast hL)
    have h2 : 0 < jsRound (x * L) := by exact_mod_cast h1
    omega
  rw [ensurePositive_of_pos _ hints, simplify_eq _ hints]
  have hintsne : (solution.map fun val => jsRound (val * L)) ≠ [] := by
    intro hcon
    exact hne (List.map_eq_nil_iff.1 hcon)
  have hg := findGCD_pos _ hintsne hints
  have hgdvd := findGCD_dvd (solution.map fun val => jsRound (val * L))
  generalize findGCD (solution.map fun val => jsRound (val * L)) = g at hg hgdvd
  have hgq : (0 : ℚ) < (g : ℚ) := by exact_mod_cast (show (0 : ℤ) < g by omega)
  refine ⟨(L : ℚ) / (g : ℚ), div_pos (by exact_mod_cast hL) hgq, ?_⟩
  rw [List.map_map, List.map_map]
  apply List.map_congr_left
  intro x hx
  have hdvd : g ∣ jsRound (x * L) := hgdvd _ (List.mem_map.2 ⟨x, hx, rfl⟩)
  simp only [Function.comp]
  rw [Int.cast_div hdvd (ne_of_gt hgq), hexactL x hx]
  field_simp
  ring

/-! ## The solver on a positive one-dimensional null space -/

theorem dot_map_mul (row v : List ℚ) (t : ℚ) : dot row (v.map fun y => t * y) = t * dot row v := by
  induction row generalizing v with
  | nil => simp [dot]
  | cons a row ih =>
    cases v with
    | nil => simp [dot]
    | cons b v =>
      have h1 : dot (a :: row) ((b :: v).map fun y => t * y) =
          a * (t * b) + dot row (v.map fun y => t * y) := by
        simp [dot]
      have h2 : dot (a :: row) (b :: v) = a * b + dot row v := by
        simp [dot]
      rw [h1, h2, ih]
      ring

theorem isNull_map_mul {matrix : Matrix} {v : List ℚ} (h : IsNull matrix v) (t : ℚ) :
    IsNull matrix (v.map fun y => t * y) := by
  intro row hrow
  rw [dot_map_mul, h row hrow, mul_zero]

theorem getD_map_mul (v : List ℚ) (t : ℚ) (c : Nat) :
    (v.map fun y => t * y).getD c 0 = t * v.getD c 0 := by
  have := List.getD_map v 0 (n := c) (fun y => t * y)
  rw [mul_zero] at this
  exact this

theorem getD_pos (v : List ℚ) (hv : ∀ y ∈ v, 0 < y) (c : Nat) (hc : c < v.length) :
    0 < v.getD c 0 := by
  rw [List.getD_eq_getElem _ _ hc]
  exact hv _ (List.getElem_mem hc)

/-- When the solutions of the system are the multiples of a vector `v` with positive
entries, the tolerance acts as an exact test for zero and `math.fraction` gives every entry
of the raw solution its denominator in lowest terms, the normalised solution is a positive
multiple of `v`. -/
theorem normalize_rawSolution_span (matrix : Matrix) (n : Nat) (hn : 0 < n)
    (hrect : ∀ line ∈ matrix, line.length = n) (v : List ℚ) (hvlen : v.length = n)
    (hvpos : ∀ y ∈ v, 0 < y)
    (hspan : ∀ x : List ℚ, x.length = n → (IsNull matrix x ↔ ∃ t : ℚ, x = v.map fun y => t * y))
    (hexact : ExactRun (matrix.map fun line => line ++ [0]) n matrix.length)
    (hfrac : ∀ x ∈ rawSolution (matrix.map fun line => line ++ [0]) n matrix.length,
      (fraction x).d = x.den) :
    ∃ u : ℚ, 0 < u ∧
      (normalize (rawSolution (matrix.map fun line => line ++ [0]) n matrix.length)).map
          (fun c : ℤ => (c : ℚ)) = v.map fun y => u * y := by
  have h0 := augmented_shaped matrix n hrect
  obtain ⟨p, inv⟩ := echelon_stateBefore h0 hexact n (le_refl _)
  have hb := backSubstitute_spec inv
  have hraw : rawSolution (matrix.map fun line => line ++ [0]) n matrix.length =
      backSubstitute (stateBefore (matrix.map fun line => line ++ [0]) n matrix.length n).1 n
        (stateBefore (matrix.map fun line => line ++ [0]) n matrix.length n).2
        (identifyFree (stateBefore (matrix.map fun line => line ++ [0]) n matrix.length n).1 n
          (stateBefore (matrix.map fun line => line ++ [0]) n matrix.length n).2) := rfl
  rw [← hraw] at hb
  generalize rawSolution (matrix.map fun line => line ++ [0]) n matrix.length = solution at hb hfrac
  have hnull : IsNull matrix solution := by
    rw [isNull_iff_rowDot matrix n hrect]
    exact (inv.null _).1 (fun r hr => rowDot_raw inv solution hb r hr)
  obtain ⟨t, ht⟩ := (hspan solution hb.length).1 hnull
  have hvnull : IsNull matrix v := by
    rw [hspan v hvlen]
    exact ⟨1, by simp⟩
  have hvrows := (isNull_iff_rowDot matrix n hrect v).1 hvnull
  obtain ⟨f, hf, hfree⟩ := exists_free_column inv (fun c => v.getD c 0) hn
    (fun c hc => getD_pos v hvpos c (by omega)) hvrows
  have hone := hb.free f hf hfree
  rw [ht, getD_map_mul] at hone
  have hvf : 0 < v.getD f 0 := getD_pos v hvpos f (by omega)
  have htpos : 0 < t := by
    by_contra hcon
    have : t * v.getD f 0 ≤ 0 := mul_nonpos_of_nonpos_of_nonneg (not_lt.1 hcon) (le_of_lt hvf)
    rw [hone] at this
    exact absurd this (by norm_num)
  have hsolpos : ∀ x ∈ solution, 0 < x := by
    intro x hx
    rw [ht] at hx
    obtain ⟨y, hy, rfl⟩ := List.mem_map.1 hx
    exact mul_pos htpos (hvpos y hy)
  have hsolne : solution ≠ [] := by
    intro hcon
    have := hb.length
    rw [hcon] at this
    simp at this
    omega
  obtain ⟨u, hu, hnorm⟩ := normalize_of_pos solution hsolne hsolpos hfrac
  refine ⟨u * t, mul_pos hu htpos, ?_⟩
  rw [hnorm, ht, List.map_map]
  apply List.map_congr_left
  intro y _
  simp only [Function.comp]
  ring

/-- An integer vector with entries `≥ 1` that is a rational multiple of a vector of
integers `≥ 1` without a common divisor is a positive integer multiple of it. -/
theorem multiple_of_primitive (c w : List ℤ) (q : ℚ) (hq : 0 < q)
    (hcop : ∀ d : ℕ, (∀ y ∈ c, (d : ℤ) ∣ y) → d = 1)
    (h : w.map (fun y : ℤ => (y : ℚ)) = (c.map fun y : ℤ => (y : ℚ)).map fun y => q * y) :
    ∃ k : ℕ, 1 ≤ k ∧ w = c.map fun y => (k : ℤ) * y := by
  have hden : q.den = 1 := by
    apply hcop
    intro y hy
    have hmem : q * (y : ℚ) ∈ w.map fun y : ℤ => (y : ℚ) := by
      rw [h]
      exact List.mem_map.2 ⟨(y : ℚ), List.mem_map.2 ⟨y, hy, rfl⟩, rfl⟩
    obtain ⟨z, _, hz⟩ := List.mem_map.1 hmem
    have hdq : (q.den : ℚ) ≠ 0 := by exact_mod_cast q.den_nz
    have heq : (q.den : ℤ) * z = q.num * y := by
      have h1 : (q.den : ℚ) * (z : ℚ) = (q.num : ℚ) * (y : ℚ) := by
        rw [hz, ← mul_assoc, mul_comm (q.den : ℚ) q, Rat.mul_den_eq_num]
      exact_mod_cast h1
    have hdvd : (q.den : ℤ) ∣ q.num * y := ⟨z, heq.symm⟩
    have hgcd : Int.gcd (q.den : ℤ) q.num = 1 := by
      have := q.reduced
      rw [Nat.Coprime, Nat.gcd_comm] at this
      simpa [Int.gcd] using this
    exact Int.dvd_of_dvd_mul_right_of_gcd_one hdvd hgcd
  have hnum : 0 < q.num := Rat.num_pos.2 hq
  have hqn : ((q.num.toNat : ℕ) : ℚ) = q := by
    have h1 : ((q.num.toNat : ℕ) : ℤ) = q.num := Int.toNat_of_nonneg (le_of_lt hnum)
    have h2 := Rat.num_div_den q
    rw [hden] at h2
    calc ((q.num.toNat : ℕ) : ℚ) = (((q.num.toNat : ℕ) : ℤ) : ℚ) := by push_cast; rfl
      _ = (q.num : ℚ) := by rw [h1]
      _ = q := by simpa using h2
  refine ⟨q.num.toNat, by omega, ?_⟩
  apply List.map_injective_iff.2 (Int.cast_injective (α := ℚ))
  rw [h, List.map_map, List.map_map]
  apply List.map_congr_left
  intro y _
  simp only [Function.comp]
  push_cast
  rw [hqn]

/-! ## Conservation -/

/-- With the tolerance acting as an exact test for zero, the raw solution satisfies every
row of the matrix, and it is `1` in every column that is not a pivot column. -/
theorem rawSolution_isNull (matrix : Matrix) (n : Nat) (hrect : ∀ line ∈ matrix, line.length = n)
    (hexact : ExactRun (matrix.map fun line => line ++ [0]) n matrix.length) :
    IsNull matrix (rawSolution (matrix.map fun line => line ++ [0]) n matrix.length) := by
  have h0 := augmented_shaped matrix n hrect
  obtain ⟨p, inv⟩ := echelon_stateBefore h0 hexact n (le_refl _)
  have hb := backSubstitute_spec inv
  rw [isNull_iff_rowDot matrix n hrect]
  exact (inv.null _).1 (fun r hr => rowDot_raw inv _ hb r hr)

theorem dot_append (a b x y : List ℚ) (h : a.length = x.length) :
    dot (a ++ b) (x ++ y) = dot a x + dot b y := by
  unfold dot
  rw [List.zipWith_append _ _ _ _ _ h, List.sum_append]

theorem dot_counts (molecules : List (List Char)) (element : List Char) (coefficients : List ℤ) :
    dot (molecules.map fun r => (getCount (parseFormula r) element : ℚ))
        (coefficients.map fun c : ℤ => (c : ℚ)) =
      ((sideTotal coefficients molecules element : ℤ) : ℚ) := by
  induction molecules generalizing coefficients with
  | nil => simp [dot, sideTotal]
  | cons r rest ih =>
    cases coefficients with
    | nil => simp [dot, sideTotal]
    | cons c cs =>
      have h1 : dot ((r :: rest).map fun r => (getCount (parseFormula r) element : ℚ))
          ((c :: cs).map fun c : ℤ => (c : ℚ)) =
          (getCount (parseFormula r) element : ℚ) * (c : ℚ) +
            dot (rest.map fun r => (getCount (parseFormula r) element : ℚ))
              (cs.map fun c : ℤ => (c : ℚ)) := by
        simp [dot]
      have h2 : sideTotal (c :: cs) (r :: rest) element =
          c * (getCount (parseFormula r) element : ℤ) + sideTotal cs rest element := by
        simp [sideTotal]
      rw [h1, h2, ih]
      push_cast
      ring

theorem dot_neg_counts (molecules : List (List Char)) (element : List Char)
    (coefficients : List ℤ) :
    dot (molecules.map fun r => -(getCount (parseFormula r) element : ℚ))
        (coefficients.map fun c : ℤ => (c : ℚ)) =
      -((sideTotal coefficients molecules element : ℤ) : ℚ) := by
  rw [← dot_counts]
  induction molecules generalizing coefficients with
  | nil => simp [dot]
  | cons r rest ih =>
    cases coefficients with
    | nil => simp [dot]
    | cons c cs =>
      have h1 : ∀ f : List Char → ℚ, dot ((r :: rest).map f) ((c :: cs).map fun c : ℤ => (c : ℚ)) =
          f r * (c : ℚ) + dot (rest.map f) (cs.map fun c : ℤ => (c : ℚ)) := by
        intro f
        simp [dot]
      rw [h1, h1, ih]
      ring

/-- A coefficient vector that satisfies the row of an element conserves that element. -/
theorem sideTotal_eq_of_dot (reactants products : List (List Char)) (element : List Char)
    (coefficients : List ℤ)
    (h : dot (matrixRow reactants products element) (coefficients.map fun c : ℤ => (c : ℚ)) = 0)
    (hlen : reactants.length ≤ coefficients.length) :
    sideTotal (coefficients.take reactants.length) reactants element =
      sideTotal (coefficients.drop reactants.length) products element := by
  have hsplit : coefficients.map (fun c : ℤ => (c : ℚ)) =
      (coefficients.take reactants.length).map (fun c : ℤ => (c : ℚ)) ++
        (coefficients.drop reactants.length).map (fun c : ℤ => (c : ℚ)) := by
    rw [← List.map_append, List.take_append_drop]
  rw [matrixRow_eq, hsplit, dot_append _ _ _ _ (by simp; omega), dot_counts, dot_neg_counts] at h
  have h' : ((sideTotal (coefficients.take reactants.length) reactants element : ℤ) : ℚ) =
      ((sideTotal (coefficients.drop reactants.length) products element : ℤ) : ℚ) := by
    linarith
  exact_mod_cast h'


/-! ## Invariants of the parser: distinct keys, groups, pending element -/

theorem addCount_nodup (elements : ElementCount) (el : List Char) (k : Nat)
    (h : (elements.map Prod.fst).Nodup) : ((addCount elements el k).map Prod.fst).Nodup := by
  rw [keys_addCount]
  split_ifs with hm
  · exact h
  · rw [List.nodup_append]
    refine ⟨h, List.nodup_singleton _, ?_⟩
    intro a ha hb
    rw [List.mem_singleton] at hb
    subst hb
    exact hm ha

theorem mergeScaled_nodup (sub elements : ElementCount) (multiplier : Nat)
    (h : (elements.map Prod.fst).Nodup) :
    ((mergeScaled elements sub multiplier).map Prod.fst).Nodup := by
  unfold mergeScaled
  induction sub generalizing elements with
  | nil => exact h
  | cons p ps ih =>
    rw [List.foldl_cons]
    exact ih _ (addCount_nodup _ _ _ h)

theorem flush_nodup (elements : ElementCount) (currentElement currentCount : List Char)
    (h : (elements.map Prod.fst).Nodup) :
    ((flush elements currentElement currentCount).map Prod.fst).Nodup := by
  unfold flush
  split_ifs
  · exact h
  · exact addCount_nodup _ _ _ h

theorem parseFrom_nodup_aux (n : Nat) :
    ∀ (rest : List Char), rest.length ≤ n → ∀ (elements : ElementCount)
      (currentElement currentCount : List Char), (elements.map Prod.fst).Nodup →
      ((parseFrom rest elements currentElement currentCount).map Prod.fst).Nodup := by
  induction n with
  | zero =>
    intro rest hlen elements currentElement currentCount h
    have : rest = [] := List.length_eq_zero.1 (by omega)
    subst this
    rw [parseFrom_nil]
    exact flush_nodup _ _ _ h
  | succ n ih =>
    intro rest hlen elements currentElement currentCount h
    cases rest with
    | nil =>
      rw [parseFrom_nil]
      exact flush_nodup _ _ _ h
    | cons c rest =>
      have hg := scanGroup_length 1 rest
      have hd1 := dropWhile_length_le isDigit (scanGroup 1 rest).2
      have hd2 := dropWhile_length_le isLower rest
      simp only [List.length_cons] at hlen
      rw [parseFrom_cons]
      by_cases h1 : c = '('
      · rw [if_pos h1]
        exact ih _ (by omega) _ _ _ (mergeScaled_nodup _ _ _ h)
      · rw [if_neg h1]
        by_cases h2 : isUpper c = true
        · rw [if_pos h2]
          exact ih _ (by omega) _ _ _ (flush_nodup _ _ _ h)
        · rw [if_neg h2]
          by_cases h3 : isDigit c = true
          · rw [if_pos h3]
            exact ih _ (by omega) _ _ _ h
          · rw [if_neg h3]
            exact ih _ (by omega) _ _ _ h

/-- The keys of the map returned by `parseFormula` are distinct. -/
theorem parseFormula_nodup (formula : List Char) :
    ((parseFormula formula).map Prod.fst).Nodup :=
  parseFrom_nodup_aux formula.length formula (le_refl _) [] [] [] List.nodup_nil

theorem getCount_of_not_mem (elements : ElementCount) (e : List Char)
    (h : e ∉ elements.map Prod.fst) : getCount elements e = 0 := by
  induction elements with
  | nil => rfl
  | cons p ps ih =>
    obtain ⟨key, c⟩ := p
    simp only [List.map_cons, List.mem_cons, not_or] at h
    simp only [getCount]
    rw [if_neg (fun hk => h.1 hk.symm)]
    exact ih h.2

theorem getCount_pos_mem (elements : ElementCount) (e : List Char)
    (h : e ∈ elements.map Prod.fst) : (e, getCount elements e) ∈ elements := by
  induction elements with
  | nil => simp at h
  | cons p ps ih =>
    obtain ⟨key, c⟩ := p
    simp only [getCount]
    by_cases hk : key = e
    · subst hk
      simp
    · rw [if_neg hk]
      simp only [List.map_cons, List.mem_cons] at h
      rcases h with h | h
      · exact absurd h.symm hk
      · exact List.mem_cons_of_mem _ (ih h)

theorem getCount_of_mem (elements : ElementCount) (h : (elements.map Prod.fst).Nodup)
    (e : List Char) (c : Nat) (hm : (e, c) ∈ elements) : getCount elements e = c := by
  induction elements with
  | nil => simp at hm
  | cons p ps ih =>
    obtain ⟨key, v⟩ := p
    simp only [List.map_cons, List.nodup_cons] at h
    simp only [getCount]
    rcases List.mem_cons.1 hm with heq | hm
    · simp only [Prod.mk.injEq] at heq
      rw [if_pos heq.1.symm, heq.2]
    · have hne : key ≠ e := by
        intro hk
        subst hk
        exact h.1 (List.mem_map.2 ⟨(key, c), hm, rfl⟩)
      rw [if_neg hne]
      exact ih h.2 hm

/-- The count of an element after a group is merged: the count before plus the count in
the group times the multiplier. -/
theorem getCount_mergeScaled (sub elements : ElementCount) (multiplier : Nat) (e : List Char)
    (h : (sub.map Prod.fst).Nodup) :
    getCount (mergeScaled elements sub multiplier) e =
      getCount elements e + getCount sub e * multiplier := by
  unfold mergeScaled
  induction sub generalizing elements with
  | nil => simp [getCount]
  | cons p ps ih =>
    obtain ⟨key, v⟩ := p
    simp only [List.map_cons, List.nodup_cons] at h
    rw [List.foldl_cons, ih _ h.2, getCount_addCount]
    simp only [getCount]
    by_cases hk : key = e
    · subst hk
      rw [if_pos rfl, if_pos rfl, getCount_of_not_mem ps key h.1]
      omega
    · rw [if_neg hk, if_neg hk]
      omega

/-- The inner loop of the `(` branch on a balanced group: it stops at the `)` that closes
the group, nested groups included in `subgroup`. -/
theorem scanGroup_balanced (g tail : List Char) (depth : Nat)
    (h : balancedFrom depth g = true) : scanGroup (depth + 1) (g ++ ')' :: tail) = (g, tail) := by
  induction g generalizing depth with
  | nil =>
    have hd : depth = 0 := by simpa [balancedFrom] using h
    subst hd
    cases tail <;> simp [scanGroup]
  | cons c g ih =>
    simp only [balancedFrom] at h
    rw [List.cons_append, scanGroup]
    by_cases h1 : c = '('
    · subst h1
      rw [if_pos rfl] at h
      have := ih (depth + 1) h
      simp only [if_true, show ('(' : Char) ≠ ')' by decide, if_false]
      rw [this]
      simp
    · rw [if_neg h1] at h
      by_cases h2 : c = ')'
      · subst h2
        rw [if_pos rfl] at h
        cases depth with
        | zero => simp at h
        | succ d =>
          simp only at h
          have := ih d h
          simp only [h1, if_false, if_true, Nat.add_sub_cancel]
          rw [this]
          simp
      · rw [if_neg h2] at h
        have := ih depth h
        simp only [h1, h2, if_false]
        rw [this]
        simp

/-! ## A flat formula followed by a group -/

/-- The loop over one token followed by any text that does not start with a lowercase
letter. -/
theorem parseFrom_token_then (t : Token) (ht : t.WellFormed) (rest : List Char)
    (hrest : ∀ c r, rest = c :: r → isLower c = false) (elements : ElementCount)
    (currentElement currentCount : List Char) (hc : currentElement = [] → currentCount = []) :
    parseFrom (t.text ++ rest) elements currentElement currentCount =
      parseFrom rest (flush elements currentElement currentCount) t.symbol t.digits := by
  obtain ⟨hu, hl, hd⟩ := ht
  obtain ⟨h1, _, _⟩ := isUpper_facts hu
  have hrest2 : ∀ c r, t.digits ++ rest = c :: r → isLower c = false := by
    intro c r hcr
    cases hdig : t.digits with
    | nil =>
      rw [hdig, List.nil_append] at hcr
      exact hrest c r hcr
    | cons d ds =>
      rw [hdig, List.cons_append, List.cons.injEq] at hcr
      rw [← hcr.1]
      exact (isDigit_facts (hd d (by rw [hdig]; exact List.mem_cons_self _ _))).2.1
  obtain ⟨htake, hdrop⟩ := takeWhile_append_of_all t.lowers (t.digits ++ rest) hl hrest2
  have hcount : (if currentElement.isEmpty then currentCount else []) = [] := by
    cases currentElement with
    | nil => simpa using hc rfl
    | cons a l => rfl
  rw [Token.text, List.cons_append, parseFrom_cons, if_neg h1, hu, if_pos rfl, List.append_assoc,
    htake, hdrop, hcount, parseFrom_digits _ _ hd, List.nil_append]
  rfl

/-- The loop over the tokens of a flat formula followed by any text that does not start
with a lowercase letter: the last token is left pending. -/
theorem parseFrom_pending (tokens : List Token) (h : ∀ t ∈ tokens, t.WellFormed)
    (rest : List Char) (hrest : ∀ c r, rest = c :: r → isLower c = false)
    (state : ElementCount × List Char × List Char) (hc : state.2.1 = [] → state.2.2 = []) :
    parseFrom (flatText tokens ++ rest) state.1 state.2.1 state.2.2 =
      parseFrom rest (pendingAfter tokens state).1 (pendingAfter tokens state).2.1
        (pendingAfter tokens state).2.2 := by
  induction tokens generalizing state with
  | nil => simp [flatText, pendingAfter]
  | cons t ts ih =>
    have ht := h t (List.mem_cons_self _ _)
    have hts : ∀ t ∈ ts, t.WellFormed := fun t' ht' => h t' (List.mem_cons_of_mem _ ht')
    have hnext : ∀ c r, flatText ts ++ rest = c :: r → isLower c = false := by
      intro c r hcr
      cases ts with
      | nil =>
        rw [flatText, List.nil_append] at hcr
        exact hrest c r hcr
      | cons t2 ts2 =>
        simp only [flatText, Token.text, List.cons_append, List.cons.injEq] at hcr
        rw [← hcr.1]
        exact (isUpper_facts (hts t2 (List.mem_cons_self _ _)).1).2.1
    rw [flatText, List.append_assoc, parseFrom_token_then t ht _ hnext _ _ _ hc, pendingAfter]
    exact ih hts (flush state.1 state.2.1 state.2.2, t.symbol, t.digits)
      (fun hsym => by simp [Token.symbol] at hsym)

theorem takeWhile_dropWhile_all {p : Char → Bool} (l : List Char) (hl : ∀ c ∈ l, p c = true) :
    l.takeWhile p = l ∧ l.dropWhile p = [] := by
  have := takeWhile_append_of_all l [] hl (fun c r hcr => by simp at hcr)
  simpa using this

/-- The `(` branch on a balanced group followed by its multiplier, at the end of the
formula. -/
theorem parseFrom_group (g k : List Char) (hg : Balanced g) (hk : ∀ c ∈ k, isDigit c = true)
    (elements : ElementCount) (currentElement currentCount : List Char) :
    parseFrom ('(' :: (g ++ ')' :: k)) elements currentElement currentCount =
      flush (mergeScaled elements (parseFormula g) (countOf k)) currentElement currentCount := by
  obtain ⟨h1, h2⟩ := takeWhile_dropWhile_all k hk
  rw [parseFrom_cons, if_pos rfl, scanGroup_balanced g k 0 hg]
  simp only
  rw [h1, h2, parseFrom_nil, parseFormula_eq_parseFrom]

theorem getCount_flush (elements : ElementCount) (currentElement currentCount e : List Char) :
    getCount (flush elements currentElement currentCount) e =
      getCount elements e +
        if currentElement.isEmpty then 0
        else if currentElement = e then countOf currentCount else 0 := by
  unfold flush
  by_cases h : currentElement.isEmpty = true
  · rw [if_pos h, if_pos h]
    rfl
  · rw [if_neg h, if_neg h, getCount_addCount]

/-- The parse of a flat formula as the recording of the element left pending. -/
theorem parseFormula_pending (tokens : List Token) (h : ∀ t ∈ tokens, t.WellFormed) :
    parseFormula (flatText tokens) =
      flush (pendingAfter tokens ([], [], [])).1 (pendingAfter tokens ([], [], [])).2.1
        (pendingAfter tokens ([], [], [])).2.2 := by
  have := parseFrom_pending tokens h [] (fun c r hcr => by simp at hcr) ([], [], [])
    (fun _ => rfl)
  rw [List.append_nil, parseFrom_nil] at this
  exact this

/-- The parse of a flat formula followed by a balanced group and its multiplier. -/
theorem parseFormula_flat_group (tokens : List Token) (h : ∀ t ∈ tokens, t.WellFormed)
    (g k : List Char) (hg : Balanced g) (hk : ∀ c ∈ k, isDigit c = true) :
    parseFormula (flatText tokens ++ '(' :: (g ++ ')' :: k)) =
      flush (mergeScaled (pendingAfter tokens ([], [], [])).1 (parseFormula g) (countOf k))
        (pendingAfter tokens ([], [], [])).2.1 (pendingAfter tokens ([], [], [])).2.2 := by
  have := parseFrom_pending tokens h ('(' :: (g ++ ')' :: k))
    (fun c r hcr => by
      simp only [List.cons.injEq] at hcr
      rw [← hcr.1]
      decide) ([], [], []) (fun _ => rfl)
  rw [parseFormula_eq_parseFrom, this, parseFrom_group g k hg hk]

theorem getCount_flat_group (tokens : List Token) (h : ∀ t ∈ tokens, t.WellFormed)
    (g k : List Char) (hg : Balanced g) (hk : ∀ c ∈ k, isDigit c = true) (e : List Char) :
    getCount (parseFormula (flatText tokens ++ '(' :: (g ++ ')' :: k))) e =
      getCount (parseFormula (flatText tokens)) e + countOf k * getCount (parseFormula g) e := by
  rw [parseFormula_flat_group tokens h g k hg hk, parseFormula_pending tokens h, getCount_flush,
    getCount_flush, getCount_mergeScaled _ _ _ _ (parseFormula_nodup g)]
  rw [Nat.mul_comm (countOf k)]
  omega

/-! ## Counts of at least one when no run of digits starts with `0` -/

theorem addCount_pos (elements : ElementCount) (el : List Char) (k : Nat)
    (h : ∀ p ∈ elements, 1 ≤ p.2) (hk : 1 ≤ k) : ∀ p ∈ addCount elements el k, 1 ≤ p.2 := by
  induction elements with
  | nil =>
    intro p hp
    simp only [addCount, List.mem_singleton] at hp
    rw [hp]
    exact hk
  | cons q qs ih =>
    obtain ⟨key, c⟩ := q
    intro p hp
    simp only [addCount] at hp
    by_cases h1 : key = el
    · rw [if_pos h1] at hp
      rcases List.mem_cons.1 hp with rfl | hp
      · simp only
        omega
      · exact h p (List.mem_cons_of_mem _ hp)
    · rw [if_neg h1] at hp
      rcases List.mem_cons.1 hp with rfl | hp
      · exact h _ (List.mem_cons_self _ _)
      · exact ih (fun p hp => h p (List.mem_cons_of_mem _ hp)) p hp

theorem mergeScaled_pos (sub elements : ElementCount) (multiplier : Nat)
    (h : ∀ p ∈ elements, 1 ≤ p.2) (hs : ∀ p ∈ sub, 1 ≤ p.2) (hm : 1 ≤ multiplier) :
    ∀ p ∈ mergeScaled elements sub multiplier, 1 ≤ p.2 := by
  unfold mergeScaled
  induction sub generalizing elements with
  | nil => exact h
  | cons q qs ih =>
    rw [List.foldl_cons]
    apply ih
    · exact addCount_pos _ _ _ h (Nat.mul_pos (hs q (List.mem_cons_self _ _)) hm)
    · exact fun p hp => hs p (List.mem_cons_of_mem _ hp)

theorem foldl_digits_ge (digits : List Char) (acc : Nat) :
    acc ≤ digits.foldl (fun acc c => 10 * acc + digitValue c) acc := by
  induction digits generalizing acc with
  | nil => exact le_refl _
  | cons d ds ih =>
    rw [List.foldl_cons]
    exact le_trans (by omega) (ih _)

/-- A run of digits that starts with a digit other than `0` has a value of at least one. -/
theorem countOf_pos (currentCount : List Char)
    (h : ∀ c r, currentCount = c :: r → 1 ≤ digitValue c) : 1 ≤ countOf currentCount := by
  cases currentCount with
  | nil => simp [countOf]
  | cons c r =>
    have h1 := h c r rfl
    have h2 := foldl_digits_ge r (10 * 0 + digitValue c)
    simp only [countOf, List.isEmpty_cons, Bool.false_eq_true, if_false, parseInt, List.foldl_cons]
    omega

theorem flush_pos (elements : ElementCount) (currentElement currentCount : List Char)
    (h : ∀ p ∈ elements, 1 ≤ p.2) (hc : ∀ c r, currentCount = c :: r → 1 ≤ digitValue c) :
    ∀ p ∈ flush elements currentElement currentCount, 1 ≤ p.2 := by
  unfold flush
  split_ifs
  · exact h
  · exact addCount_pos _ _ _ h (countOf_pos _ hc)

theorem digitValue_pos (c : Char) (hd : isDigit c = true) (h0 : c ≠ '0') : 1 ≤ digitValue c := by
  rw [isDigit_iff] at hd
  have : c.toNat ≠ 48 := by
    intro h48
    apply h0
    have h := congrArg Char.ofNat h48
    rw [Char.ofNat_toNat] at h
    exact h
  unfold digitValue
  have : '0'.toNat = 48 := rfl
  omega

theorem noLeadingZero_cons (previous : Bool) (c : Char) (rest : List Char) :
    noLeadingZero previous (c :: rest) = true ↔
      (c = '0' → previous = true) ∧ noLeadingZero (isDigit c) rest = true := by
  simp only [noLeadingZero, Bool.and_eq_true, Bool.or_eq_true, decide_eq_true_eq]
  constructor
  · rintro ⟨h1, h2⟩
    exact ⟨fun hc => h1.resolve_left (fun hn => hn hc), h2⟩
  · rintro ⟨h1, h2⟩
    refine ⟨?_, h2⟩
    by_cases hc : c = '0'
    · exact Or.inr (h1 hc)
    · exact Or.inl hc

theorem noLeadingZero_mono (previous : Bool) (l : List Char)
    (h : noLeadingZero false l = true) : noLeadingZero previous l = true := by
  cases l with
  | nil => rfl
  | cons c rest =>
    rw [noLeadingZero_cons] at h ⊢
    exact ⟨fun hc => absurd (h.1 hc) (by simp), h.2⟩

theorem noLeadingZero_dropWhile (p : Char → Bool) (hp : ∀ c, p c = true → isDigit c = false)
    (previous : Bool) (l : List Char) (h : noLeadingZero previous l = true) :
    noLeadingZero previous (l.dropWhile p) = true := by
  induction l generalizing previous with
  | nil => rfl
  | cons c rest ih =>
    rw [List.dropWhile_cons]
    by_cases hc : p c = true
    · rw [if_pos hc]
      rw [noLeadingZero_cons, hp c hc] at h
      exact noLeadingZero_mono _ _ (ih false h.2)
    · rw [if_neg hc]
      exact h

theorem noLeadingZero_dropWhile_digits (previous : Bool) (l : List Char)
    (h : noLeadingZero previous l = true) : noLeadingZero false (l.dropWhile isDigit) = true := by
  induction l generalizing previous with
  | nil => rfl
  | cons c rest ih =>
    rw [List.dropWhile_cons]
    rw [noLeadingZero_cons] at h
    by_cases hc : isDigit c = true
    · rw [if_pos hc]
      exact ih _ h.2
    · rw [if_neg hc, noLeadingZero_cons]
      refine ⟨fun h0 => ?_, h.2⟩
      subst h0
      exact absurd (by decide) hc

theorem takeWhile_digits_head (l : List Char) (h : noLeadingZero false l = true) :
    ∀ c r, l.takeWhile isDigit = c :: r → 1 ≤ digitValue c := by
  intro c r hcr
  cases l with
  | nil => simp at hcr
  | cons a rest =>
    rw [noLeadingZero_cons] at h
    rw [List.takeWhile_cons] at hcr
    by_cases ha : isDigit a = true
    · rw [if_pos ha, List.cons.injEq] at hcr
      rw [← hcr.1]
      exact digitValue_pos a ha (fun h0 => absurd (h.1 h0) (by simp))
    · rw [if_neg ha] at hcr
      simp at hcr

/-- The group collected by the inner loop of the `(` branch and the text after it keep
the property that no run of digits starts with `0`. -/
theorem noLeadingZero_scanGroup (rest : List Char) (depth : Nat) (previous : Bool)
    (h : noLeadingZero previous rest = true) :
    noLeadingZero previous (scanGroup depth rest).1 = true ∧
      (1 ≤ depth → noLeadingZero false (scanGroup depth rest).2 = true) := by
  induction rest generalizing depth previous with
  | nil => cases depth <;> simp [scanGroup, noLeadingZero]
  | cons c rest ih =>
    cases depth with
    | zero => simp [scanGroup, noLeadingZero]
    | succ d =>
      rw [noLeadingZero_cons] at h
      simp only [scanGroup]
      generalize hdep : (if c = ')' then (if c = '(' then d + 2 else d + 1) - 1
        else if c = '(' then d + 2 else d + 1) = depth
      obtain ⟨h1, h2⟩ := ih depth (isDigit c) h.2
      by_cases hd : depth > 0
      · rw [if_pos hd, noLeadingZero_cons]
        exact ⟨⟨h.1, h1⟩, fun _ => h2 hd⟩
      · have hd0 : depth = 0 := by omega
        subst hd0
        rw [if_neg hd]
        have hsg : scanGroup 0 rest = ([], rest) := by cases rest <;> rfl
        have hc : c = ')' := by
          by_contra hne
          rw [if_neg hne] at hdep
          split_ifs at hdep
        subst hc
        rw [hsg]
        exact ⟨rfl, fun _ => h.2⟩

theorem parseFrom_pos_aux (n : Nat) :
    ∀ (rest : List Char), rest.length ≤ n → ∀ (elements : ElementCount)
      (currentElement currentCount : List Char) (previous : Bool),
      (∀ p ∈ elements, 1 ≤ p.2) → (∀ c r, currentCount = c :: r → 1 ≤ digitValue c) →
      (previous = true → currentCount ≠ []) → noLeadingZero previous rest = true →
      ∀ p ∈ parseFrom rest elements currentElement currentCount, 1 ≤ p.2 := by
  induction n with
  | zero =>
    intro rest hlen elements currentElement currentCount previous h hc _ _
    have : rest = [] := List.length_eq_zero.1 (by omega)
    subst this
    rw [parseFrom_nil]
    exact flush_pos _ _ _ h hc
  | succ n ih =>
    intro rest hlen elements currentElement currentCount previous h hc hprev hz
    cases rest with
    | nil =>
      rw [parseFrom_nil]
      exact flush_pos _ _ _ h hc
    | cons c rest =>
      have hg := scanGroup_length 1 rest
      have hd1 := dropWhile_length_le isDigit (scanGroup 1 rest).2
      have hd2 := dropWhile_length_le isLower rest
      simp only [List.length_cons] at hlen
      rw [noLeadingZero_cons] at hz
      rw [parseFrom_cons]
      by_cases h1 : c = '('
      · rw [if_pos h1]
        subst h1
        have hz2 : noLeadingZero false rest = true := hz.2
        obtain ⟨hsub, hrem⟩ := noLeadingZero_scanGroup rest 1 false hz2
        have hrem := hrem (le_refl _)
        apply ih _ (by omega) _ _ _ false _ hc (by simp)
          (noLeadingZero_dropWhile_digits _ _ hrem)
        apply mergeScaled_pos _ _ _ h
        · exact ih _ (by omega) [] [] [] false (by simp) (by simp) (by simp) hsub
        · exact countOf_pos _ (takeWhile_digits_head _ hrem)
      · rw [if_neg h1]
        by_cases h2 : isUpper c = true
        · rw [if_pos h2]
          rw [(isUpper_facts h2).2.2] at hz
          apply ih _ (by omega) _ _ _ false (flush_pos _ _ _ h hc) _ (by simp)
            (noLeadingZero_dropWhile isLower
              (fun a ha => by
                rw [isLower_iff] at ha
                rw [Bool.eq_false_iff, ne_eq, isDigit_iff]
                omega) _ _ hz.2)
          intro a r har
          by_cases he : currentElement.isEmpty = true
          · rw [if_pos he] at har
            exact hc a r har
          · rw [if_neg he] at har
            simp at har
        · rw [if_neg h2]
          by_cases h3 : isDigit c = true
          · rw [if_pos h3]
            rw [h3] at hz
            apply ih _ (by omega) _ _ _ true h _ (by simp) hz.2
            intro a r har
            cases currentCount with
            | nil =>
              simp only [List.nil_append, List.cons.injEq] at har
              rw [← har.1]
              apply digitValue_pos c h3
              intro h0
              exact hprev (hz.1 h0) rfl
            | cons b bs =>
              simp only [List.cons_append, List.cons.injEq] at har
              rw [← har.1]
              exact hc b bs rfl
          · rw [if_neg h3]
            rw [Bool.not_eq_true] at h3
            rw [h3] at hz
            exact ih _ (by omega) _ _ _ false h hc (by simp) hz.2

/-- When no run of digits of the formula starts with `0`, every entry of the map has a
count of at least one. -/
theorem parseFormula_pos (formula : List Char) (h : noLeadingZero false formula = true) :
    ∀ p ∈ parseFormula formula, 1 ≤ p.2 :=
  parseFrom_pos_aux formula.length formula (le_refl _) [] [] [] false (by simp) (by simp)
    (by simp) h

/-! ## Formulas without groups: digits between two element symbols -/

/-- Characters that are neither an uppercase letter nor `(`: the digits among them are
appended to `currentCount`, the others are skipped. -/
theorem parseFrom_skip (tail rest : List Char) (ht : ∀ c ∈ tail, isUpper c = false ∧ c ≠ '(')
    (elements : ElementCount) (currentElement currentCount : List Char) :
    parseFrom (tail ++ rest) elements currentElement currentCount =
      parseFrom rest elements currentElement (currentCount ++ tail.filter isDigit) := by
  induction tail generalizing currentCount with
  | nil => simp
  | cons c cs ih =>
    obtain ⟨h1, h2⟩ := ht c (List.mem_cons_self _ _)
    have hcs : ∀ c ∈ cs, isUpper c = false ∧ c ≠ '(' := fun a ha =>
      ht a (List.mem_cons_of_mem _ ha)
    rw [List.cons_append, parseFrom_cons, if_neg h2, h1, List.filter_cons]
    simp only [Bool.false_eq_true, if_false]
    by_cases h3 : isDigit c = true
    · rw [if_pos h3, if_pos h3, ih hcs, List.append_assoc]
      rfl
    · rw [if_neg h3, if_neg h3, ih hcs]

/-- The loop over one segment: the pending element is recorded, the symbol of the segment
becomes the pending element and the digits that follow it the pending count. -/
theorem parseFrom_segment (s : Segment) (hs : s.WellFormed) (rest : List Char)
    (hrest : ∀ c r, rest = c :: r → isLower c = false) (elements : ElementCount)
    (currentElement currentCount : List Char) (hc : currentElement = [] → currentCount = []) :
    parseFrom (s.text ++ rest) elements currentElement currentCount =
      parseFrom rest (flush elements currentElement currentCount) s.symbol s.digits := by
  obtain ⟨hu, hl, ht, hh⟩ := hs
  obtain ⟨h1, _, _⟩ := isUpper_facts hu
  have hrest2 : ∀ c r, s.tail ++ rest = c :: r → isLower c = false := by
    intro c r hcr
    cases htail : s.tail with
    | nil =>
      rw [htail, List.nil_append] at hcr
      exact hrest c r hcr
    | cons d ds =>
      rw [htail, List.cons_append, List.cons.injEq] at hcr
      rw [← hcr.1]
      exact hh d (by rw [htail]; exact rfl)
  obtain ⟨htake, hdrop⟩ := takeWhile_append_of_all s.lowers (s.tail ++ rest) hl hrest2
  have hcount : (if currentElement.isEmpty then currentCount else []) = [] := by
    cases currentElement with
    | nil => simpa using hc rfl
    | cons a l => rfl
  rw [Segment.text, List.cons_append, parseFrom_cons, if_neg h1, hu, if_pos rfl, List.append_assoc,
    htake, hdrop, hcount, parseFrom_skip _ _ ht, List.nil_append]
  rfl

theorem flush_segment (elements : ElementCount) (s : Segment) :
    flush elements s.symbol s.digits = addCount elements s.symbol s.number := by
  simp only [flush, Segment.symbol, List.isEmpty_cons, Bool.false_eq_true, if_false, countOf,
    Segment.number, List.isEmpty_iff]

theorem segmentsText_head_not_lower (segments : List Segment)
    (h : ∀ s ∈ segments, s.WellFormed) :
    ∀ c r, segmentsText segments = c :: r → isLower c = false := by
  intro c r hc
  cases segments with
  | nil => simp [segmentsText] at hc
  | cons s ss =>
    simp only [segmentsText, Segment.text, List.cons_append, List.cons.injEq] at hc
    rw [← hc.1]
    exact (isUpper_facts (h s (List.mem_cons_self _ _)).1).2.1

/-- The loop over the segments of a formula without groups: the segments are recorded in
order, each with the value of the digits that follow its symbol. -/
theorem parseFrom_segments (segments : List Segment) (h : ∀ s ∈ segments, s.WellFormed)
    (elements : ElementCount) (currentElement currentCount : List Char)
    (hc : currentElement = [] → currentCount = []) :
    parseFrom (segmentsText segments) elements currentElement currentCount =
      segments.foldl (fun acc s => addCount acc s.symbol s.number)
        (flush elements currentElement currentCount) := by
  induction segments generalizing elements currentElement currentCount with
  | nil => simp [segmentsText, parseFrom_nil]
  | cons s ss ih =>
    have hs := h s (List.mem_cons_self _ _)
    have hss : ∀ t ∈ ss, t.WellFormed := fun t ht => h t (List.mem_cons_of_mem _ ht)
    rw [segmentsText, parseFrom_segment s hs _ (segmentsText_head_not_lower ss hss) _ _ _ hc,
      ih hss, flush_segment, List.foldl_cons]
    intro hsym
    simp [Segment.symbol] at hsym

theorem filter_digits_eq_nil (before : List Char) (h : ∀ c ∈ before, isDigit c = false) :
    before.filter isDigit = [] := by
  rw [List.filter_eq_nil_iff]
  intro c hc
  rw [h c hc]
  simp

/-- The parse of a formula without groups in which no digit comes before the first
element symbol. -/
theorem parseFormula_segments (before : List Char)
    (hb : ∀ c ∈ before, isUpper c = false ∧ c ≠ '(' ∧ isDigit c = false)
    (segments : List Segment) (h : ∀ s ∈ segments, s.WellFormed) :
    parseFormula (before ++ segmentsText segments) =
      segments.foldl (fun acc s => addCount acc s.symbol s.number) [] := by
  rw [parseFormula_eq_parseFrom,
    parseFrom_skip before _ (fun c hc => ⟨(hb c hc).1, (hb c hc).2.1⟩),
    filter_digits_eq_nil before (fun c hc => (hb c hc).2.2), List.append_nil,
    parseFrom_segments segments h _ _ _ (fun _ => rfl)]
  rfl
/-! ## The claims on the balancer -/

/-- On `"H10000001 -> H"` the raw solution is `(1 / 10000001, 1)`, `math.fraction` gives
the first entry the denominator `10000000`, and the call returns the coefficients `[1]` and
`[10000000]`. -/
theorem balanceEquation_bounded_denominator :
    balanceEquation "H10000001 -> H".toList =
      .ok ⟨"H10000001 -> 10000000H".toList, ["H10000001".toList], ["H".toList], [1],
        [10000000]⟩ := by
  rw [balanceEquation_ok_iff]
  refine ⟨"H10000001".toList, "H".toList, [], by decide, by decide!, ?_⟩
  have hR : (splitPlus "H10000001".toList).map trim = ["H10000001".toList] := by decide
  have hP : (splitPlus "H".toList).map trim = ["H".toList] := by decide
  have hraw : rawSolution
      ((buildMatrix ["H10000001".toList] ["H".toList]).map fun line => line ++ [0])
      (["H10000001".toList].length + ["H".toList].length)
      ((buildMatrix ["H10000001".toList] ["H".toList]).map fun line => line ++ [0]).length =
        [1 / 10000001, 1] := by
    decide!
  have hco : coefficientsOf ["H10000001".toList] ["H".toList] = [1, 10000000] := by
    rw [coefficientsOf, hraw, normalize_unit]
  rw [hR, hP]
  simp only [resultOf, hco]
  decide

/-- On `"X30000000000Y + X -> X30000000002Y"` an entry below the tolerance is taken for zero
and the raw solution is `(30000000001 / 30000000000, 1, 1)`; `math.fraction` gives its first
entry the denominator `1`, and the call returns the coefficients `[1, 1]` and `[1]`. -/
theorem balanceEquation_below_tolerance :
    balanceEquation "X30000000000Y + X -> X30000000002Y".toList =
      .ok ⟨"X30000000000Y + X -> X30000000002Y".toList, ["X30000000000Y".toList, "X".toList],
        ["X30000000002Y".toList], [1, 1], [1]⟩ := by
  rw [balanceEquation_ok_iff]
  refine ⟨"X30000000000Y + X".toList, "X30000000002Y".toList, [], by decide, by decide!, ?_⟩
  have hR : (splitPlus "X30000000000Y + X".toList).map trim =
      ["X30000000000Y".toList, "X".toList] := by decide
  have hP : (splitPlus "X30000000002Y".toList).map trim = ["X30000000002Y".toList] := by decide
  have hraw : rawSolution
      ((buildMatrix ["X30000000000Y".toList, "X".toList] ["X30000000002Y".toList]).map
        fun line => line ++ [0])
      (["X30000000000Y".toList, "X".toList].length + ["X30000000002Y".toList].length)
      ((buildMatrix ["X30000000000Y".toList, "X".toList] ["X30000000002Y".toList]).map
        fun line => line ++ [0]).length = [30000000001 / 30000000000, 1, 1] := by
    decide!
  have hco : coefficientsOf ["X30000000000Y".toList, "X".toList] ["X30000000002Y".toList] =
      [1, 1, 1] := by
    rw [coefficientsOf, hraw, normalize_tenth]
  rw [hR, hP]
  simp only [resultOf, hco]
  decide

/-- The claim C1 fails on three results the code returns. On `"C + O2 + CO -> CO2"` the raw
solution has a zero entry, the same offset is added to every coefficient, and the
coefficients `[1, 2, 3]` and `[3]` hold `4` carbon atoms on the left and `3` on the right.
On `"H10000001 -> H"` the tolerance acts as an exact test for zero and the raw solution
`(1 / 10000001, 1)` is positive, but `math.fraction` gives `1 / 10000001` the denominator
`10000000`, and the coefficients `[1]` and `[10000000]` hold `10000001` hydrogen atoms on
the left and `10000000` on the right. On `"X30000000000Y + X -> X30000000002Y"` an entry
below the tolerance is taken for zero, and the coefficients `[1, 1]` and `[1]` hold
`30000000001` atoms of `X` on the left and `30000000002` on the right. -/
theorem balanceEquation_not_conserving :
    (∃ result, balanceEquation "C + O2 + CO -> CO2".toList = .ok result ∧
      result.balancedEquation = "C + 2O2 + 3CO -> 3CO2".toList ∧
      result.reactantCoefficients = [1, 2, 3] ∧ result.productCoefficients = [3] ∧
      sideTotal result.reactantCoefficients result.reactants "C".toList = 4 ∧
      sideTotal result.productCoefficients result.products "C".toList = 3) ∧
    (∃ result, balanceEquation "H10000001 -> H".toList = .ok result ∧
      result.balancedEquation = "H10000001 -> 10000000H".toList ∧
      result.reactantCoefficients = [1] ∧ result.productCoefficients = [10000000] ∧
      sideTotal result.reactantCoefficients result.reactants "H".toList = 10000001 ∧
      sideTotal result.productCoefficients result.products "H".toList = 10000000 ∧
      ExactRun ((buildMatrix result.reactants result.products).map fun line => line ++ [0])
        (result.reactants.length + result.products.length)
        (buildMatrix result.reactants result.products).length ∧
      rawSolution ((buildMatrix result.reactants result.products).map fun line => line ++ [0])
        (result.reactants.length + result.products.length)
        (buildMatrix result.reactants result.products).length = [1 / 10000001, 1] ∧
      fraction (1 / 10000001) = ⟨1, 1, 10000000⟩) ∧
    ∃ result, balanceEquation "X30000000000Y + X -> X30000000002Y".toList = .ok result ∧
      result.balancedEquation = "X30000000000Y + X -> X30000000002Y".toList ∧
      result.reactantCoefficients = [1, 1] ∧ result.productCoefficients = [1] ∧
      sideTotal result.reactantCoefficients result.reactants "X".toList = 30000000001 ∧
      sideTotal result.productCoefficients result.products "X".toList = 30000000002 :=
  ⟨⟨⟨"C + 2O2 + 3CO -> 3CO2".toList, ["C".toList, "O2".toList, "CO".toList], ["CO2".toList],
      [1, 2, 3], [3]⟩,
    by decide!, rfl, rfl, rfl, by decide, by decide⟩,
   ⟨⟨"H10000001 -> 10000000H".toList, ["H10000001".toList], ["H".toList], [1], [10000000]⟩,
    balanceEquation_bounded_denominator, rfl, rfl, rfl, by decide, by decide, by decide!,
    by decide!, fraction_unit⟩,
   ⟨⟨"X30000000000Y + X -> X30000000002Y".toList, ["X30000000000Y".toList, "X".toList],
      ["X30000000002Y".toList], [1, 1], [1]⟩,
    balanceEquation_below_tolerance, rfl, rfl, rfl, by decide, by decide⟩⟩

/-- C1 as amended: on every equation on which `balanceEquation` succeeds, when the tolerance
`1e-10` acts as an exact test for zero during the elimination, every entry of the raw
solution is strictly positive (no offset is added to the coefficients) and `math.fraction`
gives every entry of the raw solution its denominator in lowest terms, every element of the
reaction is conserved: the sum of coefficient times count over the reactants equals the
same sum over the products. -/
theorem balanceEquation_conserves (equation : List Char) (result : BalancedEquation)
    (h : balanceEquation equation = .ok result)
    (hexact : ExactRun ((buildMatrix result.reactants result.products).map fun line => line ++ [0])
      (result.reactants.length + result.products.length)
      (buildMatrix result.reactants result.products).length)
    (hraw : ∀ x ∈ rawSolution
        ((buildMatrix result.reactants result.products).map fun line => line ++ [0])
        (result.reactants.length + result.products.length)
        (buildMatrix result.reactants result.products).length, 0 < x)
    (hfrac : ∀ x ∈ rawSolution
        ((buildMatrix result.reactants result.products).map fun line => line ++ [0])
        (result.reactants.length + result.products.length)
        (buildMatrix result.reactants result.products).length, (fraction x).d = x.den) :
    ∀ element ∈ allElements (result.reactants ++ result.products),
      sideTotal result.reactantCoefficients result.reactants element =
        sideTotal result.productCoefficients result.products element := by
  obtain ⟨a, b, more, _, hm, rfl⟩ := (balanceEquation_ok_iff equation result).1 h
  generalize (splitPlus a).map trim = reactants at hm hexact hraw hfrac ⊢
  generalize (splitPlus b).map trim = products at hm hexact hraw hfrac ⊢
  have hR : (resultOf reactants products).reactants = reactants := rfl
  have hP : (resultOf reactants products).products = products := rfl
  rw [hR, hP] at hexact hraw hfrac ⊢
  intro element helement
  have hrect := buildMatrix_row_length reactants products
  have hnull := rawSolution_isNull (buildMatrix reactants products) _ hrect hexact
  have hne : rawSolution ((buildMatrix reactants products).map fun line => line ++ [0])
      (reactants.length + products.length) (buildMatrix reactants products).length ≠ [] := by
    intro hnil
    have := congrArg List.length hnil
    rw [rawSolution_length, List.length_nil] at this
    have h1 : reactants = [] := List.length_eq_zero.1 (by omega)
    have h2 : products = [] := List.length_eq_zero.1 (by omega)
    rw [h1, h2] at hm
    exact hm rfl
  obtain ⟨u, _, hnorm⟩ := normalize_of_pos _ hne hraw hfrac
  have hco : coefficientsOf reactants products =
      normalize (rawSolution ((buildMatrix reactants products).map fun line => line ++ [0])
        (reactants.length + products.length) (buildMatrix reactants products).length) := by
    rw [coefficientsOf, List.length_map]
  rw [← hco] at hnorm
  have hrow : matrixRow reactants products element ∈ buildMatrix reactants products :=
    List.mem_map.2 ⟨element, helement, rfl⟩
  have hdot : dot (matrixRow reactants products element)
      ((coefficientsOf reactants products).map fun c : ℤ => (c : ℚ)) = 0 := by
    rw [hnorm]
    exact isNull_map_mul hnull u _ hrow
  exact sideTotal_eq_of_dot reactants products element _ hdot
    (by rw [coefficientsOf_length]; omega)

theorem balanceEquation_conserves_witness :
    allElements (["H2".toList, "O2".toList] ++ ["H2O".toList]) = ["H".toList, "O".toList] ∧
      sideTotal [2, 1] ["H2".toList, "O2".toList] "H".toList =
        sideTotal [2] ["H2O".toList] "H".toList ∧
      sideTotal [2, 1] ["H2".toList, "O2".toList] "O".toList =
        sideTotal [2] ["H2O".toList] "O".toList :=
  ⟨by decide,
    balanceEquation_conserves "H2 + O2 -> H2O".toList
      ⟨"2H2 + O2 -> 2H2O".toList, ["H2".toList, "O2".toList], ["H2O".toList], [2, 1], [2]⟩
      (by decide!) (by decide!) (by decide!) (by decide!) "H".toList (by decide),
    balanceEquation_conserves "H2 + O2 -> H2O".toList
      ⟨"2H2 + O2 -> 2H2O".toList, ["H2".toList, "O2".toList], ["H2O".toList], [2, 1], [2]⟩
      (by decide!) (by decide!) (by decide!) (by decide!) "O".toList (by decide)⟩

/-- C2: for every non-empty matrix whose rows have one common length `n > 0`,
`solveLinearSystem` returns a vector of `n` integers, every entry is at least `1`, and the
only positive common divisor of the entries is `1`. -/
theorem solveLinearSystem_positive_coprime (matrix : Matrix) (n : Nat) (hne : matrix ≠ [])
    (hn : 0 < n) (hrect : ∀ line ∈ matrix, line.length = n) :
    ∃ coefficients, solveLinearSystem matrix = .ok coefficients ∧ coefficients.length = n ∧
      (∀ c ∈ coefficients, 1 ≤ c) ∧ ∀ d : ℕ, (∀ c ∈ coefficients, (d : ℤ) ∣ c) → d = 1 := by
  cases matrix with
  | nil => exact absurd rfl hne
  | cons first others =>
    have hfirst : first.length = n := hrect first (List.mem_cons_self _ _)
    have hrect' : ∀ line ∈ first :: others, line.length = first.length := by
      intro line hl
      rw [hrect line hl, hfirst]
    refine ⟨_, solveLinearSystem_eq first others hrect', ?_, normalize_pos _, ?_⟩
    · rw [normalize_length, rawSolution_length, hfirst]
    · intro d hd
      refine normalize_coprime _ ?_ d hd
      intro hnil
      have := congrArg List.length hnil
      rw [rawSolution_length, hfirst] at this
      simp at this
      omega

theorem solveLinearSystem_positive_coprime_witness :
    ∃ coefficients, solveLinearSystem [[2, 0, -2], [0, 2, -1]] = .ok coefficients ∧
      coefficients.length = 3 ∧ (∀ c ∈ coefficients, 1 ≤ c) ∧
      ∀ d : ℕ, (∀ c ∈ coefficients, (d : ℤ) ∣ c) → d = 1 :=
  solveLinearSystem_positive_coprime [[2, 0, -2], [0, 2, -1]] 3 (by simp) (by decide) (by simp)

/-- C4: on `"A -> B"`, whose two sides share no element, `balanceEquation` does not fail:
it returns the coefficients `[1]` and `[1]` and the equation `"A -> B"`. -/
theorem balanceEquation_disjoint_returns :
    balanceEquation "A -> B".toList =
      .ok ⟨"A -> B".toList, ["A".toList], ["B".toList], [1], [1]⟩ := by
  decide!

/-- The claim C5 fails on `"A -> B -> C"`, where the arrow occurs twice: the call returns
the result of `"A -> B"`. -/
theorem balanceEquation_two_arrows_returns :
    balanceEquation "A -> B -> C".toList =
      .ok ⟨"A -> B".toList, ["A".toList], ["B".toList], [1], [1]⟩ := by
  decide!

/-- C5 as amended: an equation without the arrow fails with the fixed error; in an equation
with more than one arrow the text from the second arrow on is ignored, the call gives what
it gives on the equation cut before its second arrow. -/
theorem balanceEquation_arrows (s l r rest : List Char) (hs : ¬ arrow <:+: s)
    (hl : ¬ arrow <:+: l) (hr : ¬ arrow <:+: r) :
    balanceEquation s = .error failureMessage ∧
      balanceEquation (l ++ arrow ++ r ++ arrow ++ rest) = balanceEquation (l ++ arrow ++ r) := by
  constructor
  · rw [balanceEquation_error_iff]
    intro a b more h
    rw [splitArrow_of_no_arrow s hs] at h
    simp at h
  · have h1 : splitArrow (l ++ arrow ++ r ++ arrow ++ rest) = l :: r :: splitArrow rest := by
      have : l ++ arrow ++ r ++ arrow ++ rest = l ++ '-' :: '>' :: (r ++ '-' :: '>' :: rest) := by
        simp [arrow]
      rw [this, splitArrow_append_arrow l _ hl, splitArrow_append_arrow r _ hr]
    have h2 : splitArrow (l ++ arrow ++ r) = [l, r] := by
      have : l ++ arrow ++ r = l ++ '-' :: '>' :: r := by simp [arrow]
      rw [this, splitArrow_append_arrow l _ hl, splitArrow_of_no_arrow r hr]
    unfold balanceEquation
    rw [balanceEquationBody_eq _ (trim l) (trim r) ((splitArrow rest).map trim) (by rw [h1]; rfl),
      balanceEquationBody_eq _ (trim l) (trim r) [] (by rw [h2]; rfl)]

theorem balanceEquation_arrows_witness :
    balanceEquation "A B".toList = .error failureMessage ∧
      balanceEquation ("A ".toList ++ arrow ++ " B ".toList ++ arrow ++ " C".toList) =
        balanceEquation ("A ".toList ++ arrow ++ " B ".toList) :=
  balanceEquation_arrows "A B".toList "A ".toList " B ".toList " C".toList
    (by decide) (by decide) (by decide)

/-- The claim C6 fails on `"-> H2O"`, whose reactant side is empty: the call returns, with
the empty formula as the only reactant. -/
theorem balanceEquation_empty_side_returns :
    balanceEquation "-> H2O".toList =
      .ok ⟨"2 -> H2O".toList, ["".toList], ["H2O".toList], [2], [1]⟩ := by
  decide!

/-- C6 as amended: when one of the two sides of the arrow is empty or only whitespace, that
side is the single molecule with the empty formula; the call fails exactly when no molecule
of either side has an element symbol, and otherwise returns a result. -/
theorem balanceEquation_empty_side (equation reactantsStr productsStr : List Char)
    (more : List (List Char))
    (hs : (splitArrow equation).map trim = reactantsStr :: productsStr :: more)
    (hempty : reactantsStr = [] ∨ productsStr = []) :
    (balanceEquation equation = .error failureMessage ↔
        ∀ molecule ∈ (splitPlus reactantsStr).map trim ++ (splitPlus productsStr).map trim,
          parseFormula molecule = []) ∧
      ((∃ molecule ∈ (splitPlus reactantsStr).map trim ++ (splitPlus productsStr).map trim,
          parseFormula molecule ≠ []) →
        ∃ result, balanceEquation equation = .ok result ∧
          (reactantsStr = [] → result.reactants = [[]]) ∧
          (productsStr = [] → result.products = [[]]) ∧
          (result.reactants = [[]] ∨ result.products = [[]])) := by
  constructor
  · rw [balanceEquation_error_iff, ← buildMatrix_eq_nil]
    constructor
    · intro h
      exact h _ _ _ hs
    · intro h a b more' hs'
      rw [hs] at hs'
      simp only [List.cons.injEq] at hs'
      rw [← hs'.1, ← hs'.2.1]
      exact h
  · rintro ⟨molecule, hmem, hne⟩
    have hm : buildMatrix ((splitPlus reactantsStr).map trim) ((splitPlus productsStr).map trim)
        ≠ [] := by
      rw [ne_eq, buildMatrix_eq_nil]
      intro h
      exact hne (h molecule hmem)
    refine ⟨_, (balanceEquation_ok_iff equation _).2 ⟨_, _, _, hs, hm, rfl⟩, ?_, ?_, ?_⟩
    · rintro rfl; rfl
    · rintro rfl; rfl
    · rcases hempty with rfl | rfl
      · left; rfl
      · right; rfl

theorem balanceEquation_empty_side_witness :
    (balanceEquation "-> H2O".toList = .error failureMessage ↔
        ∀ molecule ∈ (splitPlus []).map trim ++ (splitPlus "H2O".toList).map trim,
          parseFormula molecule = []) ∧
      ((∃ molecule ∈ (splitPlus []).map trim ++ (splitPlus "H2O".toList).map trim,
          parseFormula molecule ≠ []) →
        ∃ result, balanceEquation "-> H2O".toList = .ok result ∧
          (([] : List Char) = [] → result.reactants = [[]]) ∧
          ("H2O".toList = [] → result.products = [[]]) ∧
          (result.reactants = [[]] ∨ result.products = [[]])) :=
  balanceEquation_empty_side "-> H2O".toList [] "H2O".toList [] (by decide) (Or.inl rfl)

/-- C8: whatever the cause of a failure inside the `try` block, `balanceEquation` fails
with the one fixed message, and a failing call returns no result object. -/
theorem balanceEquation_failure_uniform (equation : List Char) (cause : Failure)
    (h : balanceEquationBody equation = .error cause) :
    balanceEquation equation = .error failureMessage ∧
      (∀ result, balanceEquation equation ≠ .ok result) ∧
      failureMessage = "Could not balance the equation. Please check your input.".toList := by
  unfold balanceEquation
  rw [h]
  exact ⟨rfl, fun result hr => by simp at hr, rfl⟩

theorem balanceEquation_failure_uniform_witness :
    balanceEquationBody "A B".toList = .error .typeError ∧
      balanceEquation "A B".toList = .error failureMessage ∧
      (∀ result, balanceEquation "A B".toList ≠ .ok result) ∧
      failureMessage = "Could not balance the equation. Please check your input.".toList :=
  ⟨by decide!, balanceEquation_failure_uniform "A B".toList .typeError (by decide!)⟩

/-- C9: on every equation on which `balanceEquation` succeeds, `balancedEquation` is the
rendered reactants joined by `" + "`, then `" -> "`, then the rendered products joined by
`" + "`; a molecule of coefficient `1` is its formula, any other is the decimal digits of
the coefficient followed by the formula. Each side has one coefficient per molecule. -/
theorem balancedEquation_rendering (equation : List Char) (result : BalancedEquation)
    (h : balanceEquation equation = .ok result) :
    result.balancedEquation =
        specRenderSide result.reactantCoefficients result.reactants ++ " -> ".toList ++
          specRenderSide result.productCoefficients result.products ∧
      result.reactantCoefficients.length = result.reactants.length ∧
      result.productCoefficients.length = result.products.length := by
  obtain ⟨a, b, more, _, _, rfl⟩ := (balanceEquation_ok_iff equation result).1 h
  refine ⟨resultOf_balancedEquation _ _, ?_, ?_⟩
  · simp [resultOf, coefficientsOf_length]
  · simp [resultOf, coefficientsOf_length]

theorem balancedEquation_rendering_witness :
    ("2H2 + O2 -> 2H2O".toList =
        specRenderSide [2, 1] ["H2".toList, "O2".toList] ++ " -> ".toList ++
          specRenderSide [2] ["H2O".toList]) ∧
      ([2, 1] : List ℤ).length = ["H2".toList, "O2".toList].length ∧
      ([2] : List ℤ).length = ["H2O".toList].length :=
  balancedEquation_rendering "H2 + O2 -> H2O".toList
    ⟨"2H2 + O2 -> 2H2O".toList, ["H2".toList, "O2".toList], ["H2O".toList], [2, 1], [2]⟩
    (by decide!)

/-! ## The claims on the parser -/

/-- The claim C7 fails on `"Ca(OH"`, whose group is not closed: the loop of `parseFormula`
ends and returns the map `{O: 1, H: 1, Ca: 1}`. -/
theorem parseFormula_unterminated_returns :
    parseLoop "Ca(OH".toList.length "Ca(OH".toList [] [] [] =
        some [("O".toList, 1), ("H".toList, 1), ("Ca".toList, 1)] ∧
      parseFormula "Ca(OH".toList = [("O".toList, 1), ("H".toList, 1), ("Ca".toList, 1)] := by
  decide

/-- C7 as amended: `parseFormula` returns a count map for every formula string, whether its
parentheses are matched or not; a group that is not closed runs to the end of the string,
so closing parentheses appended to the formula do not change the map. -/
theorem parseFormula_total (formula : List Char) :
    (∃ elements, parseLoop formula.length formula [] [] [] = some elements ∧
        parseFormula formula = elements) ∧
      ∀ k, parseFormula (formula ++ List.replicate k ')') = parseFormula formula := by
  refine ⟨?_, parseFormula_append_closes formula⟩
  obtain ⟨elements, h⟩ := Option.isSome_iff_exists.1 (parseLoop_isSome formula [] [] [])
  exact ⟨elements, h, by rw [parseFormula, h]; rfl⟩

/-- C10: for a formula that is a concatenation of tokens, each an element symbol followed
by an optional run of digits, `parseFormula` maps every symbol to the sum of the numbers of
the tokens with that symbol; its keys are the symbols of the tokens, each once. -/
theorem parseFormula_flat (tokens : List Token) (h : ∀ t ∈ tokens, t.WellFormed) :
    (∀ element, getCount (parseFormula (flatText tokens)) element = tokenTotal tokens element) ∧
      (∀ key, key ∈ (parseFormula (flatText tokens)).map Prod.fst ↔ ∃ t ∈ tokens, t.symbol = key) ∧
      ((parseFormula (flatText tokens)).map Prod.fst).Nodup := by
  rw [parseFormula_flatText tokens h]
  obtain ⟨h1, h2⟩ := keys_foldl_tokens tokens []
  refine ⟨?_, ?_, h2 List.nodup_nil⟩
  · intro element
    rw [getCount_foldl_tokens]
    simp [getCount]
  · intro key
    rw [h1]
    simp

theorem parseFormula_flat_witness :
    flatText [⟨'C', [], []⟩, ⟨'H', [], ['3']⟩, ⟨'C', [], []⟩, ⟨'O', [], []⟩, ⟨'O', [], []⟩,
        ⟨'H', [], []⟩] = "CH3COOH".toList ∧
      parseFormula "CH3COOH".toList = [("C".toList, 2), ("H".toList, 4), ("O".toList, 2)] ∧
      parseFormula "H2O".toList = [("H".toList, 2), ("O".toList, 1)] ∧
      ((∀ element,
          getCount (parseFormula (flatText [⟨'C', [], []⟩, ⟨'H', [], ['3']⟩, ⟨'C', [], []⟩,
            ⟨'O', [], []⟩, ⟨'O', [], []⟩, ⟨'H', [], []⟩])) element =
            tokenTotal [⟨'C', [], []⟩, ⟨'H', [], ['3']⟩, ⟨'C', [], []⟩, ⟨'O', [], []⟩,
              ⟨'O', [], []⟩, ⟨'H', [], []⟩] element) ∧
        (∀ key,
          key ∈ (parseFormula (flatText [⟨'C', [], []⟩, ⟨'H', [], ['3']⟩, ⟨'C', [], []⟩,
            ⟨'O', [], []⟩, ⟨'O', [], []⟩, ⟨'H', [], []⟩])).map Prod.fst ↔
            ∃ t ∈ [⟨'C', [], []⟩, ⟨'H', [], ['3']⟩, ⟨'C', [], []⟩, ⟨'O', [], []⟩, ⟨'O', [], []⟩,
              (⟨'H', [], []⟩ : Token)], t.symbol = key) ∧
        ((parseFormula (flatText [⟨'C', [], []⟩, ⟨'H', [], ['3']⟩, ⟨'C', [], []⟩, ⟨'O', [], []⟩,
          ⟨'O', [], []⟩, ⟨'H', [], []⟩])).map Prod.fst).Nodup) :=
  ⟨by decide, by decide, by decide,
    parseFormula_flat
      [⟨'C', [], []⟩, ⟨'H', [], ['3']⟩, ⟨'C', [], []⟩, ⟨'O', [], []⟩, ⟨'O', [], []⟩, ⟨'H', [], []⟩]
      (by
        intro t ht
        simp only [List.mem_cons, List.mem_singleton, List.not_mem_nil, or_false] at ht
        rcases ht with rfl | rfl | rfl | rfl | rfl | rfl <;>
          exact ⟨by decide, by decide, by decide⟩)⟩

/-! ## The claim on the smallest solution -/

theorem water_span (x : List ℚ) (hx : x.length = 3) :
    IsNull (buildMatrix ["H2".toList, "O2".toList] ["H2O".toList]) x ↔
      ∃ t : ℚ, x = [2, 1, 2].map fun y => t * y := by
  have hA : buildMatrix ["H2".toList, "O2".toList] ["H2O".toList] = [[2, 0, -2], [0, 2, -1]] := by
    decide!
  obtain ⟨a, b, c, rfl⟩ := List.length_eq_three.1 hx
  rw [hA]
  simp only [IsNull, List.mem_cons, List.mem_singleton, List.not_mem_nil, or_false, forall_eq_or_imp,
    forall_eq, dot, List.zipWith_cons_cons, List.zipWith_nil_right, List.sum_cons, List.sum_nil,
    List.map_cons, List.map_nil, List.cons.injEq, and_true]
  constructor
  · rintro ⟨h1, h2⟩
    exact ⟨b, by linarith, by linarith, by linarith⟩
  · rintro ⟨t, h1, h2, h3⟩
    subst h1 h2 h3
    constructor <;> ring

theorem unit_span (x : List ℚ) (hx : x.length = 2) :
    IsNull (buildMatrix ["H10000001".toList] ["H".toList]) x ↔
      ∃ t : ℚ, x = [1, 10000001].map fun y => t * y := by
  have hA : buildMatrix ["H10000001".toList] ["H".toList] = [[10000001, -1]] := by
    decide!
  obtain ⟨a, b, rfl⟩ := List.length_eq_two.1 hx
  rw [hA]
  simp only [IsNull, List.mem_singleton, forall_eq, dot, List.zipWith_cons_cons,
    List.zipWith_nil_right, List.sum_cons, List.sum_nil, List.map_cons, List.map_nil,
    List.cons.injEq, and_true]
  constructor
  · intro h1
    exact ⟨a, by linarith, by linarith⟩
  · rintro ⟨t, h1, h2⟩
    subst h1 h2
    ring

/-- The claim C3 fails on `"H10000001 -> H"`: the solutions of the conservation system are
the multiples of `(1, 10000001)`, whose entries are positive, the tolerance acts as an exact
test for zero, and the call returns the coefficients `[1]` and `[10000000]`, which are not
a solution, instead of the smallest solution `[1]` and `[10000001]`: `math.fraction` gives
the entry `1 / 10000001` of the raw solution the denominator `10000000`. -/
theorem balanceEquation_not_smallest :
    (∀ x : List ℚ, x.length = 2 →
      (IsNull (buildMatrix ["H10000001".toList] ["H".toList]) x ↔
        ∃ t : ℚ, x = [1, 10000001].map fun y => t * y)) ∧
      balanceEquation "H10000001 -> H".toList =
        .ok ⟨"H10000001 -> 10000000H".toList, ["H10000001".toList], ["H".toList], [1],
          [10000000]⟩ ∧
      ¬ IsNull (buildMatrix ["H10000001".toList] ["H".toList]) [1, 10000000] ∧
      ExactRun ((buildMatrix ["H10000001".toList] ["H".toList]).map fun line => line ++ [0]) 2
        (buildMatrix ["H10000001".toList] ["H".toList]).length := by
  refine ⟨unit_span, balanceEquation_bounded_denominator, ?_, by decide!⟩
  intro h
  have hA : buildMatrix ["H10000001".toList] ["H".toList] = [[10000001, -1]] := by
    decide!
  rw [hA] at h
  have := h [10000001, -1] (by simp)
  norm_num [dot] at this

/-- C3 as amended: when the solutions of the conservation system of the equation are the
multiples of one vector `v` with strictly positive entries, the tolerance `1e-10` acts as an
exact test for zero during the elimination, and `math.fraction` gives every entry of the raw
solution its denominator in lowest terms, `balanceEquation` returns the smallest positive
integer solution: its coefficients satisfy every conservation row, are all `≥ 1`, have no
common divisor, and every integer solution with entries `≥ 1` is a positive integer multiple
of them. -/
theorem balanceEquation_smallest (equation : List Char) (result : BalancedEquation) (v : List ℚ)
    (h : balanceEquation equation = .ok result)
    (hvlen : v.length = result.reactants.length + result.products.length)
    (hvpos : ∀ y ∈ v, 0 < y)
    (hspan : ∀ x : List ℚ, x.length = v.length →
      (IsNull (buildMatrix result.reactants result.products) x ↔
        ∃ t : ℚ, x = v.map fun y => t * y))
    (hexact : ExactRun ((buildMatrix result.reactants result.products).map fun line => line ++ [0])
      v.length (buildMatrix result.reactants result.products).length)
    (hfrac : ∀ x ∈ rawSolution
        ((buildMatrix result.reactants result.products).map fun line => line ++ [0])
        v.length (buildMatrix result.reactants result.products).length,
      (fraction x).d = x.den) :
    IsNull (buildMatrix result.reactants result.products)
        ((result.reactantCoefficients ++ result.productCoefficients).map fun c : ℤ => (c : ℚ)) ∧
      (∀ c ∈ result.reactantCoefficients ++ result.productCoefficients, 1 ≤ c) ∧
      (∀ d : ℕ, (∀ c ∈ result.reactantCoefficients ++ result.productCoefficients, (d : ℤ) ∣ c) →
        d = 1) ∧
      ∀ w : List ℤ, w.length = v.length →
        IsNull (buildMatrix result.reactants result.products) (w.map fun c : ℤ => (c : ℚ)) →
        (∀ c ∈ w, 1 ≤ c) →
        ∃ k : ℕ, 1 ≤ k ∧
          w = (result.reactantCoefficients ++ result.productCoefficients).map fun c => (k : ℤ) * c := by
  obtain ⟨a, b, more, _, hm, rfl⟩ := (balanceEquation_ok_iff equation result).1 h
  generalize (splitPlus a).map trim = reactants at hm hvlen hspan hexact hfrac ⊢
  generalize (splitPlus b).map trim = products at hm hvlen hspan hexact hfrac ⊢
  have hcoef : (resultOf reactants products).reactantCoefficients ++
      (resultOf reactants products).productCoefficients = coefficientsOf reactants products := by
    simp only [resultOf, List.take_append_drop]
  have hR : (resultOf reactants products).reactants = reactants := rfl
  have hP : (resultOf reactants products).products = products := rfl
  rw [hcoef]
  rw [hR, hP] at hvlen hspan hexact hfrac ⊢
  have hrect := buildMatrix_row_length reactants products
  have hvne : v ≠ [] := by
    intro hcon
    rw [hcon, List.length_nil] at hvlen
    have h1 : reactants = [] := List.length_eq_zero.1 (by omega)
    have h2 : products = [] := List.length_eq_zero.1 (by omega)
    rw [h1, h2] at hm
    exact hm rfl
  have hn : 0 < v.length := List.length_pos.2 hvne
  obtain ⟨u, hu, hnorm⟩ := normalize_rawSolution_span (buildMatrix reactants products) v.length hn
    (fun line hl => by rw [hrect line hl, hvlen]) v rfl hvpos hspan hexact hfrac
  have hco : coefficientsOf reactants products =
      normalize (rawSolution ((buildMatrix reactants products).map fun line => line ++ [0])
        v.length (buildMatrix reactants products).length) := by
    rw [coefficientsOf, List.length_map, hvlen]
  rw [← hco] at hnorm
  have hcop : ∀ d : ℕ, (∀ c ∈ coefficientsOf reactants products, (d : ℤ) ∣ c) → d = 1 := by
    intro d hd
    rw [hco] at hd
    refine normalize_coprime _ ?_ d hd
    intro hnil
    have := congrArg List.length hnil
    rw [rawSolution_length, List.length_nil] at this
    omega
  have hvnull : IsNull (buildMatrix reactants products) v := by
    rw [hspan v rfl]
    exact ⟨1, by simp⟩
  refine ⟨?_, coefficientsOf_pos reactants products, hcop, ?_⟩
  · rw [hnorm]
    exact isNull_map_mul hvnull u
  · intro w hwlen hwnull hwpos
    obtain ⟨s, hs⟩ := (hspan _ (by simpa using hwlen)).1 hwnull
    have hspos : 0 < s := by
      cases v with
      | nil => exact absurd rfl hvne
      | cons y0 v' =>
        cases w with
        | nil => simp at hwlen
        | cons w0 w' =>
          simp only [List.map_cons, List.cons.injEq] at hs
          have hy0 : 0 < y0 := hvpos y0 (List.mem_cons_self _ _)
          have hw0 : (0 : ℚ) < (w0 : ℚ) := by
            have := hwpos w0 (List.mem_cons_self _ _)
            exact_mod_cast (show (0 : ℤ) < w0 by omega)
          rw [hs.1] at hw0
          by_contra hcon
          have : s * y0 ≤ 0 := mul_nonpos_of_nonpos_of_nonneg (not_lt.1 hcon) (le_of_lt hy0)
          exact absurd hw0 (not_lt.2 this)
    apply multiple_of_primitive (coefficientsOf reactants products) w (s / u) (div_pos hspos hu) hcop
    rw [hs, hnorm, List.map_map]
    apply List.map_congr_left
    intro y _
    simp only [Function.comp]
    field_simp
    ring

theorem balanceEquation_smallest_witness :
    balanceEquation "H2 + O2 -> H2O".toList =
        .ok ⟨"2H2 + O2 -> 2H2O".toList, ["H2".toList, "O2".toList], ["H2O".toList], [2, 1], [2]⟩ ∧
      balanceEquation "Fe + O2 -> Fe2O3".toList =
        .ok ⟨"4Fe + 3O2 -> 2Fe2O3".toList, ["Fe".toList, "O2".toList], ["Fe2O3".toList], [4, 3],
          [2]⟩ ∧
      (IsNull (buildMatrix ["H2".toList, "O2".toList] ["H2O".toList])
          (([2, 1] ++ [2] : List ℤ).map fun c : ℤ => (c : ℚ)) ∧
        (∀ c ∈ ([2, 1] ++ [2] : List ℤ), 1 ≤ c) ∧
        (∀ d : ℕ, (∀ c ∈ ([2, 1] ++ [2] : List ℤ), (d : ℤ) ∣ c) → d = 1) ∧
        ∀ w : List ℤ, w.length = 3 →
          IsNull (buildMatrix ["H2".toList, "O2".toList] ["H2O".toList])
            (w.map fun c : ℤ => (c : ℚ)) →
          (∀ c ∈ w, 1 ≤ c) →
          ∃ k : ℕ, 1 ≤ k ∧ w = ([2, 1] ++ [2] : List ℤ).map fun c => (k : ℤ) * c) :=
  ⟨by decide!, by decide!,
    balanceEquation_smallest "H2 + O2 -> H2O".toList
      ⟨"2H2 + O2 -> 2H2O".toList, ["H2".toList, "O2".toList], ["H2O".toList], [2, 1], [2]⟩
      [2, 1, 2] (by decide!) rfl
      (by
        intro y hy
        simp only [List.mem_cons, List.mem_singleton, List.not_mem_nil, or_false] at hy
        rcases hy with rfl | rfl | rfl <;> norm_num)
      water_span (by decide!) (by decide!)⟩


/-! ## Rows and columns of the matrix -/

theorem foldl_insert_spec (keys : ElementCount) (set : List (List Char)) :
    (set.Nodup →
        (keys.foldl (fun acc p => if p.1 ∈ acc then acc else acc ++ [p.1]) set).Nodup) ∧
      ∀ e, e ∈ keys.foldl (fun acc p => if p.1 ∈ acc then acc else acc ++ [p.1]) set ↔
        e ∈ set ∨ e ∈ keys.map Prod.fst := by
  induction keys generalizing set with
  | nil => simp
  | cons p ps ih =>
    rw [List.foldl_cons]
    obtain ⟨h1, h2⟩ := ih (if p.1 ∈ set then set else set ++ [p.1])
    constructor
    · intro hnd
      apply h1
      split_ifs with hm
      · exact hnd
      · rw [List.nodup_append]
        refine ⟨hnd, List.nodup_singleton _, ?_⟩
        intro a ha hb
        rw [List.mem_singleton] at hb
        subst hb
        exact hm ha
    · intro e
      rw [h2]
      by_cases hm : p.1 ∈ set
      · rw [if_pos hm]
        simp only [List.map_cons, List.mem_cons]
        constructor
        · rintro (h | h)
          · exact Or.inl h
          · exact Or.inr (Or.inr h)
        · rintro (h | h | h)
          · exact Or.inl h
          · exact Or.inl (h ▸ hm)
          · exact Or.inr h
      · rw [if_neg hm]
        simp only [List.map_cons, List.mem_cons, List.mem_append, List.mem_singleton]
        tauto

theorem foldl_allElements_spec (molecules : List (List Char)) (set : List (List Char)) :
    (set.Nodup →
        (molecules.foldl
          (fun set molecule =>
            (parseFormula molecule).foldl (fun acc p => if p.1 ∈ acc then acc else acc ++ [p.1])
              set)
          set).Nodup) ∧
      ∀ e, e ∈ molecules.foldl
          (fun set molecule =>
            (parseFormula molecule).foldl (fun acc p => if p.1 ∈ acc then acc else acc ++ [p.1])
              set)
          set ↔
        e ∈ set ∨ ∃ molecule ∈ molecules, e ∈ (parseFormula molecule).map Prod.fst := by
  induction molecules generalizing set with
  | nil => simp
  | cons mol rest ih =>
    rw [List.foldl_cons]
    obtain ⟨h1, h2⟩ := ih
      ((parseFormula mol).foldl (fun acc p => if p.1 ∈ acc then acc else acc ++ [p.1]) set)
    obtain ⟨h3, h4⟩ := foldl_insert_spec (parseFormula mol) set
    constructor
    · exact fun hnd => h1 (h3 hnd)
    · intro e
      rw [h2, h4]
      simp only [List.mem_cons, exists_eq_or_imp]
      tauto

/-- The elements of the rows: each element of some molecule once. -/
theorem allElements_spec (molecules : List (List Char)) :
    (allElements molecules).Nodup ∧
      ∀ e, e ∈ allElements molecules ↔
        ∃ molecule ∈ molecules, e ∈ (parseFormula molecule).map Prod.fst := by
  obtain ⟨h1, h2⟩ := foldl_allElements_spec molecules []
  refine ⟨h1 List.nodup_nil, ?_⟩
  intro e
  rw [allElements, h2]
  simp

theorem buildMatrix_length (reactants products : List (List Char)) :
    (buildMatrix reactants products).length = (allElements (reactants ++ products)).length := by
  simp [buildMatrix]

theorem buildMatrix_getD (reactants products : List (List Char)) (i : Nat)
    (hi : i < (allElements (reactants ++ products)).length) :
    (buildMatrix reactants products).getD i [] =
      matrixRow reactants products ((allElements (reactants ++ products)).getD i []) := by
  unfold buildMatrix
  rw [List.getD_eq_getElem _ _ (by rw [List.length_map]; exact hi), List.getD_eq_getElem _ _ hi,
    List.getElem_map]

theorem entry_buildMatrix_reactant (reactants products : List (List Char)) (i j : Nat)
    (hi : i < (allElements (reactants ++ products)).length) (hj : j < reactants.length) :
    entry (buildMatrix reactants products) i j =
      (getCount (parseFormula (reactants.getD j []))
        ((allElements (reactants ++ products)).getD i []) : ℚ) := by
  rw [entry, buildMatrix_getD _ _ _ hi, matrixRow_eq,
    List.getD_append _ _ _ _ (by rw [List.length_map]; exact hj),
    List.getD_eq_getElem _ _ (by rw [List.length_map]; exact hj), List.getElem_map,
    List.getD_eq_getElem _ _ hj]

theorem entry_buildMatrix_product (reactants products : List (List Char)) (i j : Nat)
    (hi : i < (allElements (reactants ++ products)).length) (hj : j < products.length) :
    entry (buildMatrix reactants products) i (reactants.length + j) =
      -(getCount (parseFormula (products.getD j []))
        ((allElements (reactants ++ products)).getD i []) : ℚ) := by
  rw [entry, buildMatrix_getD _ _ _ hi, matrixRow_eq,
    List.getD_append_right _ _ _ _ (by rw [List.length_map]; omega), List.length_map,
    Nat.add_sub_cancel_left,
    List.getD_eq_getElem _ _ (by rw [List.length_map]; exact hj), List.getElem_map,
    List.getD_eq_getElem _ _ hj]

/-! ## The claims on groups, counts, digit runs and the matrix -/

/-- C11: for a flat formula `p` (the text of a list of tokens, possibly empty), a string `g`
with balanced parentheses and a run of digits `k`, the formula `p ( g ) k` gives each
element the count it has in `p` plus the value of `k` (`1` when `k` is empty) times the
count it has in `g`; groups nested in `g` do not end the outer group. -/
theorem parseFormula_group (tokens : List Token) (h : ∀ t ∈ tokens, t.WellFormed)
    (g k : List Char) (hg : Balanced g) (hk : ∀ c ∈ k, isDigit c = true) :
    ∀ element,
      getCount (parseFormula (flatText tokens ++ '(' :: (g ++ ')' :: k))) element =
        getCount (parseFormula (flatText tokens)) element +
          countOf k * getCount (parseFormula g) element :=
  fun element => getCount_flat_group tokens h g k hg hk element

theorem parseFormula_group_witness :
    flatText [⟨'C', ['a'], []⟩] ++ '(' :: ("OH".toList ++ ')' :: "2".toList) = "Ca(OH)2".toList ∧
      parseFormula "Ca(OH)2".toList = [("O".toList, 2), ("H".toList, 2), ("Ca".toList, 1)] ∧
      parseFormula "Al2(SO4)3".toList = [("S".toList, 3), ("O".toList, 12), ("Al".toList, 2)] ∧
      parseFormula "K4(Fe(CN)6)2".toList =
        [("C".toList, 12), ("N".toList, 12), ("Fe".toList, 2), ("K".toList, 4)] ∧
      ∀ element,
        getCount (parseFormula
            (flatText [⟨'C', ['a'], []⟩] ++ '(' :: ("OH".toList ++ ')' :: "2".toList))) element =
          getCount (parseFormula (flatText [⟨'C', ['a'], []⟩])) element +
            countOf "2".toList * getCount (parseFormula "OH".toList) element :=
  ⟨by decide, by decide, by decide, by decide,
    parseFormula_group [⟨'C', ['a'], []⟩]
      (by
        intro t ht
        rw [List.mem_singleton] at ht
        subst ht
        exact ⟨by decide, by decide, by decide⟩)
      "OH".toList "2".toList (by decide) (by decide)⟩

/-- The claim C12 fails on `"H0"` and on `"(OH)0"`: a run of digits of value `0` after an
element symbol or after a group gives entries with the count `0`. -/
theorem parseFormula_zero_count :
    parseFormula "H0".toList = [("H".toList, 0)] ∧
      parseFormula "(OH)0".toList = [("O".toList, 0), ("H".toList, 0)] ∧
      ¬ ∀ formula : List Char, ∀ p ∈ parseFormula formula, 1 ≤ p.2 := by
  refine ⟨by decide, by decide, ?_⟩
  intro hall
  have h := hall "H0".toList ("H".toList, 0) (by decide)
  simp at h

/-- C12 as amended: for a formula in which no run of digits starts with the digit `0`
(every `0` comes right after a digit), every entry of the map returned by `parseFormula`
has a count of at least one. Counts are natural numbers, never negative. -/
theorem parseFormula_count_ge_one (formula : List Char)
    (h : noLeadingZero false formula = true) : ∀ p ∈ parseFormula formula, 1 ≤ p.2 :=
  parseFormula_pos formula h

theorem parseFormula_count_ge_one_witness :
    noLeadingZero false "C10H22(OH)20".toList = true ∧
      parseFormula "C10H22(OH)20".toList =
        [("C".toList, 10), ("O".toList, 20), ("H".toList, 42)] ∧
      ∀ p ∈ parseFormula "C10H22(OH)20".toList, 1 ≤ p.2 :=
  ⟨by decide, by decide, parseFormula_count_ge_one "C10H22(OH)20".toList (by decide)⟩

/-- The claim C13 fails on `"2H2"`, `"2H"` and `"H 2"`. The run of digits right after the
`H` has the value `2` in `"2H2"` and there is none in `"2H"` and in `"H 2"`, but the counts
added for the `H` are `22`, `2` and `2`: the digits before the first element symbol stay
in `currentCount`, and a skipped character does not end a run of digits. -/
theorem parseFormula_digits_not_adjacent :
    parseFormula "2H2".toList = [("H".toList, 22)] ∧ specOccurrenceCount "2".toList = 2 ∧
      parseFormula "2H".toList = [("H".toList, 2)] ∧ specOccurrenceCount "".toList = 1 ∧
      parseFormula "H 2".toList = [("H".toList, 2)] ∧ specOccurrenceCount " 2".toList = 1 := by
  decide

/-- C13 as amended: in a formula without `(` in which no digit comes before the first
element symbol, the count added for an occurrence of an element symbol is the value of the
digits between the symbol and the next element symbol or the end of the string, the
characters skipped by the parser left out, and `1` when there is no such digit. The
formula is given by its segments, one for each occurrence; the map is the result of adding
the segments in order. When the text after a symbol is one run of digits, the number of
the segment is what the specification says. -/
theorem parseFormula_occurrences (before : List Char)
    (hb : ∀ c ∈ before, isUpper c = false ∧ c ≠ '(' ∧ isDigit c = false)
    (segments : List Segment) (h : ∀ s ∈ segments, s.WellFormed) :
    parseFormula (before ++ segmentsText segments) =
        segments.foldl (fun acc s => addCount acc s.symbol s.number) [] ∧
      ∀ s : Segment, (∀ c ∈ s.tail, isDigit c = true) → s.number = specOccurrenceCount s.tail := by
  refine ⟨parseFormula_segments before hb segments h, ?_⟩
  intro s hs
  have h1 : s.tail.takeWhile isDigit = s.tail := (takeWhile_dropWhile_all s.tail hs).1
  have h2 : s.tail.filter isDigit = s.tail := List.filter_eq_self.2 hs
  rw [Segment.number, Segment.digits, specOccurrenceCount, h1, h2]

theorem parseFormula_occurrences_witness :
    " ".toList ++ segmentsText [⟨'H', [], " 2".toList⟩, ⟨'O', [], []⟩] = " H 2O".toList ∧
      parseFormula " H 2O".toList = [("H".toList, 2), ("O".toList, 1)] ∧
      (parseFormula (" ".toList ++ segmentsText [⟨'H', [], " 2".toList⟩, ⟨'O', [], []⟩]) =
          [⟨'H', [], " 2".toList⟩, (⟨'O', [], []⟩ : Segment)].foldl
            (fun acc s => addCount acc s.symbol s.number) [] ∧
        ∀ s : Segment, (∀ c ∈ s.tail, isDigit c = true) →
          s.number = specOccurrenceCount s.tail) :=
  ⟨by decide, by decide,
    parseFormula_occurrences " ".toList (by decide)
      [⟨'H', [], " 2".toList⟩, ⟨'O', [], []⟩]
      (by
        intro s hs
        simp only [List.mem_cons, List.mem_singleton, List.not_mem_nil, or_false] at hs
        rcases hs with rfl | rfl
        · exact ⟨by decide, by decide, by decide, by decide⟩
        · exact ⟨by decide, by decide, by decide, by decide⟩)⟩

/-- C14: the matrix built by `balanceEquation` from the reactants and the products has one
row for each element that occurs in a molecule, each element once, and one column for each
molecule, the reactants first; the entry of a row and a reactant is the count of the
element of the row in the reactant, the entry of a row and a product is that count
negated, and the count is `0` when the molecule does not have the element. -/
theorem buildMatrix_rows_columns (reactants products : List (List Char)) :
    (allElements (reactants ++ products)).Nodup ∧
      (∀ e, e ∈ allElements (reactants ++ products) ↔
        ∃ molecule ∈ reactants ++ products, e ∈ (parseFormula molecule).map Prod.fst) ∧
      (buildMatrix reactants products).length = (allElements (reactants ++ products)).length ∧
      (∀ i, i < (allElements (reactants ++ products)).length →
        ((buildMatrix reactants products).getD i []).length =
            reactants.length + products.length ∧
          (∀ j, j < reactants.length →
            entry (buildMatrix reactants products) i j =
              (getCount (parseFormula (reactants.getD j []))
                ((allElements (reactants ++ products)).getD i []) : ℚ)) ∧
          ∀ j, j < products.length →
            entry (buildMatrix reactants products) i (reactants.length + j) =
              -(getCount (parseFormula (products.getD j []))
                ((allElements (reactants ++ products)).getD i []) : ℚ)) ∧
      ∀ (molecule e : List Char), e ∉ (parseFormula molecule).map Prod.fst →
        getCount (parseFormula molecule) e = 0 := by
  obtain ⟨h1, h2⟩ := allElements_spec (reactants ++ products)
  refine ⟨h1, h2, buildMatrix_length _ _, ?_, fun molecule e he => getCount_of_not_mem _ e he⟩
  intro i hi
  refine ⟨?_, fun j hj => entry_buildMatrix_reactant _ _ i j hi hj,
    fun j hj => entry_buildMatrix_product _ _ i j hi hj⟩
  rw [buildMatrix_getD _ _ _ hi]
  exact matrixRow_length _ _ _

theorem buildMatrix_rows_columns_witness :
    buildMatrix ["H2".toList, "O2".toList] ["H2O".toList] = [[2, 0, -2], [0, 2, -1]] ∧
      allElements (["H2".toList, "O2".toList] ++ ["H2O".toList]) = ["H".toList, "O".toList] ∧
      entry (buildMatrix ["H2".toList, "O2".toList] ["H2O".toList]) 1 (2 + 0) =
        -(getCount (parseFormula (["H2O".toList].getD 0 []))
          ((allElements (["H2".toList, "O2".toList] ++ ["H2O".toList])).getD 1 []) : ℚ) :=
  ⟨by decide!, by decide,
    ((buildMatrix_rows_columns ["H2".toList, "O2".toList] ["H2O".toList]).2.2.2.1 1
      (by decide)).2.2 0 (by decide)⟩

/-! ## The loops of the general case -/

theorem placeAtom_eq {R : Type} [Field R] (M : JsMath R) (centralElement element : List Char)
    (atoms : List (Atom R)) (bonds : List Bond) (k : Nat) (h : atoms.length = k + 1) :
    placeAtom M centralElement element ⟨atoms, bonds, k % 8, k / 8⟩ =
      ⟨atoms ++ [placedAtom M centralElement element k],
        bonds ++ [{ fromAtom := 0, toAtom := k + 1, bondType := "single".toList,
                    distance := getBondLength centralElement element }],
        (k + 1) % 8, (k + 1) / 8⟩ := by
  have h1 : (k % 8 + 1) % 8 = (k + 1) % 8 := by omega
  have h2 : (if (k % 8 + 1) % 8 = 0 then k / 8 + 1 else k / 8) = (k + 1) / 8 := by
    split_ifs <;> omega
  simp only [placeAtom, placedAtom, List.length_append, List.length_singleton, h,
    Nat.add_sub_cancel, h1, h2]
  rw [← h1, h2]

/-- The loops of the general case on a list of elements: the atoms and the bonds are the
ones of the closed form. -/
theorem foldl_placeAtom {R : Type} [Field R] (M : JsMath R) (centralElement : List Char)
    (sequence : List (List Char)) (atoms : List (Atom R)) (bonds : List Bond) (k : Nat)
    (h : atoms.length = k + 1) :
    sequence.foldl (fun st element => placeAtom M centralElement element st)
        ⟨atoms, bonds, k % 8, k / 8⟩ =
      ⟨atoms ++ placedAtoms M centralElement k sequence,
        bonds ++ placedBonds centralElement k sequence,
        (k + sequence.length) % 8, (k + sequence.length) / 8⟩ := by
  induction sequence generalizing atoms bonds k with
  | nil => simp [placedAtoms, placedBonds]
  | cons element rest ih =>
    rw [List.foldl_cons, placeAtom_eq M centralElement element atoms bonds k h,
      ih _ _ (k + 1) (by rw [List.length_append, List.length_singleton, h])]
    simp only [placedAtoms, placedBonds, List.append_assoc, List.singleton_append,
      List.length_cons]
    rw [show k + 1 + rest.length = k + (rest.length + 1) by omega]

theorem foldl_const_replicate {R : Type} [Field R] (M : JsMath R)
    (centralElement element : List Char) (n : Nat) (state : Placement R) :
    (List.range n).foldl (fun st _ => placeAtom M centralElement element st) state =
      (List.replicate n element).foldl (fun st el => placeAtom M centralElement el st) state := by
  induction n generalizing state with
  | zero => rfl
  | succ n ih =>
    rw [List.range_succ, List.foldl_append, List.replicate_succ', List.foldl_append, ih]
    rfl

theorem foldl_placeElement {R : Type} [Field R] (M : JsMath R) (centralElement : List Char)
    (elements : List (List Char × ℤ)) (state : Placement R) :
    elements.foldl (placeElement M centralElement) state =
      (expand elements).foldl (fun st el => placeAtom M centralElement el st) state := by
  induction elements generalizing state with
  | nil => rfl
  | cons p rest ih =>
    rw [List.foldl_cons, ih, expand, List.foldl_append, placeElement, foldl_const_replicate]

/-- The geometry of the general case in closed form. -/
theorem generate_general {R : Type} [Field R] (M : JsMath R) (formula : List Char)
    (h : GeneralCase formula) :
    generateSimpleMoleculeStructure M formula =
      { atoms :=
          { element := centralElementOf ((parseFormula formula).map Prod.fst),
            position := ⟨0, 0, 0⟩,
            color := colorOf (centralElementOf ((parseFormula formula).map Prod.fst)),
            radius := radiusOr (centralElementOf ((parseFormula formula).map Prod.fst)) (8 / 10) } ::
            placedAtoms M (centralElementOf ((parseFormula formula).map Prod.fst)) 0
              (expand (decrement (parseFormula formula)
                (centralElementOf ((parseFormula formula).map Prod.fst))))
        bonds :=
          placedBonds (centralElementOf ((parseFormula formula).map Prod.fst)) 0
            (expand (decrement (parseFormula formula)
              (centralElementOf ((parseFormula formula).map Prod.fst)))) } := by
  obtain ⟨h0, h1, h2, h3⟩ := h
  have hlen : ¬ ((parseFormula formula).map Prod.fst).length = 0 := by
    rw [List.length_map, List.length_eq_zero]
    exact h0
  unfold generateSimpleMoleculeStructure
  simp only
  rw [if_neg hlen, if_neg h1, if_neg h2, if_neg h3, foldl_placeElement]
  have := foldl_placeAtom M (centralElementOf ((parseFormula formula).map Prod.fst))
    (expand (decrement (parseFormula formula)
      (centralElementOf ((parseFormula formula).map Prod.fst))))
    [{ element := centralElementOf ((parseFormula formula).map Prod.fst),
       position := ⟨0, 0, 0⟩,
       color := colorOf (centralElementOf ((parseFormula formula).map Prod.fst)),
       radius := radiusOr (centralElementOf ((parseFormula formula).map Prod.fst)) (8 / 10) }]
    [] 0 rfl
  rw [this]
  rfl

/-! ## The cases of `generateSimpleMoleculeStructure` -/

theorem generate_empty {R : Type} [Field R] (M : JsMath R) (formula : List Char)
    (h : parseFormula formula = []) :
    generateSimpleMoleculeStructure M formula = { atoms := [], bonds := [] } := by
  unfold generateSimpleMoleculeStructure
  simp only
  rw [if_pos (by rw [h]; rfl)]

theorem generate_H2 {R : Type} [Field R] (M : JsMath R) :
    generateSimpleMoleculeStructure M "H2".toList =
      { atoms :=
          [{ element := "H".toList, position := ⟨0, 0, 0⟩, color := colorOf "H".toList,
             radius := radiusOr "H".toList 0 },
           { element := "H".toList, position := ⟨0, 0, ((74 / 100 : ℚ) : R)⟩,
             color := colorOf "H".toList, radius := radiusOr "H".toList 0 }]
        bonds :=
          [{ fromAtom := 0, toAtom := 1, bondType := "single".toList, distance := 74 / 100 }] } := by
  unfold generateSimpleMoleculeStructure
  simp only
  rw [if_neg (by decide), if_pos trivial]

theorem generate_O2 {R : Type} [Field R] (M : JsMath R) :
    generateSimpleMoleculeStructure M "O2".toList =
      { atoms :=
          [{ element := "O".toList, position := ⟨0, 0, 0⟩, color := colorOf "O".toList,
             radius := radiusOr "O".toList 0 },
           { element := "O".toList, position := ⟨0, 0, ((148 / 100 : ℚ) : R)⟩,
             color := colorOf "O".toList, radius := radiusOr "O".toList 0 }]
        bonds :=
          [{ fromAtom := 0, toAtom := 1, bondType := "double".toList, distance := 148 / 100 }] } := by
  unfold generateSimpleMoleculeStructure
  simp only
  rw [if_neg (by decide), if_neg (by decide), if_pos trivial]

theorem generate_H2O {R : Type} [Field R] (M : JsMath R) :
    generateSimpleMoleculeStructure M "H2O".toList =
      { atoms :=
          [{ element := "O".toList, position := ⟨0, 0, 0⟩, color := colorOf "O".toList,
             radius := radiusOr "O".toList 0 },
           { element := "H".toList,
             position :=
              ⟨((96 / 100 : ℚ) : R) * M.cos (((1045 / 10 : ℚ) : R) * M.PI / 180 / 2), 0,
                ((96 / 100 : ℚ) : R) * M.sin (((1045 / 10 : ℚ) : R) * M.PI / 180 / 2)⟩,
             color := colorOf "H".toList, radius := radiusOr "H".toList 0 },
           { element := "H".toList,
             position :=
              ⟨-((96 / 100 : ℚ) : R) * M.cos (((1045 / 10 : ℚ) : R) * M.PI / 180 / 2), 0,
                ((96 / 100 : ℚ) : R) * M.sin (((1045 / 10 : ℚ) : R) * M.PI / 180 / 2)⟩,
             color := colorOf "H".toList, radius := radiusOr "H".toList 0 }]
        bonds :=
          [{ fromAtom := 0, toAtom := 1, bondType := "single".toList, distance := 96 / 100 },
           { fromAtom := 0, toAtom := 2, bondType := "single".toList, distance := 96 / 100 }] } := by
  unfold generateSimpleMoleculeStructure
  simp only
  rw [if_neg (by decide), if_neg (by decide), if_neg (by decide), if_pos trivial]

/-- The five cases of `generateSimpleMoleculeStructure`. -/
theorem generate_cases (formula : List Char) :
    parseFormula formula = [] ∨ formula = "H2".toList ∨ formula = "O2".toList ∨
      formula = "H2O".toList ∨ GeneralCase formula := by
  unfold GeneralCase
  tauto

theorem placedAtoms_length {R : Type} [Field R] (M : JsMath R) (centralElement : List Char)
    (sequence : List (List Char)) (k : Nat) :
    (placedAtoms M centralElement k sequence).length = sequence.length := by
  induction sequence generalizing k with
  | nil => rfl
  | cons el rest ih => simp [placedAtoms, ih]

theorem placedBonds_length (centralElement : List Char) (sequence : List (List Char)) (k : Nat) :
    (placedBonds centralElement k sequence).length = sequence.length := by
  induction sequence generalizing k with
  | nil => rfl
  | cons el rest ih => simp [placedBonds, ih]

theorem placedAtoms_elements {R : Type} [Field R] (M : JsMath R) (centralElement : List Char)
    (sequence : List (List Char)) (k : Nat) :
    (placedAtoms M centralElement k sequence).map (fun a => a.element) = sequence := by
  induction sequence generalizing k with
  | nil => rfl
  | cons el rest ih => simp [placedAtoms, placedAtom, ih]

theorem placedAtoms_getElem? {R : Type} [Field R] (M : JsMath R) (centralElement : List Char)
    (sequence : List (List Char)) (k i : Nat) (element : List Char)
    (h : sequence[i]? = some element) :
    (placedAtoms M centralElement k sequence)[i]? =
      some (placedAtom M centralElement element (k + i)) := by
  induction sequence generalizing k i with
  | nil => simp at h
  | cons el rest ih =>
    cases i with
    | zero =>
      simp only [List.getElem?_cons_zero, Option.some.injEq] at h
      subst h
      simp [placedAtoms]
    | succ i =>
      simp only [List.getElem?_cons_succ] at h
      simp only [placedAtoms, List.getElem?_cons_succ]
      rw [ih (k + 1) i h]
      congr 2
      omega

theorem placedBonds_mem (centralElement : List Char) (sequence : List (List Char)) (k : Nat)
    (b : Bond) (h : b ∈ placedBonds centralElement k sequence) :
    ∃ i element, sequence[i]? = some element ∧
      b = { fromAtom := 0, toAtom := k + i + 1, bondType := "single".toList,
            distance := getBondLength centralElement element } := by
  induction sequence generalizing k with
  | nil => simp [placedBonds] at h
  | cons el rest ih =>
    simp only [placedBonds, List.mem_cons] at h
    rcases h with rfl | h
    · exact ⟨0, el, by simp, rfl⟩
    · obtain ⟨i, element, h1, h2⟩ := ih (k + 1) h
      refine ⟨i + 1, element, by simpa using h1, ?_⟩
      rw [h2]
      congr 1
      omega

theorem placedBonds_toAtom (centralElement : List Char) (sequence : List (List Char)) (k : Nat) :
    (placedBonds centralElement k sequence).map (fun b => b.toAtom) =
      List.range' (k + 1) sequence.length := by
  induction sequence generalizing k with
  | nil => rfl
  | cons el rest ih => simp [placedBonds, ih, List.range'_succ]

/-! ## The bonds: a star around atom `0` -/

theorem generate_general_atoms_length {R : Type} [Field R] (M : JsMath R) (formula : List Char)
    (h : GeneralCase formula) :
    (generateSimpleMoleculeStructure M formula).atoms.length =
      (expand (decrement (parseFormula formula)
        (centralElementOf ((parseFormula formula).map Prod.fst)))).length + 1 := by
  rw [generate_general M formula h]
  simp [placedAtoms_length]

/-- In every case the bonds start at atom `0` and their other ends are the atoms `1`, `2`,
… in order. -/
theorem generate_bonds_spec {R : Type} [Field R] (M : JsMath R) (formula : List Char) :
    (∀ b ∈ (generateSimpleMoleculeStructure M formula).bonds, b.fromAtom = 0) ∧
      (generateSimpleMoleculeStructure M formula).bonds.map (fun b => b.toAtom) =
        List.range' 1 ((generateSimpleMoleculeStructure M formula).atoms.length - 1) := by
  rcases generate_cases formula with h | h | h | h | h
  · rw [generate_empty M formula h]
    simp
  · rw [h, generate_H2]
    simp [List.range'_succ]
  · rw [h, generate_O2]
    simp [List.range'_succ]
  · rw [h, generate_H2O]
    simp [List.range'_succ]
  · have hlen := generate_general_atoms_length M formula h
    rw [hlen, generate_general M formula h]
    simp only [Nat.add_sub_cancel]
    refine ⟨?_, placedBonds_toAtom _ _ 0⟩
    intro b hb
    obtain ⟨i, element, _, hb⟩ := placedBonds_mem _ _ _ b hb
    rw [hb]

theorem generate_general_single {R : Type} [Field R] (M : JsMath R) (formula : List Char)
    (h : GeneralCase formula) :
    ∀ b ∈ (generateSimpleMoleculeStructure M formula).bonds, b.bondType = "single".toList := by
  rw [generate_general M formula h]
  intro b hb
  obtain ⟨i, element, _, hb⟩ := placedBonds_mem _ _ _ b hb
  rw [hb]

theorem generate_bonds_star_aux {R : Type} [Field R] (M : JsMath R) (formula : List Char) :
    (∀ b ∈ (generateSimpleMoleculeStructure M formula).bonds,
        b.fromAtom = 0 ∧ 1 ≤ b.toAtom ∧
          b.toAtom < (generateSimpleMoleculeStructure M formula).atoms.length) ∧
      (∀ i, 1 ≤ i → i < (generateSimpleMoleculeStructure M formula).atoms.length →
        ((generateSimpleMoleculeStructure M formula).bonds.map fun b => b.toAtom).count i = 1) ∧
      ((generateSimpleMoleculeStructure M formula).atoms ≠ [] →
        (generateSimpleMoleculeStructure M formula).bonds.length =
          (generateSimpleMoleculeStructure M formula).atoms.length - 1) := by
  obtain ⟨h1, h2⟩ := generate_bonds_spec M formula
  generalize generateSimpleMoleculeStructure M formula = g at h1 h2
  refine ⟨?_, ?_, ?_⟩
  · intro b hb
    have hmem : b.toAtom ∈ List.range' 1 (g.atoms.length - 1) := by
      rw [← h2]
      exact List.mem_map.2 ⟨b, hb, rfl⟩
    rw [List.mem_range'_1] at hmem
    exact ⟨h1 b hb, hmem.1, by omega⟩
  · intro i hi1 hi2
    rw [h2]
    apply List.count_eq_one_of_mem (List.nodup_range' 1 _)
    rw [List.mem_range'_1]
    omega
  · intro _
    have := congrArg List.length h2
    rw [List.length_map, List.length_range'] at this
    exact this

/-! ## The atoms: one for each atom of the parsed formula -/

theorem filter_element_length {R : Type} (atoms : List (Atom R)) (e : List Char) :
    (atoms.filter fun a => a.element = e).length = (atoms.map fun a => a.element).count e := by
  induction atoms with
  | nil => rfl
  | cons a rest ih =>
    rw [List.filter_cons, List.map_cons, List.count_cons]
    by_cases h : a.element = e
    · simp [h, ih]
    · simp [h, ih]

theorem count_expand_of_not_mem (elements : List (List Char × ℤ)) (e : List Char)
    (h : e ∉ elements.map Prod.fst) : (expand elements).count e = 0 := by
  induction elements with
  | nil => rfl
  | cons p rest ih =>
    simp only [List.map_cons, List.mem_cons, not_or] at h
    rw [expand, List.count_append, ih h.2, List.count_replicate]
    have hne : ¬ (p.1 == e) = true := by
      simpa using fun hp => h.1 hp.symm
    simp [hne]

theorem count_expand_cast (elements : ElementCount) (e : List Char)
    (h : (elements.map Prod.fst).Nodup) :
    (expand (elements.map fun p => (p.1, (p.2 : ℤ)))).count e = getCount elements e := by
  induction elements with
  | nil => rfl
  | cons p rest ih =>
    obtain ⟨key, c⟩ := p
    simp only [List.map_cons, List.nodup_cons] at h
    simp only [List.map_cons, expand, List.count_append, List.count_replicate, Int.toNat_ofNat,
      getCount]
    rw [ih h.2]
    by_cases hk : key = e
    · subst hk
      rw [getCount_of_not_mem rest key h.1]
      simp
    · have hne : ¬ (key == e) = true := by simpa using hk
      simp [hk, hne]

theorem keys_cast (elements : ElementCount) :
    (elements.map fun p => (p.1, (p.2 : ℤ))).map Prod.fst = elements.map Prod.fst := by
  simp [List.map_map, Function.comp]

/-- The number of atoms that the loops place for an element: its count, and one less for
the central element (none when its count is `0`). -/
theorem count_expand_decrement (elements : ElementCount) (centralElement e : List Char)
    (h : (elements.map Prod.fst).Nodup) :
    (expand (decrement elements centralElement)).count e =
      if e = centralElement then getCount elements e - 1 else getCount elements e := by
  induction elements with
  | nil => simp [decrement, expand, getCount]
  | cons p rest ih =>
    obtain ⟨key, c⟩ := p
    simp only [List.map_cons, List.nodup_cons] at h
    simp only [decrement]
    by_cases hk : key = centralElement
    · subst hk
      rw [if_pos rfl, expand, List.count_append, count_expand_cast rest e h.2,
        List.count_replicate]
      simp only [getCount]
      by_cases he : key = e
      · subst he
        rw [getCount_of_not_mem rest key h.1]
        simp
      · have hne : ¬ (key == e) = true := by simpa using he
        simp [he, hne, Ne.symm he]
    · rw [if_neg hk, expand, List.count_append, ih h.2, List.count_replicate]
      simp only [getCount, Int.toNat_ofNat]
      by_cases he : key = e
      · subst he
        rw [getCount_of_not_mem rest key h.1]
        simp [hk]
      · have hne : ¬ (key == e) = true := by simpa using he
        simp [he, hne]

/-- The number of atoms with a given element in the general case. -/
theorem atomCount_general {R : Type} [Field R] (M : JsMath R) (formula : List Char)
    (h : GeneralCase formula) (e : List Char) :
    atomCount (generateSimpleMoleculeStructure M formula) e =
      if e = centralElementOf ((parseFormula formula).map Prod.fst) ∧
          getCount (parseFormula formula) e = 0 then 1
      else getCount (parseFormula formula) e := by
  rw [atomCount, filter_element_length, generate_general M formula h]
  simp only [List.map_cons, placedAtoms_elements, List.count_cons]
  rw [count_expand_decrement _ _ _ (parseFormula_nodup formula)]
  by_cases he : e = centralElementOf ((parseFormula formula).map Prod.fst)
  · rw [if_pos he]
    have hb : (centralElementOf ((parseFormula formula).map Prod.fst) == e) = true := by
      simpa using he.symm
    rw [if_pos hb]
    by_cases h0 : getCount (parseFormula formula) e = 0
    · rw [if_pos ⟨he, h0⟩, h0]
    · rw [if_neg (fun hc => h0 hc.2)]
      omega
  · have hb : ¬ (centralElementOf ((parseFormula formula).map Prod.fst) == e) = true := by
      simpa using fun hc => he hc.symm
    rw [if_neg he, if_neg hb, if_neg (fun hc => he hc.1)]
    rfl

/-- The number of atoms with a given element, in every case. -/
theorem atomCount_eq {R : Type} [Field R] (M : JsMath R) (formula : List Char) (e : List Char) :
    atomCount (generateSimpleMoleculeStructure M formula) e =
      if GeneralCase formula ∧ e = centralElementOf ((parseFormula formula).map Prod.fst) ∧
          getCount (parseFormula formula) e = 0 then 1
      else getCount (parseFormula formula) e := by
  rcases generate_cases formula with h | h | h | h | h
  · rw [generate_empty M formula h, if_neg (fun hc => hc.1.1 h), h]
    rfl
  · subst h
    rw [generate_H2, if_neg (fun hc => hc.1.2.1 rfl),
      show parseFormula "H2".toList = [("H".toList, 2)] by decide]
    by_cases he : "H".toList = e
    · subst he
      rfl
    · have he2 : ¬ ['H'] = e := he
      simp [atomCount, getCount, he2]
  · subst h
    rw [generate_O2, if_neg (fun hc => hc.1.2.2.1 rfl),
      show parseFormula "O2".toList = [("O".toList, 2)] by decide]
    by_cases he : "O".toList = e
    · subst he
      rfl
    · have he2 : ¬ ['O'] = e := he
      simp [atomCount, getCount, he2]
  · subst h
    rw [generate_H2O, if_neg (fun hc => hc.1.2.2.2 rfl),
      show parseFormula "H2O".toList = [("H".toList, 2), ("O".toList, 1)] by decide]
    by_cases he : "H".toList = e
    · subst he
      rfl
    · by_cases ho : "O".toList = e
      · subst ho
        rfl
      · have he2 : ¬ ['H'] = e := he
        have ho2 : ¬ ['O'] = e := ho
        simp [atomCount, getCount, he2, ho2]
  · rw [atomCount_general M formula h e]
    by_cases hc : e = centralElementOf ((parseFormula formula).map Prod.fst) ∧
        getCount (parseFormula formula) e = 0
    · rw [if_pos hc, if_pos ⟨h, hc⟩]
    · rw [if_neg hc, if_neg (fun hx => hc hx.2)]

theorem centralElementOf_mem (atomTypes : List (List Char)) (h : atomTypes ≠ []) :
    centralElementOf atomTypes ∈ atomTypes := by
  unfold centralElementOf
  cases hf : atomTypes.find? (fun el => el ≠ "H".toList) with
  | some el => exact List.mem_of_find?_eq_some hf
  | none =>
    cases atomTypes with
    | nil => exact absurd rfl h
    | cons a rest => exact List.mem_cons_self _ _

theorem length_expand_cast (elements : ElementCount) :
    (expand (elements.map fun p => (p.1, (p.2 : ℤ)))).length = (elements.map Prod.snd).sum := by
  induction elements with
  | nil => rfl
  | cons p rest ih =>
    simp only [List.map_cons, expand, List.length_append, List.length_replicate, Int.toNat_ofNat,
      List.sum_cons, ih]

theorem length_expand_decrement (elements : ElementCount) (centralElement : List Char)
    (h : 1 ≤ getCount elements centralElement) :
    (expand (decrement elements centralElement)).length + 1 = (elements.map Prod.snd).sum := by
  induction elements with
  | nil => simp [getCount] at h
  | cons p rest ih =>
    obtain ⟨key, c⟩ := p
    simp only [getCount] at h
    simp only [decrement]
    by_cases hk : key = centralElement
    · rw [if_pos hk] at h
      rw [if_pos hk, expand, List.length_append, length_expand_cast, List.length_replicate]
      simp only [List.map_cons, List.sum_cons]
      omega
    · rw [if_neg hk] at h
      rw [if_neg hk, expand, List.length_append, List.length_replicate]
      simp only [List.map_cons, List.sum_cons, Int.toNat_ofNat]
      have := ih h
      omega

/-- When no count is `0`, the geometry has one atom for each atom of the parsed formula. -/
theorem atomCount_of_pos {R : Type} [Field R] (M : JsMath R) (formula : List Char)
    (hpos : ∀ p ∈ parseFormula formula, 1 ≤ p.2) :
    (∀ e, atomCount (generateSimpleMoleculeStructure M formula) e =
        getCount (parseFormula formula) e) ∧
      (generateSimpleMoleculeStructure M formula).atoms.length =
        ((parseFormula formula).map Prod.snd).sum := by
  have hcentral : GeneralCase formula →
      1 ≤ getCount (parseFormula formula)
        (centralElementOf ((parseFormula formula).map Prod.fst)) := by
    intro hg
    have hmem := centralElementOf_mem ((parseFormula formula).map Prod.fst)
      (fun hc => hg.1 (List.map_eq_nil_iff.1 hc))
    exact hpos _ (getCount_pos_mem _ _ hmem)
  constructor
  · intro e
    rw [atomCount_eq M formula e, if_neg]
    rintro ⟨hg, he, h0⟩
    have := hcentral hg
    rw [← he, h0] at this
    omega
  · rcases generate_cases formula with h | h | h | h | h
    · rw [generate_empty M formula h, h]
      rfl
    · subst h
      rw [generate_H2, show parseFormula "H2".toList = [("H".toList, 2)] by decide]
      rfl
    · subst h
      rw [generate_O2, show parseFormula "O2".toList = [("O".toList, 2)] by decide]
      rfl
    · subst h
      rw [generate_H2O,
        show parseFormula "H2O".toList = [("H".toList, 2), ("O".toList, 1)] by decide]
      rfl
    · rw [generate_general_atoms_length M formula h]
      exact length_expand_decrement _ _ (hcentral h)

/-! ## Bond distances over the real numbers -/

theorem lookup_mem {β : Type} (table : List (List Char × β)) (key : List Char) (v : β)
    (h : table.lookup key = some v) : ∃ k, (k, v) ∈ table := by
  induction table with
  | nil => simp [List.lookup] at h
  | cons p rest ih =>
    obtain ⟨k, w⟩ := p
    rw [List.lookup_cons] at h
    cases hk : key == k
    · rw [hk] at h
      obtain ⟨k2, hk2⟩ := ih h
      exact ⟨k2, List.mem_cons_of_mem _ hk2⟩
    · rw [hk] at h
      simp only [Option.some.injEq] at h
      subst h
      exact ⟨k, List.mem_cons_self _ _⟩

theorem BOND_LENGTHS_pos : ∀ p ∈ BOND_LENGTHS, 0 < p.2 := by
  decide!

theorem ELEMENT_PROPERTIES_pos : ∀ p ∈ ELEMENT_PROPERTIES, 0 < p.2.radius := by
  decide!

theorem radiusOr_pos (element : List Char) (fallback : ℚ) (h : 0 < fallback) :
    0 < radiusOr element fallback := by
  unfold radiusOr
  cases hl : ELEMENT_PROPERTIES.lookup element with
  | none => exact h
  | some property =>
    obtain ⟨k, hk⟩ := lookup_mem _ _ _ hl
    exact ELEMENT_PROPERTIES_pos _ hk

/-- Every bond length is positive. -/
theorem getBondLength_pos (element1 element2 : List Char) : 0 < getBondLength element1 element2 := by
  unfold getBondLength
  cases h1 : BOND_LENGTHS.lookup (element1 ++ '-' :: element2) with
  | some length =>
    obtain ⟨k, hk⟩ := lookup_mem _ _ _ h1
    exact BOND_LENGTHS_pos _ hk
  | none =>
    cases h2 : BOND_LENGTHS.lookup (element2 ++ '-' :: element1) with
    | some length =>
      obtain ⟨k, hk⟩ := lookup_mem _ _ _ h2
      exact BOND_LENGTHS_pos _ hk
    | none =>
      exact add_pos (radiusOr_pos _ _ one_pos) (radiusOr_pos _ _ one_pos)

/-- A point at `r` times a unit direction is at the distance `r` of the origin. -/
theorem sqrt_sphere (r s c s2 c2 : ℝ) (hr : 0 ≤ r) (h1 : s ^ 2 + c ^ 2 = 1)
    (h2 : s2 ^ 2 + c2 ^ 2 = 1) :
    Real.sqrt ((r * s * c2 - 0) ^ 2 + (r * s * s2 - 0) ^ 2 + (r * c - 0) ^ 2) = r := by
  have h : (r * s * c2 - 0) ^ 2 + (r * s * s2 - 0) ^ 2 + (r * c - 0) ^ 2 = r ^ 2 := by
    have : (r * s * c2 - 0) ^ 2 + (r * s * s2 - 0) ^ 2 + (r * c - 0) ^ 2 =
        r ^ 2 * (s ^ 2 * (s2 ^ 2 + c2 ^ 2) + c ^ 2) := by ring
    rw [this, h2, mul_one, h1, mul_one]
  rw [h, Real.sqrt_sq hr]

/-- Over the real numbers a placed atom is at the distance of its bond from the origin. -/
theorem calculateDistance_placedAtom (M : JsMath ℝ) (hM : RealMath M)
    (centralElement element : List Char) (k : Nat) :
    calculateDistance M ⟨0, 0, 0⟩ (placedAtom M centralElement element k).position =
      ((getBondLength centralElement element : ℚ) : ℝ) := by
  obtain ⟨hsin, hcos, hsqrt, _⟩ := hM
  have hr : (0 : ℝ) ≤ ((getBondLength centralElement element : ℚ) : ℝ) := by
    exact_mod_cast le_of_lt (getBondLength_pos centralElement element)
  simp only [calculateDistance, placedAtom, hsin, hcos, hsqrt]
  exact sqrt_sphere _ _ _ _ _ hr (Real.sin_sq_add_cos_sq _) (Real.sin_sq_add_cos_sq _)

/-- Over the real numbers every bond has the Euclidean distance of its two atoms. -/
theorem generate_distance (M : JsMath ℝ) (hM : RealMath M) (formula : List Char) :
    ∀ b ∈ (generateSimpleMoleculeStructure M formula).bonds,
      ∃ a1 a2, (generateSimpleMoleculeStructure M formula).atoms[b.fromAtom]? = some a1 ∧
        (generateSimpleMoleculeStructure M formula).atoms[b.toAtom]? = some a2 ∧
        ((b.distance : ℚ) : ℝ) = calculateDistance M a1.position a2.position := by
  have hM2 := hM
  obtain ⟨hsin, hcos, hsqrt, _⟩ := hM2
  rcases generate_cases formula with h | h | h | h | h
  · rw [generate_empty M formula h]
    simp
  · subst h
    rw [generate_H2]
    intro b hb
    simp only [List.mem_singleton] at hb
    subst hb
    refine ⟨_, _, rfl, rfl, ?_⟩
    simp only [calculateDistance, hsqrt]
    have := sqrt_sphere ((74 / 100 : ℚ) : ℝ) 0 1 0 1 (by norm_num) (by norm_num) (by norm_num)
    simp only [mul_zero, zero_mul, mul_one] at this
    exact this.symm
  · subst h
    rw [generate_O2]
    intro b hb
    simp only [List.mem_singleton] at hb
    subst hb
    refine ⟨_, _, rfl, rfl, ?_⟩
    simp only [calculateDistance, hsqrt]
    have := sqrt_sphere ((148 / 100 : ℚ) : ℝ) 0 1 0 1 (by norm_num) (by norm_num) (by norm_num)
    simp only [mul_zero, zero_mul, mul_one] at this
    exact this.symm
  · subst h
    rw [generate_H2O]
    intro b hb
    simp only [List.mem_cons, List.mem_singleton, List.not_mem_nil, or_false] at hb
    have key : ∀ t : ℝ, Real.sqrt ((((96 / 100 : ℚ) : ℝ) * Real.cos t - 0) ^ 2 + (0 - 0) ^ 2 +
        (((96 / 100 : ℚ) : ℝ) * Real.sin t - 0) ^ 2) = ((96 / 100 : ℚ) : ℝ) := by
      intro t
      have h1 : (((96 / 100 : ℚ) : ℝ) * Real.cos t - 0) ^ 2 + (0 - 0) ^ 2 +
          (((96 / 100 : ℚ) : ℝ) * Real.sin t - 0) ^ 2 =
          ((96 / 100 : ℚ) : ℝ) ^ 2 * (Real.sin t ^ 2 + Real.cos t ^ 2) := by ring
      rw [h1, Real.sin_sq_add_cos_sq, mul_one, Real.sqrt_sq (by norm_num)]
    have key2 : ∀ t : ℝ, Real.sqrt ((-((96 / 100 : ℚ) : ℝ) * Real.cos t - 0) ^ 2 + (0 - 0) ^ 2 +
        (((96 / 100 : ℚ) : ℝ) * Real.sin t - 0) ^ 2) = ((96 / 100 : ℚ) : ℝ) := by
      intro t
      have h1 : (-((96 / 100 : ℚ) : ℝ) * Real.cos t - 0) ^ 2 + (0 - 0) ^ 2 +
          (((96 / 100 : ℚ) : ℝ) * Real.sin t - 0) ^ 2 =
          ((96 / 100 : ℚ) : ℝ) ^ 2 * (Real.sin t ^ 2 + Real.cos t ^ 2) := by ring
      rw [h1, Real.sin_sq_add_cos_sq, mul_one, Real.sqrt_sq (by norm_num)]
    rcases hb with rfl | rfl
    · refine ⟨_, _, rfl, rfl, ?_⟩
      simp only [calculateDistance, hsqrt, hcos, hsin]
      exact (key _).symm
    · refine ⟨_, _, rfl, rfl, ?_⟩
      simp only [calculateDistance, hsqrt, hcos, hsin]
      exact (key2 _).symm
  · rw [generate_general M formula h]
    intro b hb
    obtain ⟨i, element, hi, hb⟩ := placedBonds_mem _ _ _ b hb
    subst hb
    refine ⟨_, placedAtom M (centralElementOf ((parseFormula formula).map Prod.fst)) element i,
      List.getElem?_cons_zero, ?_, ?_⟩
    · simp only [Nat.zero_add, List.getElem?_cons_succ]
      rw [placedAtoms_getElem? M _ _ 0 i element hi, Nat.zero_add]
    · exact (calculateDistance_placedAtom M hM _ _ _).symm

/-! ## The water angle and the spiral over the real numbers -/

theorem water_dot (b t : ℝ) :
    b * Real.cos t * (-b * Real.cos t) + 0 * 0 + b * Real.sin t * (b * Real.sin t) =
      -(b ^ 2 * Real.cos (2 * t)) := by
  rw [Real.cos_two_mul]
  linear_combination b ^ 2 * Real.sin_sq_add_cos_sq t

theorem cos_water_neg : Real.cos ((1045 / 10 : ℝ) * Real.pi / 180) < 0 := by
  apply Real.cos_neg_of_pi_div_two_lt_of_lt
  · have := Real.pi_pos
    linarith
  · have := Real.pi_pos
    linarith

/-- Over the real numbers the atoms placed as numbers `44` and `48` are at the same point
when they have the same element: the direction of level `6` and azimuth index `0` is the
direction of level `5` and azimuth index `4`. -/
theorem placedAtom_overlap (M : JsMath ℝ) (hM : RealMath M) (centralElement element : List Char) :
    (placedAtom M centralElement element 44).position =
      (placedAtom M centralElement element 48).position := by
  obtain ⟨hsin, hcos, _, hpi⟩ := hM
  have e1 : (((44 / 8 : ℕ) : ℕ) : ℝ) * Real.pi / 6 + Real.pi / 12 = Real.pi - Real.pi / 12 := by
    norm_num
    ring
  have e2 : (((48 / 8 : ℕ) : ℕ) : ℝ) * Real.pi / 6 + Real.pi / 12 = Real.pi / 12 + Real.pi := by
    norm_num
    ring
  have e3 : (((44 % 8 : ℕ) : ℕ) : ℝ) * Real.pi / 4 = Real.pi := by
    norm_num
  have e4 : (((48 % 8 : ℕ) : ℕ) : ℝ) * Real.pi / 4 = 0 := by
    norm_num
  simp only [placedAtom, hsin, hcos, hpi, e1, e2, e3, e4, Real.sin_pi_sub, Real.cos_pi_sub,
    Real.sin_add_pi, Real.cos_add_pi, Real.sin_pi, Real.cos_pi, Real.sin_zero, Real.cos_zero,
    Position.mk.injEq]
  refine ⟨by ring, by ring, trivial⟩

/-! ## The claims on the geometry -/

/-- C15: over the real numbers, every bond of the geometry returned by
`generateSimpleMoleculeStructure`, in the special cases and in the general case, joins two
atoms of the geometry and has the Euclidean distance of their positions as its distance. -/
theorem generate_bond_distance (M : JsMath ℝ) (hM : RealMath M) (formula : List Char) :
    ∀ b ∈ (generateSimpleMoleculeStructure M formula).bonds,
      ∃ a1 a2, (generateSimpleMoleculeStructure M formula).atoms[b.fromAtom]? = some a1 ∧
        (generateSimpleMoleculeStructure M formula).atoms[b.toAtom]? = some a2 ∧
        ((b.distance : ℚ) : ℝ) = calculateDistance M a1.position a2.position :=
  generate_distance M hM formula

theorem generate_bond_distance_witness :
    RealMath ⟨Real.sin, Real.cos, Real.sqrt, Real.pi⟩ ∧
      ((generateSimpleMoleculeStructure (⟨Real.sin, Real.cos, Real.sqrt, Real.pi⟩ : JsMath ℝ)
          "CH4".toList).bonds.map fun b => (b.fromAtom, b.toAtom, b.distance)) =
        [(0, 1, 109 / 100), (0, 2, 109 / 100), (0, 3, 109 / 100), (0, 4, 109 / 100)] ∧
      ∀ b ∈ (generateSimpleMoleculeStructure (⟨Real.sin, Real.cos, Real.sqrt, Real.pi⟩ : JsMath ℝ)
          "CH4".toList).bonds,
        ∃ a1 a2,
          (generateSimpleMoleculeStructure (⟨Real.sin, Real.cos, Real.sqrt, Real.pi⟩ : JsMath ℝ)
            "CH4".toList).atoms[b.fromAtom]? = some a1 ∧
          (generateSimpleMoleculeStructure (⟨Real.sin, Real.cos, Real.sqrt, Real.pi⟩ : JsMath ℝ)
            "CH4".toList).atoms[b.toAtom]? = some a2 ∧
          ((b.distance : ℚ) : ℝ) =
            calculateDistance ⟨Real.sin, Real.cos, Real.sqrt, Real.pi⟩ a1.position a2.position :=
  ⟨⟨rfl, rfl, rfl, rfl⟩, by decide!,
    generate_bond_distance ⟨Real.sin, Real.cos, Real.sqrt, Real.pi⟩ ⟨rfl, rfl, rfl, rfl⟩
      "CH4".toList⟩

/-- The code at the failing input of C16, over the real numbers: in the geometry of `"H2O"`
the oxygen is at the origin and both hydrogens are at the distance `0.96` of it, but the
dot product of the two hydrogen position vectors is `-(0.96² · cos(104.5π/180))`, which is
not `0.96² · cos(104.5π/180)`: the angle between the two bonds is `75.5` degrees. -/
theorem generate_water_angle :
    ∃ o h1 h2 : Atom ℝ,
      (generateSimpleMoleculeStructure (⟨Real.sin, Real.cos, Real.sqrt, Real.pi⟩ : JsMath ℝ)
        "H2O".toList).atoms = [o, h1, h2] ∧
      o.position = ⟨0, 0, 0⟩ ∧
      calculateDistance ⟨Real.sin, Real.cos, Real.sqrt, Real.pi⟩ o.position h1.position =
        96 / 100 ∧
      calculateDistance ⟨Real.sin, Real.cos, Real.sqrt, Real.pi⟩ o.position h2.position =
        96 / 100 ∧
      dotPosition h1.position h2.position =
        -((96 / 100 : ℝ) ^ 2 * Real.cos ((1045 / 10 : ℝ) * Real.pi / 180)) ∧
      dotPosition h1.position h2.position ≠
        (96 / 100 : ℝ) ^ 2 * Real.cos ((1045 / 10 : ℝ) * Real.pi / 180) := by
  have hdot : ∀ t : ℝ,
      dotPosition (⟨((96 / 100 : ℚ) : ℝ) * Real.cos (t / 2), 0,
          ((96 / 100 : ℚ) : ℝ) * Real.sin (t / 2)⟩ : Position ℝ)
        ⟨-((96 / 100 : ℚ) : ℝ) * Real.cos (t / 2), 0, ((96 / 100 : ℚ) : ℝ) * Real.sin (t / 2)⟩ =
        -((96 / 100 : ℝ) ^ 2 * Real.cos t) := by
    intro t
    have := water_dot ((96 / 100 : ℚ) : ℝ) (t / 2)
    rw [show 2 * (t / 2) = t by ring] at this
    rw [dotPosition, this]
    norm_num
  have hd1 : ∀ t : ℝ, Real.sqrt ((((96 / 100 : ℚ) : ℝ) * Real.cos t - 0) ^ 2 + (0 - 0) ^ 2 +
      (((96 / 100 : ℚ) : ℝ) * Real.sin t - 0) ^ 2) = 96 / 100 := by
    intro t
    have hq : ((96 / 100 : ℚ) : ℝ) = 96 / 100 := by norm_num
    have h1 : (((96 / 100 : ℚ) : ℝ) * Real.cos t - 0) ^ 2 + (0 - 0) ^ 2 +
        (((96 / 100 : ℚ) : ℝ) * Real.sin t - 0) ^ 2 =
        (96 / 100 : ℝ) ^ 2 * (Real.sin t ^ 2 + Real.cos t ^ 2) := by
      rw [hq]
      ring
    rw [h1, Real.sin_sq_add_cos_sq, mul_one, Real.sqrt_sq (by norm_num)]
  have hd2 : ∀ t : ℝ, Real.sqrt ((-((96 / 100 : ℚ) : ℝ) * Real.cos t - 0) ^ 2 + (0 - 0) ^ 2 +
      (((96 / 100 : ℚ) : ℝ) * Real.sin t - 0) ^ 2) = 96 / 100 := by
    intro t
    have hq : ((96 / 100 : ℚ) : ℝ) = 96 / 100 := by norm_num
    have h1 : (-((96 / 100 : ℚ) : ℝ) * Real.cos t - 0) ^ 2 + (0 - 0) ^ 2 +
        (((96 / 100 : ℚ) : ℝ) * Real.sin t - 0) ^ 2 =
        (96 / 100 : ℝ) ^ 2 * (Real.sin t ^ 2 + Real.cos t ^ 2) := by
      rw [hq]
      ring
    rw [h1, Real.sin_sq_add_cos_sq, mul_one, Real.sqrt_sq (by norm_num)]
  have hangle : ((1045 / 10 : ℚ) : ℝ) * Real.pi / 180 = (1045 / 10 : ℝ) * Real.pi / 180 := by
    norm_num
  rw [generate_H2O]
  refine ⟨_, _, _, rfl, rfl, hd1 _, hd2 _, ?_, ?_⟩
  · exact (hdot _).trans (by rw [hangle])
  · rw [(hdot _).trans (by rw [hangle])]
    have := cos_water_neg
    intro hcon
    nlinarith

/-- The code at the failing input of C17, over the real numbers: in the geometry of `"H50"`,
which has `50` atoms, the atoms `45` and `49` are at the same point. -/
theorem generate_spiral_overlap :
    (generateSimpleMoleculeStructure (⟨Real.sin, Real.cos, Real.sqrt, Real.pi⟩ : JsMath ℝ)
        "H50".toList).atoms.length = 50 ∧
      ∃ a b : Atom ℝ,
        (generateSimpleMoleculeStructure (⟨Real.sin, Real.cos, Real.sqrt, Real.pi⟩ : JsMath ℝ)
          "H50".toList).atoms[45]? = some a ∧
        (generateSimpleMoleculeStructure (⟨Real.sin, Real.cos, Real.sqrt, Real.pi⟩ : JsMath ℝ)
          "H50".toList).atoms[49]? = some b ∧
        a.position = b.position := by
  have hg : GeneralCase "H50".toList := by decide
  have hp : parseFormula "H50".toList = [("H".toList, 50)] := by decide
  have hseq : expand (decrement (parseFormula "H50".toList)
      (centralElementOf ((parseFormula "H50".toList).map Prod.fst))) =
      List.replicate 49 "H".toList := by
    rw [hp]
    decide
  rw [generate_general _ _ hg, hseq]
  refine ⟨by simp [placedAtoms_length], _, _, ?_, ?_,
    placedAtom_overlap ⟨Real.sin, Real.cos, Real.sqrt, Real.pi⟩ ⟨rfl, rfl, rfl, rfl⟩
      (centralElementOf ((parseFormula "H50".toList).map Prod.fst)) "H".toList⟩
  · simp only [List.getElem?_cons_succ]
    rw [placedAtoms_getElem? _ _ _ 0 44 "H".toList (by decide)]
  · simp only [List.getElem?_cons_succ]
    rw [placedAtoms_getElem? _ _ _ 0 48 "H".toList (by decide)]

/-- The claim C18 fails on `"C0"`: the parsed count of `C` is `0` and the sum of the counts
is `0`, but the geometry has one atom, the central atom `C`. -/
theorem generate_zero_count_atom :
    parseFormula "C0".toList = [("C".toList, 0)] ∧
      getCount (parseFormula "C0".toList) "C".toList = 0 ∧
      atomCount (generateSimpleMoleculeStructure
        (⟨Real.sin, Real.cos, Real.sqrt, Real.pi⟩ : JsMath ℝ) "C0".toList) "C".toList = 1 ∧
      (generateSimpleMoleculeStructure
        (⟨Real.sin, Real.cos, Real.sqrt, Real.pi⟩ : JsMath ℝ) "C0".toList).atoms.length = 1 := by
  decide

/-- C18 as amended: for every element the number of atoms of the geometry with that element
is its parsed count, `0` when absent, except that in the general case the central element
has one atom when its count is `0`; so when no count is `0` the geometry has exactly one
atom for each atom of the parsed formula and the number of atoms is the sum of the counts. -/
theorem generate_atom_count {R : Type} [Field R] (M : JsMath R) (formula : List Char) :
    (∀ e, atomCount (generateSimpleMoleculeStructure M formula) e =
        if GeneralCase formula ∧ e = centralElementOf ((parseFormula formula).map Prod.fst) ∧
            getCount (parseFormula formula) e = 0 then 1
        else getCount (parseFormula formula) e) ∧
      ((∀ p ∈ parseFormula formula, 1 ≤ p.2) →
        (∀ e, atomCount (generateSimpleMoleculeStructure M formula) e =
            getCount (parseFormula formula) e) ∧
          (generateSimpleMoleculeStructure M formula).atoms.length =
            ((parseFormula formula).map Prod.snd).sum) :=
  ⟨fun e => atomCount_eq M formula e, fun hpos => atomCount_of_pos M formula hpos⟩

theorem generate_atom_count_witness :
    ((generateSimpleMoleculeStructure (⟨Real.sin, Real.cos, Real.sqrt, Real.pi⟩ : JsMath ℝ)
        "Ca(OH)2".toList).atoms.map fun a => a.element) =
        ["O".toList, "O".toList, "H".toList, "H".toList, "Ca".toList] ∧
      (∀ e, atomCount (generateSimpleMoleculeStructure
          (⟨Real.sin, Real.cos, Real.sqrt, Real.pi⟩ : JsMath ℝ) "Ca(OH)2".toList) e =
        getCount (parseFormula "Ca(OH)2".toList) e) ∧
      (generateSimpleMoleculeStructure (⟨Real.sin, Real.cos, Real.sqrt, Real.pi⟩ : JsMath ℝ)
        "Ca(OH)2".toList).atoms.length = ((parseFormula "Ca(OH)2".toList).map Prod.snd).sum :=
  ⟨by decide,
    (generate_atom_count (⟨Real.sin, Real.cos, Real.sqrt, Real.pi⟩ : JsMath ℝ)
      "Ca(OH)2".toList).2 (by decide)⟩

/-- The code at the failing input of C19: `"Ca(OH)2"` is handled by the general case, the
first element symbol other than `H` in it is `Ca`, but the keys of its parse are `O`, `H`,
`Ca` in this order and atom `0`, at the origin, is an `O`. -/
theorem generate_central_after_group :
    GeneralCase "Ca(OH)2".toList ∧
      (parseFormula "Ca(OH)2".toList).map Prod.fst = ["O".toList, "H".toList, "Ca".toList] ∧
      centralElementOf ((parseFormula "Ca(OH)2".toList).map Prod.fst) = "O".toList ∧
      ∃ a : Atom ℝ,
        (generateSimpleMoleculeStructure (⟨Real.sin, Real.cos, Real.sqrt, Real.pi⟩ : JsMath ℝ)
          "Ca(OH)2".toList).atoms[0]? = some a ∧
        a.element = "O".toList ∧ a.position = ⟨0, 0, 0⟩ := by
  refine ⟨by decide, by decide, by decide, ?_⟩
  rw [generate_general _ _ (by decide)]
  exact ⟨_, rfl, by decide, rfl⟩

/-- C20: in the geometry returned by `generateSimpleMoleculeStructure` every bond starts at
atom `0` and ends at an atom `i` with `1 ≤ i < atoms.length`, every atom other than atom
`0` is the end of exactly one bond, there is one bond less than atoms when there is an
atom, and in the general case every bond is `single`. -/
theorem generate_bonds_star {R : Type} [Field R] (M : JsMath R) (formula : List Char) :
    (∀ b ∈ (generateSimpleMoleculeStructure M formula).bonds,
        b.fromAtom = 0 ∧ 1 ≤ b.toAtom ∧
          b.toAtom < (generateSimpleMoleculeStructure M formula).atoms.length) ∧
      (∀ i, 1 ≤ i → i < (generateSimpleMoleculeStructure M formula).atoms.length →
        ((generateSimpleMoleculeStructure M formula).bonds.map fun b => b.toAtom).count i = 1) ∧
      ((generateSimpleMoleculeStructure M formula).atoms ≠ [] →
        (generateSimpleMoleculeStructure M formula).bonds.length =
          (generateSimpleMoleculeStructure M formula).atoms.length - 1) ∧
      (GeneralCase formula →
        ∀ b ∈ (generateSimpleMoleculeStructure M formula).bonds,
          b.bondType = "single".toList) := by
  obtain ⟨h1, h2, h3⟩ := generate_bonds_star_aux M formula
  exact ⟨h1, h2, h3, fun hg => generate_general_single M formula hg⟩

theorem generate_bonds_star_witness :
    ((generateSimpleMoleculeStructure (⟨Real.sin, Real.cos, Real.sqrt, Real.pi⟩ : JsMath ℝ)
        "CH4".toList).bonds.map fun b => (b.fromAtom, b.toAtom, b.bondType)) =
        [(0, 1, "single".toList), (0, 2, "single".toList), (0, 3, "single".toList),
          (0, 4, "single".toList)] ∧
      (generateSimpleMoleculeStructure (⟨Real.sin, Real.cos, Real.sqrt, Real.pi⟩ : JsMath ℝ)
        "CH4".toList).atoms.length = 5 ∧
      ((generateSimpleMoleculeStructure (⟨Real.sin, Real.cos, Real.sqrt, Real.pi⟩ : JsMath ℝ)
        "CH4".toList).bonds.map fun b => b.toAtom).count 3 = 1 :=
  ⟨by decide, by decide,
    (generate_bonds_star (⟨Real.sin, Real.cos, Real.sqrt, Real.pi⟩ : JsMath ℝ)
      "CH4".toList).2.1 3 (by decide) (by decide)⟩

/-! ## The bond length of a pair of elements -/

theorem lookup_some_mem {β : Type} (table : List (List Char × β)) (key : List Char) (v : β)
    (h : table.lookup key = some v) : (key, v) ∈ table := by
  induction table with
  | nil => simp [List.lookup] at h
  | cons p rest ih =>
    obtain ⟨k, w⟩ := p
    rw [List.lookup_cons] at h
    cases hk : key == k
    · rw [hk] at h
      exact List.mem_cons_of_mem _ (ih h)
    · rw [hk] at h
      simp only [Option.some.injEq] at h
      subst h
      have : key = k := by simpa using hk
      subst this
      exact List.mem_cons_self _ _

/-- A string with one hyphen, at index `1`, is `a-b` for one pair `a`, `b` only. -/
theorem split_hyphen (a b key : List Char) (h : a ++ '-' :: b = key)
    (hkey : ∀ n < key.length, key[n]? = some '-' → n = 1) :
    a = key.take 1 ∧ b = key.drop 2 := by
  have hlen : a.length = 1 := by
    apply hkey a.length
    · rw [← h, List.length_append, List.length_cons]
      omega
    · rw [← h, List.getElem?_append_right (le_refl _), Nat.sub_self]
      exact List.getElem?_cons_zero
  subst h
  constructor
  · rw [← hlen, List.take_left]
  · rw [show 2 = a.length + 1 by omega, List.drop_append_eq_append_drop]
    simp [hlen]

theorem BOND_LENGTHS_hyphen :
    ∀ p ∈ BOND_LENGTHS, ∀ n < p.1.length, p.1[n]? = some '-' → n = 1 := by
  decide

theorem BOND_LENGTHS_swap :
    ∀ p ∈ BOND_LENGTHS,
      BOND_LENGTHS.lookup (p.1.drop 2 ++ '-' :: p.1.take 1) = none ∨
        BOND_LENGTHS.lookup (p.1.drop 2 ++ '-' :: p.1.take 1) = some p.2 := by
  decide!

/-- The two orders of a pair never have two different entries in `BOND_LENGTHS`. -/
theorem BOND_LENGTHS_orders (a b : List Char) (x y : ℚ)
    (h1 : BOND_LENGTHS.lookup (a ++ '-' :: b) = some x)
    (h2 : BOND_LENGTHS.lookup (b ++ '-' :: a) = some y) : x = y := by
  have hmem := lookup_some_mem _ _ _ h1
  obtain ⟨ha, hb⟩ := split_hyphen a b _ rfl (BOND_LENGTHS_hyphen _ hmem)
  have hs := BOND_LENGTHS_swap _ hmem
  simp only at ha hb hs
  rw [← ha, ← hb, h2] at hs
  rcases hs with hs | hs
  · simp at hs
  · exact (Option.some.inj hs).symm

theorem getBondLength_comm (a b : List Char) : getBondLength a b = getBondLength b a := by
  unfold getBondLength
  cases h1 : BOND_LENGTHS.lookup (a ++ '-' :: b) with
  | some x =>
    cases h2 : BOND_LENGTHS.lookup (b ++ '-' :: a) with
    | some y => exact BOND_LENGTHS_orders a b x y h1 h2
    | none => rfl
  | none =>
    cases h2 : BOND_LENGTHS.lookup (b ++ '-' :: a) with
    | some y => rfl
    | none => exact add_comm _ _

/-! ## The columns that did not become a pivot -/

/-- The invariant of the forward elimination, with the pivot column of every row being a
column on which the elimination raised `rank`. -/
theorem pivots_stateBefore {aug0 : Matrix} {m n : Nat} (h0 : Shaped m n aug0)
    (hexact : ExactRun aug0 n m) :
    ∀ k ≤ n, ∃ p,
      Echelon aug0 m n k (stateBefore aug0 n m k).1 (stateBefore aug0 n m k).2 p ∧
        ∀ i < (stateBefore aug0 n m k).2, becamePivot aug0 n m (p i) := by
  intro k
  induction k with
  | zero =>
    intro _
    obtain ⟨p, inv⟩ := echelon_stateBefore h0 hexact 0 (Nat.zero_le _)
    refine ⟨p, inv, ?_⟩
    intro i hi
    exact absurd hi (Nat.not_lt_zero _)
  | succ k ih =>
    intro hk
    obtain ⟨p, inv, hp⟩ := ih (by omega)
    obtain ⟨p', inv', hsame, hrank⟩ := echelon_step_pivots (by omega) inv (hexact k (by omega))
    rw [← stateBefore_succ] at inv' hrank
    refine ⟨p', inv', ?_⟩
    intro i hi
    rcases hrank with hr | ⟨hr, hpk⟩
    · rw [hr] at hi
      rw [hsame i hi]
      exact hp i hi
    · rw [hr] at hi
      by_cases he : i = (stateBefore aug0 n m k).2
      · rw [he, hpk]
        exact hr
      · rw [hsame i (by omega)]
        exact hp i (by omega)

/-- With the tolerance acting as an exact test for zero, the raw solution is `1` in every
column that did not become a pivot. -/
theorem rawSolution_free (matrix : Matrix) (n : Nat) (hrect : ∀ line ∈ matrix, line.length = n)
    (hexact : ExactRun (matrix.map fun line => line ++ [0]) n matrix.length) :
    ∀ c < n, ¬ becamePivot (matrix.map fun line => line ++ [0]) n matrix.length c →
      (rawSolution (matrix.map fun line => line ++ [0]) n matrix.length).getD c 0 = 1 := by
  intro c hc hnot
  have h0 := augmented_shaped matrix n hrect
  obtain ⟨p, inv, hp⟩ := pivots_stateBefore h0 hexact n (le_refl _)
  have hb := backSubstitute_spec inv
  exact hb.free c hc (fun i hi hcon => hnot (hcon ▸ hp i hi))

/-! ## Formulas without an element symbol, equations without an arrow -/

theorem addCount_ne_nil (elements : ElementCount) (el : List Char) (k : Nat) :
    addCount elements el k ≠ [] := by
  cases elements with
  | nil => simp [addCount]
  | cons p ps =>
    obtain ⟨key, c⟩ := p
    simp only [addCount]
    split_ifs <;> simp

theorem mergeScaled_eq_nil (sub elements : ElementCount) (multiplier : Nat) :
    mergeScaled elements sub multiplier = [] ↔ elements = [] ∧ sub = [] := by
  unfold mergeScaled
  induction sub generalizing elements with
  | nil => simp
  | cons p ps ih =>
    rw [List.foldl_cons, ih]
    constructor
    · rintro ⟨h, _⟩
      exact absurd h (addCount_ne_nil _ _ _)
    · rintro ⟨_, h⟩
      simp at h

theorem flush_eq_nil (elements : ElementCount) (currentElement currentCount : List Char) :
    flush elements currentElement currentCount = [] ↔ elements = [] ∧ currentElement = [] := by
  unfold flush
  cases currentElement with
  | nil => simp
  | cons a l =>
    simp only [List.isEmpty_cons, Bool.false_eq_true, if_false]
    constructor
    · intro h
      exact absurd h (addCount_ne_nil _ _ _)
    · rintro ⟨_, h⟩
      simp at h

/-- The uppercase letters of the text scanned by the inner loop of the `(` branch are the
ones of the group and of the text left. -/
theorem scanGroup_upper (rest : List Char) (depth : Nat) :
    (∀ c ∈ rest, isUpper c = false) ↔
      (∀ c ∈ (scanGroup depth rest).1, isUpper c = false) ∧
        ∀ c ∈ (scanGroup depth rest).2, isUpper c = false := by
  induction rest generalizing depth with
  | nil => cases depth <;> simp [scanGroup]
  | cons c rest ih =>
    cases depth with
    | zero => simp [scanGroup]
    | succ d =>
      simp only [scanGroup]
      generalize hdep : (if c = ')' then (if c = '(' then d + 2 else d + 1) - 1
        else if c = '(' then d + 2 else d + 1) = depth
      have h := ih depth
      by_cases hd : depth > 0
      · rw [if_pos hd]
        simp only [List.mem_cons, forall_eq_or_imp]
        rw [h]
        tauto
      · rw [if_neg hd]
        have hc : c = ')' := by
          by_contra hne
          rw [if_neg hne] at hdep
          split_ifs at hdep <;> omega
        have hup : isUpper c = false := by
          rw [hc]
          decide
        simp only [List.mem_cons, forall_eq_or_imp]
        rw [h]
        tauto

theorem dropWhile_digits_upper (l : List Char) :
    (∀ c ∈ l.dropWhile isDigit, isUpper c = false) ↔ ∀ c ∈ l, isUpper c = false := by
  induction l with
  | nil => simp
  | cons a l ih =>
    rw [List.dropWhile_cons]
    by_cases ha : isDigit a = true
    · rw [if_pos ha, ih]
      simp only [List.mem_cons, forall_eq_or_imp]
      have := (isDigit_facts ha).2.2
      tauto
    · rw [if_neg ha]

theorem dropWhile_lower_upper (l : List Char) :
    (∀ c ∈ l.dropWhile isLower, isUpper c = false) ↔ ∀ c ∈ l, isUpper c = false := by
  induction l with
  | nil => simp
  | cons a l ih =>
    rw [List.dropWhile_cons]
    by_cases ha : isLower a = true
    · rw [if_pos ha, ih]
      simp only [List.mem_cons, forall_eq_or_imp]
      have hup : isUpper a = false := by
        rw [isLower_iff] at ha
        rw [Bool.eq_false_iff, ne_eq, isUpper_iff]
        omega
      tauto
    · rw [if_neg ha]

theorem parseFrom_eq_nil_aux (n : Nat) :
    ∀ (rest : List Char), rest.length ≤ n → ∀ (elements : ElementCount)
      (currentElement currentCount : List Char),
      parseFrom rest elements currentElement currentCount = [] ↔
        elements = [] ∧ currentElement = [] ∧ ∀ c ∈ rest, isUpper c = false := by
  induction n with
  | zero =>
    intro rest hlen elements currentElement currentCount
    have : rest = [] := List.length_eq_zero.1 (by omega)
    subst this
    rw [parseFrom_nil, flush_eq_nil]
    simp
  | succ n ih =>
    intro rest hlen elements currentElement currentCount
    cases rest with
    | nil =>
      rw [parseFrom_nil, flush_eq_nil]
      simp
    | cons c rest =>
      have hg := scanGroup_length 1 rest
      have hd1 := dropWhile_length_le isDigit (scanGroup 1 rest).2
      have hd2 := dropWhile_length_le isLower rest
      simp only [List.length_cons] at hlen
      rw [parseFrom_cons]
      simp only [List.mem_cons, forall_eq_or_imp]
      by_cases h1 : c = '('
      · rw [if_pos h1, ih _ (by omega), mergeScaled_eq_nil, ih _ (by omega),
          dropWhile_digits_upper, scanGroup_upper rest 1]
        have hup : isUpper c = false := by
          rw [h1]
          decide
        tauto
      · rw [if_neg h1]
        by_cases h2 : isUpper c = true
        · rw [if_pos h2, ih _ (by omega)]
          constructor
          · rintro ⟨_, h, _⟩
            simp at h
          · rintro ⟨_, _, h, _⟩
            rw [h2] at h
            simp at h
        · rw [if_neg h2]
          rw [Bool.not_eq_true] at h2
          by_cases h3 : isDigit c = true
          · rw [if_pos h3, ih _ (by omega)]
            tauto
          · rw [if_neg h3, ih _ (by omega)]
            tauto

/-- The parse of a formula is empty exactly when the formula has no uppercase letter, that
is no element symbol. -/
theorem parseFormula_eq_nil_iff (formula : List Char) :
    parseFormula formula = [] ↔ ∀ c ∈ formula, isUpper c = false := by
  rw [parseFormula_eq_parseFrom, parseFrom_eq_nil_aux formula.length formula (le_refl _)]
  simp

theorem splitArrow_ne_nil (s : List Char) : splitArrow s ≠ [] := by
  induction s with
  | nil => simp [splitArrow]
  | cons c rest ih =>
    by_cases h : ∀ r, c :: rest ≠ '-' :: '>' :: r
    · rw [splitArrow_cons c rest h]
      split <;> simp
    · push_neg at h
      obtain ⟨r, hr⟩ := h
      rw [hr, splitArrow_arrow]
      simp

/-- A string with the arrow is split into two pieces at least. -/
theorem splitArrow_of_arrow (s : List Char) (h : arrow <:+: s) :
    ∃ first second more, splitArrow s = first :: second :: more := by
  induction s with
  | nil =>
    obtain ⟨a, b, hab⟩ := h
    simp [arrow] at hab
  | cons c rest ih =>
    by_cases hp : ∀ r, c :: rest ≠ '-' :: '>' :: r
    · have hrest : arrow <:+: rest := by
        rcases List.infix_cons_iff.1 h with h1 | h1
        · obtain ⟨r, hr⟩ := h1
          exact absurd hr.symm (hp r)
        · exact h1
      obtain ⟨first, second, more, hs⟩ := ih hrest
      rw [splitArrow_cons c rest hp, hs]
      exact ⟨_, _, _, rfl⟩
    · push_neg at hp
      obtain ⟨r, hr⟩ := hp
      rw [hr, splitArrow_arrow]
      cases hsr : splitArrow r with
      | nil => exact absurd hsr (splitArrow_ne_nil r)
      | cons second more => exact ⟨_, _, _, rfl⟩

/-! ## The claims on the bond length, the raw solution and the failures -/

/-- C21: `getBondLength` is symmetric, for every pair of strings; when neither order of the
pair is in `BOND_LENGTHS` the value is the sum of the two radii, the radius of an element
being the one of `ELEMENT_PROPERTIES`, and `1.0` for an element that is not in the table. -/
theorem getBondLength_symmetric (a b : List Char) :
    getBondLength a b = getBondLength b a ∧
      (BOND_LENGTHS.lookup (a ++ '-' :: b) = none → BOND_LENGTHS.lookup (b ++ '-' :: a) = none →
        getBondLength a b = radiusOr a 1 + radiusOr b 1) ∧
      (∀ property, ELEMENT_PROPERTIES.lookup a = some property →
        radiusOr a 1 = property.radius) ∧
      (ELEMENT_PROPERTIES.lookup a = none → radiusOr a 1 = 1) := by
  refine ⟨getBondLength_comm a b, ?_, ?_, ?_⟩
  · intro h1 h2
    unfold getBondLength
    rw [h1, h2]
  · intro property h
    unfold radiusOr
    rw [h]
  · intro h
    unfold radiusOr
    rw [h]

theorem getBondLength_symmetric_witness :
    getBondLength "O".toList "H".toList = 96 / 100 ∧
      getBondLength "C".toList "H".toList = 109 / 100 ∧
      getBondLength "H".toList "C".toList = 109 / 100 ∧
      getBondLength "Ca".toList "Xx".toList = 276 / 100 ∧
      getBondLength "Ca".toList "Xx".toList = getBondLength "Xx".toList "Ca".toList ∧
      getBondLength "Ca".toList "Xx".toList = radiusOr "Ca".toList 1 + radiusOr "Xx".toList 1 :=
  ⟨by decide!, by decide!, by decide!, by decide!,
    (getBondLength_symmetric "Ca".toList "Xx".toList).1,
    (getBondLength_symmetric "Ca".toList "Xx".toList).2.1 (by decide!) (by decide!)⟩

/-- The claim C22 fails on the matrix of `"X30000000000Y + X -> X30000000002Y"`: the entry
`-1 / 30000000000` that the elimination meets in the second column is below the tolerance
and is taken for zero, the raw solution is `(30000000001 / 30000000000, 1, 1)`, and its dot
product with the row `(1, 0, -1)` is not `0`. -/
theorem rawSolution_not_null :
    buildMatrix ["X30000000000Y".toList, "X".toList] ["X30000000002Y".toList] =
        [[30000000000, 1, -30000000002], [1, 0, -1]] ∧
      rawSolution ([[30000000000, 1, -30000000002], [1, 0, -1]].map fun line => line ++ [0]) 3 2 =
        [30000000001 / 30000000000, 1, 1] ∧
      dot [1, 0, -1] [30000000001 / 30000000000, 1, 1] = 1 / 30000000000 ∧
      ¬ IsNull [[30000000000, 1, -30000000002], [1, 0, -1]]
        (rawSolution ([[30000000000, 1, -30000000002], [1, 0, -1]].map fun line => line ++ [0])
          3 2) := by
  have hraw : rawSolution
      ([[30000000000, 1, -30000000002], [1, 0, -1]].map fun line => line ++ [0]) 3 2 =
      [30000000001 / 30000000000, 1, 1] := by
    decide!
  have hdot : dot [1, 0, -1] [30000000001 / 30000000000, 1, 1] = 1 / 30000000000 := by
    decide!
  refine ⟨by decide!, hraw, hdot, ?_⟩
  intro h
  have h2 := h [1, 0, -1] (by simp)
  rw [hraw, hdot] at h2
  norm_num at h2

/-- C22 as amended: for a non-empty matrix whose rows have one common length, when the
tolerance acts as an exact test for zero during the elimination, the raw solution that
`solveLinearSystem` normalises has one entry for each column, is `1` in every column that
did not become a pivot, however many there are, and satisfies every row of the matrix. -/
theorem rawSolution_free_null (matrix : Matrix) (n : Nat) (hne : matrix ≠ [])
    (hrect : ∀ line ∈ matrix, line.length = n)
    (hexact : ExactRun (matrix.map fun line => line ++ [0]) n matrix.length) :
    solveLinearSystem matrix =
        .ok (normalize (rawSolution (matrix.map fun line => line ++ [0]) n matrix.length)) ∧
      (rawSolution (matrix.map fun line => line ++ [0]) n matrix.length).length = n ∧
      (∀ c < n, ¬ becamePivot (matrix.map fun line => line ++ [0]) n matrix.length c →
        (rawSolution (matrix.map fun line => line ++ [0]) n matrix.length).getD c 0 = 1) ∧
      IsNull matrix (rawSolution (matrix.map fun line => line ++ [0]) n matrix.length) := by
  refine ⟨?_, rawSolution_length _ _ _, rawSolution_free matrix n hrect hexact,
    rawSolution_isNull matrix n hrect hexact⟩
  cases matrix with
  | nil => exact absurd rfl hne
  | cons first others =>
    have hfirst : first.length = n := hrect first (List.mem_cons_self _ _)
    subst hfirst
    rw [solveLinearSystem_eq first others hrect, List.length_map]

theorem rawSolution_free_null_witness :
    rawSolution ([[1, 1, -1, -1], [2, 2, -2, -2]].map fun line => line ++ [0]) 4 2 =
        [1, 1, 1, 1] ∧
      ¬ becamePivot ([[1, 1, -1, -1], [2, 2, -2, -2]].map fun line => line ++ [0]) 4 2 1 ∧
      ¬ becamePivot ([[1, 1, -1, -1], [2, 2, -2, -2]].map fun line => line ++ [0]) 4 2 2 ∧
      ¬ becamePivot ([[1, 1, -1, -1], [2, 2, -2, -2]].map fun line => line ++ [0]) 4 2 3 ∧
      IsNull [[1, 1, -1, -1], [2, 2, -2, -2]]
        (rawSolution ([[1, 1, -1, -1], [2, 2, -2, -2]].map fun line => line ++ [0]) 4
          ([[1, 1, -1, -1], [2, 2, -2, -2]] : Matrix).length) :=
  ⟨by decide!, by decide!, by decide!, by decide!,
    (rawSolution_free_null [[1, 1, -1, -1], [2, 2, -2, -2]] 4 (by simp) (by decide)
      (by decide!)).2.2.2⟩

/-- C23: `balanceEquation` fails exactly when the equation has no arrow or no molecule of
its first two sides has an element symbol, that is an uppercase letter; the consistency
check of the solver never fires on the matrix of an equation, since the column of the
right-hand sides is zero at the start and stays zero during the elimination. -/
theorem balanceEquation_fails_iff (equation : List Char) :
    (balanceEquation equation = .error failureMessage ↔
        ¬ arrow <:+: equation ∨
          ∃ reactantsStr productsStr more,
            (splitArrow equation).map trim = reactantsStr :: productsStr :: more ∧
              ∀ molecule ∈ (splitPlus reactantsStr).map trim ++ (splitPlus productsStr).map trim,
                ∀ c ∈ molecule, isUpper c = false) ∧
      ∀ reactants products : List (List Char),
        LastZero (reactants.length + products.length)
            ((buildMatrix reactants products).map fun line => line ++ [0]) ∧
          LastZero (reactants.length + products.length)
            (forwardElimination ((buildMatrix reactants products).map fun line => line ++ [0])
              (reactants.length + products.length)
              ((buildMatrix reactants products).map fun line => line ++ [0]).length).1 ∧
          consistent
              (forwardElimination ((buildMatrix reactants products).map fun line => line ++ [0])
                (reactants.length + products.length)
                ((buildMatrix reactants products).map fun line => line ++ [0]).length).1
              (reactants.length + products.length)
              ((buildMatrix reactants products).map fun line => line ++ [0]).length
              (forwardElimination ((buildMatrix reactants products).map fun line => line ++ [0])
                (reactants.length + products.length)
                ((buildMatrix reactants products).map fun line => line ++ [0]).length).2 = true ∧
          solveLinearSystem (buildMatrix reactants products) ≠ .error .noSolution := by
  constructor
  · rw [balanceEquation_error_iff]
    constructor
    · intro h
      by_cases harrow : arrow <:+: equation
      · right
        obtain ⟨first, second, more, hs⟩ := splitArrow_of_arrow equation harrow
        refine ⟨trim first, trim second, more.map trim, by rw [hs]; rfl, ?_⟩
        intro molecule hm
        have := (buildMatrix_eq_nil _ _).1 (h (trim first) (trim second) (more.map trim)
          (by rw [hs]; rfl)) molecule hm
        exact (parseFormula_eq_nil_iff molecule).1 this
      · exact Or.inl harrow
    · rintro (h | ⟨a, b, more, hs, hall⟩)
      · intro a b more hs
        rw [splitArrow_of_no_arrow equation h] at hs
        simp at hs
      · intro a' b' more' hs'
        rw [hs] at hs'
        simp only [List.cons.injEq] at hs'
        rw [← hs'.1, ← hs'.2.1, buildMatrix_eq_nil]
        intro molecule hm
        exact (parseFormula_eq_nil_iff molecule).2 (hall molecule hm)
  · intro reactants products
    have hrect := buildMatrix_row_length reactants products
    have h0 := augmented_lastZero (buildMatrix reactants products) _ hrect
    have h1 := forwardElimination_lastZero
      ((buildMatrix reactants products).map fun line => line ++ [0]).length _ h0
    refine ⟨h0, h1, consistent_of_lastZero h1 _ _, ?_⟩
    by_cases hm : buildMatrix reactants products = []
    · rw [hm]
      simp [solveLinearSystem]
    · rw [solveLinearSystem_buildMatrix reactants products hm]
      simp

theorem balanceEquation_fails_iff_witness :
    balanceEquation "H2 + O2 = H2O".toList = .error failureMessage ∧
      balanceEquation "12 + x -> 3y".toList = .error failureMessage ∧
      balanceEquation "A -> B".toList =
        .ok ⟨"A -> B".toList, ["A".toList], ["B".toList], [1], [1]⟩ :=
  ⟨(balanceEquation_fails_iff "H2 + O2 = H2O".toList).1.2 (Or.inl (by decide)),
    by decide!, by decide!⟩
end ChemSolve
